import Mathlib

/-!
# lobster natreg.h : type representation and native function registry

A shallow embedding of `dev/src/natreg.h`.

Memory model.  C++ objects that are compared or linked by address live in
lists that play the role of the heap: the object stored at list position `i`
has address `i + 1`, and address `0` is `nullptr`.  Allocating a new object
appends it to the list, so every existing object keeps its address.

* `Ty` objects (struct `Type`) live in a `List Ty`;
* `Named` objects (the `SubFunction` / `Struct` a `Type` refers to) live in a
  `List Named`;
* `NativeFun` objects live in a `List NativeFun`.

`assert` is modelled as an abort: a computation that fails an assertion, or
dereferences a pointer at which no object lives, has no result.  The clash
branch of `NativeRegistry::Register` is the one place where the code goes on
after a failed assertion (`assert(0); throw ...`); `Register` is therefore
modelled for both builds, with assertions compiled in and compiled out.
-/

namespace lobster

/-! ## Kinds -/

/-- Modelled from the spec: the `ValueType` enumeration is declared outside
natreg.h.  The enumerators are the kinds the spec lists (`Int, Float, String,
Vector, Nilable, Function, Coroutine, Struct, Any, TypeVar`), under the names
natreg.h uses for them. -/
inductive ValueType where
  | V_INT
  | V_FLOAT
  | V_STRING
  | V_VECTOR
  | V_NILABLE
  | V_FUNCTION
  | V_COROUTINE
  | V_STRUCT
  | V_ANY
  | V_VAR
  deriving DecidableEq, Repr

open ValueType

/-- Modelled from the spec: the ordinal of a kind, numbered in the order in
which the spec lists the kinds.  `operator<` compares these ordinals. -/
def ValueType.ord : ValueType → Nat
  | V_INT => 0
  | V_FLOAT => 1
  | V_STRING => 2
  | V_VECTOR => 3
  | V_NILABLE => 4
  | V_FUNCTION => 5
  | V_COROUTINE => 6
  | V_STRUCT => 7
  | V_ANY => 8
  | V_VAR => 9

/-! ## Named and Type -/

/-- The struct `Named`: a name and a registration index (`isprivate` plays no
role in this file). -/
structure Named where
  name : String
  idx : Int
  deriving DecidableEq, Repr

/-- The struct `Type`: the kind `t` and the union payload.  The union members
`sub`, `named`, `sf` and `struc` are one and the same pointer; it is kept as
the address `sub`. -/
structure Ty where
  t : ValueType
  sub : Nat
  deriving DecidableEq, Repr

/-- The object at address `p` of a heap (`nullptr` and addresses past the end
hold nothing). -/
def deref {α : Type} (heap : List α) (p : Nat) : Option α :=
  match p with
  | 0 => none
  | q + 1 => heap.get? q

/-- Overwrites the object at address `p`. -/
def store {α : Type} (heap : List α) (p : Nat) (x : α) : List α :=
  match p with
  | 0 => heap
  | q + 1 => heap.set q x

namespace Ty

/-- The constructor `Type()`: kind `V_ANY`, null payload. -/
def default : Ty := ⟨V_ANY, 0⟩

/-- `bool Wrapped() const { return t == V_VECTOR || t == V_NILABLE; }` -/
def Wrapped (a : Ty) : Bool := a.t == V_VECTOR || a.t == V_NILABLE

/-- `Type::operator==`.
`t == o.t && (sub == o.sub || (Wrapped() && *sub == *o.sub))`, with the
short-circuit evaluation of C++.  One unit of fuel is spent per recursive
call; `none` stands for running out of fuel or dereferencing a pointer that
holds no `Type`. -/
def eq (types : List Ty) : Nat → Ty → Ty → Option Bool
  | fuel, a, o =>
    if a.t = o.t then
      if a.sub = o.sub then some true
      else if a.Wrapped then
        match fuel with
        | 0 => none
        | n + 1 =>
          match deref types a.sub, deref types o.sub with
          | some x, some y => eq types n x y
          | _, _ => none
      else some false
    else some false

/-- `Type::operator!=`. -/
def ne (types : List Ty) (fuel : Nat) (a o : Ty) : Option Bool :=
  (eq types fuel a o).map not

/-- `Type::EqNoIndex`.
`t == o.t && (!Wrapped() || sub->EqNoIndex(*o.sub))`. -/
def EqNoIndex (types : List Ty) : Nat → Ty → Ty → Option Bool
  | fuel, a, o =>
    if a.t = o.t then
      if !a.Wrapped then some true
      else
        match fuel with
        | 0 => none
        | n + 1 =>
          match deref types a.sub, deref types o.sub with
          | some x, some y => EqNoIndex types n x y
          | _, _ => none
    else some false

/-- `Type::operator<`, the order used to sort types for multi-dispatch.  The
`switch (t)` is written as a chain of tests on `t`. -/
def lt (types : List Ty) (nameds : List Named) : Nat → Ty → Ty → Option Bool
  | fuel, a, o =>
    if a.t ≠ o.t then some (decide (a.t.ord < o.t.ord))
    else if a.t = V_VECTOR ∨ a.t = V_NILABLE then
      match fuel with
      | 0 => none
      | n + 1 =>
        match deref types a.sub, deref types o.sub with
        | some x, some y => lt types nameds n x y
        | _, _ => none
    else if a.t = V_FUNCTION ∨ a.t = V_STRUCT then
      match deref nameds a.sub, deref nameds o.sub with
      | some x, some y => some (decide (x.idx < y.idx))
      | _, _ => none
    else some false

/-- `Type::Element`: `assert(Wrapped()); return sub;`. -/
def Element (a : Ty) : Option Nat :=
  if a.Wrapped then some a.sub else none

/-- `Type::Wrap`, called on the object at address `this`:
`*dest = Type(with, this); return dest;`. -/
def Wrap (types : List Ty) (this dest : Nat) (w : ValueType) : List Ty × Nat :=
  (store types dest ⟨w, this⟩, dest)

/-- `Type::UnWrapped`, called on the object `a` at address `this`. -/
def UnWrapped (a : Ty) (this : Nat) : Nat :=
  if a.Wrapped then a.sub else this

/-- `Type::Numeric`. -/
def Numeric (a : Ty) : Bool := a.t == V_INT || a.t == V_FLOAT

/-- `Type::IsFunction`: `t == V_FUNCTION && sf`. -/
def IsFunction (a : Ty) : Bool := a.t == V_FUNCTION && a.sub != 0

/-- Well-formedness of a `Type` up to nesting depth `d`: a Vector or Nilable
carries an element that is itself well-formed (to depth `d - 1`), a Function or
Struct carries a named entity. -/
def WellFormed (types : List Ty) (nameds : List Named) : Nat → Ty → Bool
  | d, a =>
    if a.t = V_VECTOR ∨ a.t = V_NILABLE then
      match d with
      | 0 => false
      | n + 1 =>
        match deref types a.sub with
        | some x => WellFormed types nameds n x
        | none => false
    else if a.t = V_FUNCTION ∨ a.t = V_STRUCT then (deref nameds a.sub).isSome
    else true

end Ty

/-! ## TypeRef and Typed -/

/-- The TypeRef constants that `Typed::Set` uses, which natreg.h declares but
does not define, and the address of the object `g_type_any` a
default-constructed TypeRef points to.  A TypeRef is the address of a `Type`;
the addresses are parameters of the model. -/
structure Globals where
  g_type_any : Nat
  type_int : Nat
  type_float : Nat
  type_string : Nat
  type_any : Nat
  type_vector_any : Nat
  type_function_null : Nat
  type_coroutine : Nat
  deriving DecidableEq, Repr

/-- `TypeRef::operator==`: `*type == *o.type`. -/
def TypeRef.eq (types : List Ty) (fuel : Nat) (p q : Nat) : Option Bool :=
  match deref types p, deref types q with
  | some a, some b => Ty.eq types fuel a b
  | _, _ => none

/-- `TypeRef::operator<`: `*type < *o.type`. -/
def TypeRef.lt (types : List Ty) (nameds : List Named) (fuel : Nat) (p q : Nat) : Option Bool :=
  match deref types p, deref types q with
  | some a, some b => Ty.lt types nameds fuel a b
  | _, _ => none

/-- `enum ArgFlags`: one enumerator, not a bit set. -/
inductive ArgFlags where
  | AF_NONE
  | NF_EXPFUNVAL
  | NF_OPTIONAL
  | AF_ANYTYPE
  | NF_SUBARG1
  | NF_ANYVAR
  | NF_CORESUME
  deriving DecidableEq, Repr

open ArgFlags

/-- The struct `Typed<T>`: `type` is a TypeRef, `id` the address of the owning
identifier (`0` when there is none). -/
structure Typed where
  type : Nat
  flags : ArgFlags
  fixed_len : Int
  id : Nat
  deriving DecidableEq, Repr

/-- `typestorage.push_back(Type()); type = type->Wrap(&typestorage.back(), with);`
The new node gets the first free address. -/
def pushWrap (typestorage : List Ty) (type : Nat) (w : ValueType) : List Ty × Nat :=
  let ts := typestorage ++ [Ty.default]
  Ty.Wrap ts type ts.length w

namespace Typed

/-- `Typed()`: `type` is the default TypeRef, which points to `g_type_any`. -/
def fresh (g : Globals) : Typed := ⟨g.g_type_any, AF_NONE, 0, 0⟩

/-- `Typed::SetType`. -/
def SetType (self : Typed) (type : Nat) (generic : Bool) : Typed :=
  { self with type := type, flags := if generic then AF_ANYTYPE else AF_NONE }

/-- The first `switch` of `Typed::Set`: the TypeRef of an (upper case) base
letter, `none` for the `default: assert(0)` branch. -/
def baseType (g : Globals) (t : Char) : Option Nat :=
  if t = 'I' then some g.type_int
  else if t = 'F' then some g.type_float
  else if t = 'S' then some g.type_string
  else if t = 'V' then some g.type_vector_any
  else if t = 'C' then some g.type_function_null
  else if t = 'R' then some g.type_coroutine
  else if t = 'A' then some g.type_any
  else none

/-- The `while (*tid && !isalpha(*tid))` loop of `Typed::Set`.  The C string is
the list of its characters, the terminating NUL being the end of the list; the
result holds the updated object, the cursor and the type storage.  (`case 0`
of the `switch` cannot be reached inside the loop.) -/
def SetMods : Typed → List Char → List Ty → Option (Typed × List Char × List Ty)
  | self, [], ts => some (self, [], ts)
  | self, c :: rest, ts =>
    if c = Char.ofNat 0 ∨ c.isAlpha = true then some (self, c :: rest, ts)
    else if c = '1' then SetMods { self with flags := NF_SUBARG1 } rest ts
    else if c = '*' then SetMods { self with flags := NF_ANYVAR } rest ts
    else if c = '@' then SetMods { self with flags := NF_EXPFUNVAL } rest ts
    else if c = '%' then SetMods { self with flags := NF_CORESUME } rest ts
    else if c = ']' then
      SetMods { self with type := (pushWrap ts self.type V_VECTOR).2 } rest
        (pushWrap ts self.type V_VECTOR).1
    else if c = '?' then
      SetMods { self with type := (pushWrap ts self.type V_NILABLE).2 } rest
        (pushWrap ts self.type V_NILABLE).1
    else if c = ':' then
      match rest with
      | [] => none
      | d :: rest2 =>
        if '/'.toNat ≤ d.toNat ∧ d.toNat ≤ '9'.toNat then
          SetMods { self with fixed_len := (d.toNat : Int) - ('0'.toNat : Int) } rest2 ts
        else none
    else none

/-- `Typed::Set(const char *&tid, list<Type> &typestorage)`. -/
def Set (g : Globals) (self : Typed) (tid : List Char) (typestorage : List Ty) :
    Option (Typed × List Char × List Ty) :=
  match tid with
  | [] => none
  | c :: rest =>
    let optional : Bool := decide ('a'.toNat ≤ c.toNat ∧ c.toNat ≤ 'z'.toNat)
    let t : Char := if optional then Char.ofNat (c.toNat - ('a'.toNat - 'A'.toNat)) else c
    match baseType g t with
    | none => none
    | some ty =>
      match SetMods { self with type := ty, flags := AF_NONE } rest typestorage with
      | none => none
      | some (s, tid2, ts) =>
        if optional then
          some ({ s with type := (pushWrap ts s.type V_NILABLE).2 }, tid2,
            (pushWrap ts s.type V_NILABLE).1)
        else some (s, tid2, ts)

end Typed

/-- `typedef Typed<Ident> Arg;` -/
abbrev Arg := Typed

/-- The struct `ArgVector`; `idlist` is `none` for a null pointer. -/
structure ArgVector where
  v : List Arg
  idlist : Option (List Char)
  deriving DecidableEq, Repr

/-! ## Native functions and the registry -/

/-- `enum NativeCallMode`. -/
inductive NativeCallMode where
  | NCM_NONE
  | NCM_CONT_EXIT
  deriving DecidableEq, Repr

open NativeCallMode

/-- The struct `NativeFun` (the function pointers and the help text play no
role in this file).  `overloads` and `first` are addresses of `NativeFun`
objects. -/
structure NativeFun where
  name : String
  idx : Int
  args : ArgVector
  retvals : ArgVector
  ncm : NativeCallMode
  subsystemid : Int
  overloads : Nat
  first : Nat
  deriving DecidableEq, Repr

/-- The member initialisers of the constructor `NativeFun::NativeFun`, for the
object at address `this`:
`Named(string(_name), 0), ..., subsystemid(-1), overloads(nullptr), first(this)`.
The lists `args` and `retvals` are given as the constructor body leaves them. -/
def NativeFun.init (this : Nat) (name : String) (args retvals : ArgVector)
    (ncm : NativeCallMode) : NativeFun :=
  { name := name, idx := 0, args := args, retvals := retvals, ncm := ncm,
    subsystemid := -1, overloads := 0, first := this }

/-- Conversion of an unsigned value to `int` (32 bits, two's complement). -/
def toInt (n : Nat) : Int :=
  if n % 2 ^ 32 < 2 ^ 31 then ((n % 2 ^ 32 : Nat) : Int) else ((n % 2 ^ 32 : Nat) : Int) - 2 ^ 32

/-- The expression `size - 1` in `size_t` arithmetic (64 bits). -/
def sizeMinusOne (size : Nat) : Nat := (size + (2 ^ 64 - 1)) % 2 ^ 64

/-- Read-modify-write of the object at address `p` (nothing happens when no
object lives there). -/
def modify {α : Type} (heap : List α) (p : Nat) (f : α → α) : List α :=
  match deref heap p with
  | some x => store heap p (f x)
  | none => heap

/-- The struct `NativeRegistry` (the destructor plays no role; the nodes of
`typestorage` live in the `Type` heap).  `nfunlookup` is the `std::map`: `none`
when the key has no entry. -/
structure NativeRegistry where
  nfuns : List Nat
  nfunlookup : String → Option Nat
  subsystems : List String

/-- The ways `Register` can fail. -/
inductive Failure where
  /-- `assert(0)` fired (assertions compiled in). -/
  | assertion
  /-- The `throw` statement was reached, with its message. -/
  | thrown (msg : String)
  /-- A pointer at which no `NativeFun` lives was dereferenced. -/
  | badPointer
  deriving DecidableEq, Repr

/-- The state `Register` works on: the heap of `NativeFun` objects and the
registry. -/
structure State where
  heap : List NativeFun
  natreg : NativeRegistry

namespace NativeRegistry

/-- A registry as constructed: nothing registered, no subsystem. -/
def empty : NativeRegistry := { nfuns := [], nfunlookup := fun _ => none, subsystems := [] }

/-- `NativeSubSystemStart`. -/
def NativeSubSystemStart (r : NativeRegistry) (name : String) : NativeRegistry :=
  { r with subsystems := r.subsystems ++ [name] }

/-- `std::map::operator[]` followed by an assignment. -/
def setLookup (m : String → Option Nat) (key : String) (p : Nat) : String → Option Nat :=
  fun k => if k = key then some p else m k

/-- The signature test of `Register`: does `nf` differ from `existing` in the
number of arguments, the number of return values, the subsystem or the
calling mode? -/
def clash (nf existing : NativeFun) : Bool :=
  decide (nf.args.v.length ≠ existing.args.v.length) ||
  decide (nf.retvals.v.length ≠ existing.retvals.v.length) ||
  decide (nf.subsystemid ≠ existing.subsystemid) ||
  decide (nf.ncm ≠ existing.ncm)

/-- `NativeRegistry::Register(NativeFun *nf)`.  `ndebug` tells whether
assertions are compiled out: on a clash the code runs `assert(0)` and then
`throw "native library name clash: " + nf->name`. -/
def Register (ndebug : Bool) (s : State) (nf : Nat) : Except Failure State :=
  match deref s.heap nf with
  | none => .error .badPointer
  | some o =>
    -- nf->idx = (int)nfuns.size(); nf->subsystemid = subsystems.size() - 1;
    let o1 : NativeFun :=
      { o with idx := toInt s.natreg.nfuns.length,
               subsystemid := toInt (sizeMinusOne s.natreg.subsystems.length) }
    let heap1 := store s.heap nf o1
    -- auto existing = nfunlookup[nf->name];   (inserts a null entry when absent)
    let existing := (s.natreg.nfunlookup o1.name).getD 0
    let lookup1 := setLookup s.natreg.nfunlookup o1.name existing
    if existing ≠ 0 then
      match deref heap1 existing with
      | none => .error .badPointer
      | some e =>
        if clash o1 e then
          if ndebug then .error (.thrown ("native library name clash: " ++ o1.name))
          else .error .assertion
        else
          -- nf->overloads = existing->overloads;
          let heap2 := modify heap1 nf (fun x => { x with overloads := e.overloads })
          -- existing->overloads = nf;
          let heap3 := modify heap2 existing (fun x => { x with overloads := nf })
          -- nf->first = existing->first;
          match deref heap3 existing with
          | none => .error .badPointer
          | some e3 =>
            let heap4 := modify heap3 nf (fun x => { x with first := e3.first })
            .ok { heap := heap4,
                  natreg := { s.natreg with nfunlookup := lookup1,
                                            nfuns := s.natreg.nfuns ++ [nf] } }
    else
      .ok { heap := heap1,
            natreg := { s.natreg with nfunlookup := setLookup lookup1 o1.name nf,
                                      nfuns := s.natreg.nfuns ++ [nf] } }

/-- `NativeRegistry::FindNative`: the mapped pointer, `nullptr` (0) when the
name has no entry. -/
def FindNative (r : NativeRegistry) (name : String) : Nat :=
  match r.nfunlookup name with
  | some p => p
  | none => 0

end NativeRegistry

/-- A registration site: `NativeSubSystemStart(name)`, or the statement the
`ENDDECL_` form expands to, `natreg.Register(new NativeFun(...))`. -/
inductive Decl where
  | subsystem (name : String)
  | native (name : String) (args retvals : ArgVector) (ncm : NativeCallMode)
  deriving DecidableEq, Repr

namespace State

/-- The state before anything is registered. -/
def empty : State := { heap := [], natreg := NativeRegistry.empty }

/-- Runs one registration site.  `new NativeFun(...)` places the descriptor at
the first free address. -/
def declare (ndebug : Bool) (s : State) : Decl → Except Failure State
  | .subsystem name => .ok { s with natreg := s.natreg.NativeSubSystemStart name }
  | .native name args retvals ncm =>
    NativeRegistry.Register ndebug
      { s with heap := s.heap ++ [NativeFun.init (s.heap.length + 1) name args retvals ncm] }
      (s.heap.length + 1)

/-- Runs registration sites one after the other, stopping at the first
failure. -/
def run (ndebug : Bool) : State → List Decl → Except Failure State
  | s, [] => .ok s
  | s, d :: ds =>
    match declare ndebug s d with
    | .ok s1 => run ndebug s1 ds
    | .error e => .error e

/-- The descriptors registered under `name`, in registration order. -/
def registered (s : State) (name : String) : List Nat :=
  s.natreg.nfuns.filter (fun p => (deref s.heap p).any (fun o => decide (o.name = name)))

end State

/-- The descriptors visited when following `overloads` from `p` until the null
pointer (`none` when the walk does not end within `fuel` steps or leaves the
heap). -/
def overloadChain (heap : List NativeFun) : Nat → Nat → Option (List Nat)
  | _, 0 => some []
  | 0, _ + 1 => none
  | fuel + 1, p + 1 =>
    match deref heap (p + 1) with
    | none => none
    | some o => (overloadChain heap fuel o.overloads).map (fun l => (p + 1) :: l)

/-! ## Reference definitions

The definitions below restate the wording of the specification; the theorems
compare them with the definitions above, which follow the source. -/

/-- Reference definition of the multi-dispatch order: different kinds are
ordered by the ordinal of the kind, two Vectors or two Nilables by their
elements, two Functions or two Structs by the registration index of the entity
they refer to; no other pair is ordered. -/
inductive LtRef (types : List Ty) (nameds : List Named) : Ty → Ty → Prop where
  | kind (a b : Ty) : a.t ≠ b.t → a.t.ord < b.t.ord → LtRef types nameds a b
  | vector (a b x y : Ty) : a.t = V_VECTOR → b.t = V_VECTOR →
      deref types a.sub = some x → deref types b.sub = some y →
      LtRef types nameds x y → LtRef types nameds a b
  | nilable (a b x y : Ty) : a.t = V_NILABLE → b.t = V_NILABLE →
      deref types a.sub = some x → deref types b.sub = some y →
      LtRef types nameds x y → LtRef types nameds a b
  | function (a b : Ty) (x y : Named) : a.t = V_FUNCTION → b.t = V_FUNCTION →
      deref nameds a.sub = some x → deref nameds b.sub = some y →
      x.idx < y.idx → LtRef types nameds a b
  | struct (a b : Ty) (x y : Named) : a.t = V_STRUCT → b.t = V_STRUCT →
      deref nameds a.sub = some x → deref nameds b.sub = some y →
      x.idx < y.idx → LtRef types nameds a b

/-- The pairs of Types on which `operator<` is defined, that is, on which it
reads only objects that exist: Types of different kinds (nothing is read);
two Vectors or two Nilables whose elements exist and are such a pair again;
two Functions or two Structs that both refer to an entity (the code reads
`named->idx` of both); two Types of any other kind (nothing is read). -/
inductive LtDefined (types : List Ty) (nameds : List Named) : Ty → Ty → Prop where
  | kind (a b : Ty) : a.t ≠ b.t → LtDefined types nameds a b
  | wrapped (a b x y : Ty) : a.t = b.t → (a.t = V_VECTOR ∨ a.t = V_NILABLE) →
      deref types a.sub = some x → deref types b.sub = some y →
      LtDefined types nameds x y → LtDefined types nameds a b
  | named (a b : Ty) (x y : Named) : a.t = b.t → (a.t = V_FUNCTION ∨ a.t = V_STRUCT) →
      deref nameds a.sub = some x → deref nameds b.sub = some y → LtDefined types nameds a b
  | other (a b : Ty) : a.t = b.t → a.t ≠ V_VECTOR → a.t ≠ V_NILABLE → a.t ≠ V_FUNCTION →
      a.t ≠ V_STRUCT → LtDefined types nameds a b

/-- Reference definition of index-insensitive equality: the same kind and,
for a Vector or a Nilable, elements that are again of the same shape. -/
inductive SameShape (types : List Ty) : Ty → Ty → Prop where
  | flat (a b : Ty) : a.t = b.t → a.t ≠ V_VECTOR → a.t ≠ V_NILABLE → SameShape types a b
  | wrapped (a b x y : Ty) : a.t = b.t → (a.t = V_VECTOR ∨ a.t = V_NILABLE) →
      deref types a.sub = some x → deref types b.sub = some y →
      SameShape types x y → SameShape types a b

/-- A type as an expression: a wrapped kind around an element, or a kind with
its payload pointer. -/
inductive TypeExpr where
  | leaf (t : ValueType) (payload : Nat)
  | wrap (k : ValueType) (elem : TypeExpr)
  deriving DecidableEq, Repr

/-- Reads the type expression a TypeRef denotes, following element pointers. -/
def readType (types : List Ty) : Nat → Nat → Option TypeExpr
  | fuel, p =>
    match deref types p with
    | none => none
    | some a =>
      if a.Wrapped then
        match fuel with
        | 0 => none
        | n + 1 => (readType types n a.sub).map (TypeExpr.wrap a.t)
      else some (TypeExpr.leaf a.t a.sub)

/-- The upper case base letters of the signature grammar. -/
def baseLetters : List Char := ['I', 'F', 'S', 'V', 'C', 'R', 'A']

/-- The lower case form of a base letter. -/
def lowerCase (c : Char) : Char := Char.ofNat (c.toNat + 32)

/-- Well-formed modifier strings of the signature grammar: any sequence of
`1 * @ % ] ?` and of `:` followed by one character in the range `/` to `9`. -/
def ModifierString : List Char → Bool
  | [] => true
  | c :: rest =>
    if c = '1' ∨ c = '*' ∨ c = '@' ∨ c = '%' ∨ c = ']' ∨ c = '?' then ModifierString rest
    else if c = ':' then
      match rest with
      | [] => false
      | d :: rest2 => decide ('/'.toNat ≤ d.toNat ∧ d.toNat ≤ '9'.toNat) && ModifierString rest2
    else false

/-- What may follow the modifiers of a Parameter: the end of the string or
the letter that starts the next Parameter. -/
def AtBoundary : List Char → Bool
  | [] => true
  | c :: _ => c.isAlpha

/-- The wraps a modifier string asks for: one Vector wrap for each `]` and one
Nilable wrap for each `?`, in order of occurrence. -/
def wrapsOf (m : List Char) : List ValueType :=
  m.filterMap (fun c => if c = ']' then some V_VECTOR else if c = '?' then some V_NILABLE else none)

/-- Applies wraps from left to right, each around the result of the previous
step. -/
def applyWraps (e : TypeExpr) (ws : List ValueType) : TypeExpr :=
  ws.foldl (fun acc w => TypeExpr.wrap w acc) e

/-- The flag a modifier character stands for. -/
def flagOfChar (c : Char) : Option ArgFlags :=
  if c = '1' then some NF_SUBARG1
  else if c = '*' then some NF_ANYVAR
  else if c = '@' then some NF_EXPFUNVAL
  else if c = '%' then some NF_CORESUME
  else none

/-- The flag modifiers of a modifier string, in order of occurrence (the
character after a `:` is a length digit, not a modifier). -/
def flagsOf : List Char → List ArgFlags
  | [] => []
  | c :: rest =>
    if c = ':' then
      match rest with
      | [] => []
      | _ :: rest2 => flagsOf rest2
    else (flagOfChar c).toList ++ flagsOf rest

/-- Applies wraps from left to right in the type storage, each new node
taking the result of the previous step as its element. -/
def wrapAll (typestorage : List Ty) (type : Nat) (ws : List ValueType) : List Ty × Nat :=
  ws.foldl (fun acc w => pushWrap acc.1 acc.2 w) (typestorage, type)

/-- The fixed-length marker a modifier string leaves: the digit of its last
`:` item, the marker held before when it has none. -/
def fixedLenOf (before : Int) : List Char → Int
  | [] => before
  | c :: rest =>
    if c = ':' then
      match rest with
      | [] => before
      | d :: rest2 => fixedLenOf ((d.toNat : Int) - ('0'.toNat : Int)) rest2
    else fixedLenOf before rest

/-- Modelled from the spec: the objects the TypeRef constants point to are
defined outside natreg.h.  By the spec `I` is Int, `F` Float, `S` String, `V`
the vector of any, `C` the function type without a subfunction, `R` Coroutine
and `A` Any; here they sit at the addresses 1 to 7 of a type heap. -/
def staticTypes : List Ty :=
  [⟨V_ANY, 0⟩, ⟨V_INT, 0⟩, ⟨V_FLOAT, 0⟩, ⟨V_STRING, 0⟩, ⟨V_VECTOR, 1⟩, ⟨V_FUNCTION, 0⟩,
   ⟨V_COROUTINE, 0⟩]

/-- Modelled from the spec: the TypeRef constants for `staticTypes`. -/
def staticRefs : Globals :=
  { g_type_any := 1, type_int := 2, type_float := 3, type_string := 4, type_any := 1,
    type_vector_any := 5, type_function_null := 6, type_coroutine := 7 }

/-- The invariant of the states reached by registration.  The registered
descriptors are the objects of the heap, in address order; each carries its
position as registration index; a name nobody registered has no entry in
`nfunlookup`; and for a name with descriptors `d1, rest` (in registration
order) the entry is `d1`, the `overloads` links lead from `d1` through `rest`
backwards to the null pointer, and every `first` link points to `d1`. -/
def State.Inv (s : State) : Prop :=
  s.natreg.nfuns = List.range' 1 s.heap.length ∧
  (∀ q o, deref s.heap q = some o → o.idx = toInt (q - 1)) ∧
  ∀ name,
    (s.registered name = [] → s.natreg.nfunlookup name = none) ∧
    ∀ d1 rest, s.registered name = d1 :: rest →
      s.natreg.nfunlookup name = some d1 ∧
      overloadChain s.heap (rest.length + 1) d1 = some (d1 :: rest.reverse) ∧
      ∀ d ∈ d1 :: rest, (deref s.heap d).map (fun o => o.first) = some d1

/-! ## ArgVector and the NativeFun constructor -/

/-- The characters of a C string up to its terminating NUL: what lies between
`s` and `s + strlen(s)`. -/
def cstring (s : List Char) : List Char := s.takeWhile (fun c => c != Char.ofNat 0)

/-- `strchr(ids, ',')`: `none` when the string has no comma, otherwise the
characters before the first comma and the characters after it. -/
def strchrComma : List Char → Option (List Char × List Char)
  | [] => none
  | c :: rest =>
    if c = Char.ofNat 0 then none
    else if c = ',' then some ([], rest)
    else (strchrComma rest).map (fun ba => (c :: ba.1, ba.2))

namespace ArgVector

/-- `ArgVector(int nargs, const char *_idlist) : v(nargs), idlist(_idlist)`. -/
def new (g : Globals) (nargs : Nat) (idlist : Option (List Char)) : ArgVector :=
  { v := List.replicate nargs (Typed.fresh g), idlist := idlist }

/-- The `for (;;)` loop of `ArgVector::GetName`, entered with the counter `i`
and the cursor `ids`.  With `i` not yet zero a missing comma fails
`assert(!i)`, a comma moves on to `idend + 1` with `i - 1`; with `i` zero the
name `string(ids, idend)` is returned. -/
def scanName : Nat → List Char → Option String
  | 0, ids =>
    match strchrComma ids with
    | none => some (String.mk (cstring ids))
    | some ba => some (String.mk ba.1)
  | i + 1, ids =>
    match strchrComma ids with
    | none => none
    | some ba => scanName i ba.2

/-- `ArgVector::GetName(int i)`.  `idents` is the heap of the identifiers the
`id` pointers refer to.  There is no result when `v[i]` does not exist, when
`id` or `idlist` point nowhere, or when the assertion fails. -/
def GetName (idents : List Named) (av : ArgVector) (i : Nat) : Option String :=
  match av.v.get? i with
  | none => none
  | some a =>
    if a.id ≠ 0 then (deref idents a.id).map (fun n => n.name)
    else
      match av.idlist with
      | none => none
      | some ids => scanName i ids

/-- `ArgVector::Add(const Arg &in)`. -/
def Add (av : ArgVector) (p : Arg) : ArgVector :=
  if av.v.any (fun arg => decide (arg.id = p.id)) then av
  else { av with v := av.v ++ [p] }

end ArgVector

/-- The lambda `TypeLen` of the constructor:
`int i = 0; while (*s) if (isalpha(*s++)) i++; return i;`. -/
def TypeLen : List Char → Nat
  | [] => 0
  | c :: rest =>
    if c = Char.ofNat 0 then 0
    else (if c.isAlpha then 1 else 0) + TypeLen rest

namespace NativeFun

/-- The loop `for (int i = 0; i < nargs; i++)` of the constructor, with
`count` rounds to go from index `i`: `args.GetName(i)` is called for its
assertion, then `args.v[i].Set(typeids, typestorage)`. -/
def argLoop (g : Globals) (idents : List Named) :
    Nat → Nat → ArgVector → List Char → List Ty → Option (ArgVector × List Char × List Ty)
  | 0, _, args, typeids, ts => some (args, typeids, ts)
  | count + 1, i, args, typeids, ts =>
    match args.GetName idents i with
    | none => none
    | some _ =>
      match args.v.get? i with
      | none => none
      | some a =>
        match a.Set g typeids ts with
        | none => none
        | some res =>
          argLoop g idents count (i + 1) { args with v := args.v.set i res.1 } res.2.1 res.2.2

/-- The loop `for (int i = 0; i < nretvalues; i++)` of the constructor:
`retvals.v.push_back(Arg()); retvals.v[i].Set(rets, typestorage);`. -/
def retLoop (g : Globals) :
    Nat → Nat → ArgVector → List Char → List Ty → Option (ArgVector × List Char × List Ty)
  | 0, _, retvals, rets, ts => some (retvals, rets, ts)
  | count + 1, i, retvals, rets, ts =>
    match (retvals.v ++ [Typed.fresh g]).get? i with
    | none => none
    | some a =>
      match a.Set g rets ts with
      | none => none
      | some res =>
        retLoop g count (i + 1)
          { retvals with v := (retvals.v ++ [Typed.fresh g]).set i res.1 } res.2.1 res.2.2

/-- The constructor `NativeFun::NativeFun(_name, f, _ids, typeids, rets, nargs,
_help, _ncm, _cont1, typestorage)` for the object at address `this`.  The
result holds the object, the final positions of the cursors `typeids` and
`rets`, and the type storage; there is none when an assertion fails. -/
def construct (g : Globals) (idents : List Named) (this : Nat) (name : String)
    (ids typeids rets : List Char) (nargs : Nat) (ncm : NativeCallMode) (typestorage : List Ty) :
    Option (NativeFun × List Char × List Char × List Ty) :=
  if TypeLen typeids ≠ nargs then none
  else
    match argLoop g idents nargs 0 (ArgVector.new g nargs (some ids)) typeids typestorage with
    | none => none
    | some a =>
      match retLoop g (TypeLen rets) 0 (ArgVector.new g 0 none) rets a.2.2 with
      | none => none
      | some r => some (NativeFun.init this name a.1 r.1 ncm, a.2.1, r.2.1, r.2.2)

end NativeFun

/-! ## Reference definitions for the strings -/

/-- Names joined by commas. -/
def joinCommas : List (List Char) → List Char
  | [] => []
  | [n] => n
  | n :: n2 :: rest => n ++ ',' :: joinCommas (n2 :: rest)

/-- The number of commas of a C string. -/
def commas (ids : List Char) : Nat := (cstring ids).count ','

/-- The base letters of the signature grammar, in upper or lower case. -/
def isBaseLetter (c : Char) : Bool :=
  decide (c ∈ baseLetters) || decide (c ∈ baseLetters.map lowerCase)

/-- Malformed modifiers, read up to the next letter or the end of the string:
a character that is not one of `1 * @ % ] ? :`, or a `:` that is not followed
by a character in the range `/` to `9`. -/
def malformedMods : List Char → Bool
  | [] => false
  | c :: rest =>
    if c.isAlpha then false
    else if c = '1' ∨ c = '*' ∨ c = '@' ∨ c = '%' ∨ c = ']' ∨ c = '?' then malformedMods rest
    else if c = ':' then
      match rest with
      | [] => true
      | d :: rest2 =>
        if '/'.toNat ≤ d.toNat ∧ d.toNat ≤ '9'.toNat then malformedMods rest2 else true
    else true

/-- Malformed input of the signature parser: the first character is not a
base letter (this includes the empty string), or the modifiers that follow it
are malformed. -/
def Malformed : List Char → Bool
  | [] => true
  | c :: rest => !isBaseLetter c || malformedMods rest

/-- Splits a string before each letter, from the right: the characters before
the first letter, and the letter-led segments. -/
def segAux : List Char → List Char × List (List Char)
  | [] => ([], [])
  | c :: rest =>
    if c.isAlpha then ([], (c :: (segAux rest).1) :: (segAux rest).2)
    else (c :: (segAux rest).1, (segAux rest).2)

/-- The letter-led segments of a signature string. -/
def segments (s : List Char) : List (List Char) := (segAux s).2

/-- Runs the signature parser on each segment by itself, into a fresh
Parameter each time, handing the type storage on; every segment has to be
consumed to its end. -/
def parseSegments (g : Globals) : List (List Char) → List Ty → Option (List Typed × List Ty)
  | [], ts => some ([], ts)
  | seg :: segs, ts =>
    match Typed.Set g (Typed.fresh g) seg ts with
    | some (r, [], ts1) => (parseSegments g segs ts1).map (fun rs => (r :: rs.1, rs.2))
    | _ => none

/-- Well-formed signature strings: a sequence of Parameters, each a base
letter followed by a well-formed modifier string. -/
inductive SignatureString : List Char → Prop where
  | nil : SignatureString []
  | cons (c : Char) (m rest : List Char) : isBaseLetter c = true → ModifierString m = true →
      SignatureString rest → SignatureString (c :: (m ++ rest))

/-- Distinct named entities carry distinct registration indices.  natreg.h
neither establishes nor checks this: Structs and SubFunctions get their
indices outside it. -/
def UniqueIndices (nameds : List Named) : Prop :=
  ∀ p q x y, deref nameds p = some x → deref nameds q = some y → x.idx = y.idx → p = q

end lobster

/-! ## Heap lemmas -/

namespace lobster

open ValueType ArgFlags NativeCallMode

theorem deref_zero {α : Type} (heap : List α) : deref heap 0 = none := rfl

theorem deref_succ {α : Type} (heap : List α) (q : Nat) : deref heap (q + 1) = heap.get? q := rfl

theorem deref_some_pos {α : Type} {heap : List α} {p : Nat} {x : α}
    (h : deref heap p = some x) : 0 < p ∧ p ≤ heap.length := by
  cases p with
  | zero => simp [deref] at h
  | succ q =>
    simp only [deref, List.get?_eq_getElem?] at h
    have := List.getElem?_eq_some_iff.mp h
    obtain ⟨hq, _⟩ := this
    omega

theorem deref_append_left {α : Type} {heap : List α} {p : Nat} {x : α} (ext : List α)
    (h : deref heap p = some x) : deref (heap ++ ext) p = some x := by
  cases p with
  | zero => simp [deref] at h
  | succ q =>
    simp only [deref, List.get?_eq_getElem?] at h ⊢
    have hq := (List.getElem?_eq_some_iff.mp h).1
    rw [List.getElem?_append_left hq]
    exact h

theorem deref_append_new {α : Type} (heap : List α) (x : α) :
    deref (heap ++ [x]) (heap.length + 1) = some x := by
  simp [deref]

/-! ## Type equality -/

theorem Ty.eq_self (types : List Ty) (fuel : Nat) (a : Ty) : Ty.eq types fuel a a = some true := by
  unfold Ty.eq
  simp

/-- More fuel does not change an answer of `operator==`. -/
theorem Ty.eq_mono (types : List Ty) :
    ∀ (n : Nat) (a b : Ty) (r : Bool), Ty.eq types n a b = some r →
      ∀ m, n ≤ m → Ty.eq types m a b = some r := by
  intro n
  induction n with
  | zero =>
    intro a b r h m _
    unfold Ty.eq at h ⊢
    by_cases ht : a.t = b.t
    · by_cases hs : a.sub = b.sub
      · simpa [ht, hs] using h
      · by_cases hw : a.Wrapped = true
        · simp [ht, hs, hw] at h
        · simpa [ht, hs, hw] using h
    · simpa [ht] using h
  | succ n ih =>
    intro a b r h m hm
    obtain ⟨k, rfl⟩ : ∃ k, m = k + 1 := ⟨m - 1, by omega⟩
    unfold Ty.eq at h ⊢
    by_cases ht : a.t = b.t
    · by_cases hs : a.sub = b.sub
      · simpa [ht, hs] using h
      · by_cases hw : a.Wrapped = true
        · simp only [ht, hs, hw, if_true, if_false] at h ⊢
          cases hx : deref types a.sub with
          | none => simp [hx] at h
          | some x =>
            cases hy : deref types b.sub with
            | none => simp [hx, hy] at h
            | some y =>
              simp only [hx, hy] at h ⊢
              exact ih x y r h k (by omega)
        · simpa [ht, hs, hw] using h
    · simpa [ht] using h

theorem Ty.eq_wrapper (types : List Ty) (fuel : Nat) (k : ValueType) (px py : Nat) (X Y : Ty)
    (hk : k = V_VECTOR ∨ k = V_NILABLE)
    (hX : deref types px = some X) (hY : deref types py = some Y) :
    Ty.eq types (fuel + 1) ⟨k, px⟩ ⟨k, py⟩ = Ty.eq types fuel X Y := by
  by_cases hp : px = py
  · subst hp
    rw [hX] at hY
    cases hY
    rw [Ty.eq_self, Ty.eq_self]
  · have hw : Ty.Wrapped ⟨k, px⟩ = true := by
      rcases hk with rfl | rfl <;> rfl
    rw [Ty.eq]
    simp [hp, hw, hX, hY]

/-! ## The multi-dispatch order -/

theorem ValueType.ord_injective {s t : ValueType} (h : s.ord = t.ord) : s = t := by
  cases s <;> cases t <;> first | rfl | (simp [ValueType.ord] at h)

/-- The three groups of kinds `operator<` distinguishes. -/
theorem ValueType.groups (t : ValueType) :
    (t = V_VECTOR ∨ t = V_NILABLE) ∨ (t = V_FUNCTION ∨ t = V_STRUCT) ∨
    (t ≠ V_VECTOR ∧ t ≠ V_NILABLE ∧ t ≠ V_FUNCTION ∧ t ≠ V_STRUCT) := by
  cases t <;> simp

theorem Ty.lt_of_ne (types : List Ty) (nameds : List Named) (n : Nat) (a b : Ty)
    (h : a.t ≠ b.t) : Ty.lt types nameds n a b = some (decide (a.t.ord < b.t.ord)) := by
  unfold Ty.lt
  simp [h]

theorem Ty.lt_wrapped (types : List Ty) (nameds : List Named) (n : Nat) (a b x y : Ty)
    (h : a.t = b.t) (hk : a.t = V_VECTOR ∨ a.t = V_NILABLE)
    (hx : deref types a.sub = some x) (hy : deref types b.sub = some y) :
    Ty.lt types nameds (n + 1) a b = Ty.lt types nameds n x y := by
  rw [Ty.lt]
  rcases hk with hk | hk <;>
    · have hb : b.t = _ := h.symm.trans hk
      simp [hk, hb, hx, hy]

theorem Ty.lt_named (types : List Ty) (nameds : List Named) (n : Nat) (a b : Ty) (x y : Named)
    (h : a.t = b.t) (hk : a.t = V_FUNCTION ∨ a.t = V_STRUCT)
    (hx : deref nameds a.sub = some x) (hy : deref nameds b.sub = some y) :
    Ty.lt types nameds n a b = some (decide (x.idx < y.idx)) := by
  unfold Ty.lt
  rcases hk with hk | hk <;>
    · have hb : b.t = _ := h.symm.trans hk
      simp [hk, hb, hx, hy]

theorem Ty.lt_other (types : List Ty) (nameds : List Named) (n : Nat) (a b : Ty)
    (h : a.t = b.t)
    (hk : a.t ≠ V_VECTOR ∧ a.t ≠ V_NILABLE ∧ a.t ≠ V_FUNCTION ∧ a.t ≠ V_STRUCT) :
    Ty.lt types nameds n a b = some false := by
  unfold Ty.lt
  obtain ⟨h1, h2, h3, h4⟩ := hk
  rw [if_neg (by simpa using h), if_neg (by simp [h1, h2]), if_neg (by simp [h3, h4])]

theorem Ty.WellFormed_wrapped {types : List Ty} {nameds : List Named} {n : Nat} {a : Ty}
    (hk : a.t = V_VECTOR ∨ a.t = V_NILABLE) (h : Ty.WellFormed types nameds n a = true) :
    ∃ k x, n = k + 1 ∧ deref types a.sub = some x ∧ Ty.WellFormed types nameds k x = true := by
  unfold Ty.WellFormed at h
  cases n with
  | zero => rcases hk with hk | hk <;> simp [hk] at h
  | succ k =>
    cases hx : deref types a.sub with
    | none => rcases hk with hk | hk <;> simp [hk, hx] at h
    | some x =>
      refine ⟨k, x, rfl, rfl, ?_⟩
      rcases hk with hk | hk <;> simpa [hk, hx] using h

theorem Ty.WellFormed_named {types : List Ty} {nameds : List Named} {n : Nat} {a : Ty}
    (hk : a.t = V_FUNCTION ∨ a.t = V_STRUCT) (h : Ty.WellFormed types nameds n a = true) :
    ∃ x, deref nameds a.sub = some x := by
  unfold Ty.WellFormed at h
  rcases hk with hk | hk <;> simp [hk] at h <;> exact Option.isSome_iff_exists.mp h

/-- On well-formed types `operator<` returns. -/
theorem Ty.lt_total (types : List Ty) (nameds : List Named) :
    ∀ (n : Nat) (a b : Ty), Ty.WellFormed types nameds n a = true →
      Ty.WellFormed types nameds n b = true → ∃ r, Ty.lt types nameds n a b = some r := by
  intro n
  induction n with
  | zero =>
    intro a b ha hb
    by_cases h : a.t = b.t
    · rcases ValueType.groups a.t with hk | hk | hk
      · obtain ⟨k, _, hn, _⟩ := Ty.WellFormed_wrapped hk ha
        omega
      · obtain ⟨x, hx⟩ := Ty.WellFormed_named hk ha
        obtain ⟨y, hy⟩ := Ty.WellFormed_named (h ▸ hk) hb
        exact ⟨_, Ty.lt_named types nameds 0 a b x y h hk hx hy⟩
      · exact ⟨_, Ty.lt_other types nameds 0 a b h hk⟩
    · exact ⟨_, Ty.lt_of_ne types nameds 0 a b h⟩
  | succ n ih =>
    intro a b ha hb
    by_cases h : a.t = b.t
    · rcases ValueType.groups a.t with hk | hk | hk
      · obtain ⟨k, x, hn, hx, hwx⟩ := Ty.WellFormed_wrapped hk ha
        obtain ⟨k2, y, hn2, hy, hwy⟩ := Ty.WellFormed_wrapped (h ▸ hk) hb
        obtain rfl : k = n := by omega
        obtain rfl : k2 = k := by omega
        rw [Ty.lt_wrapped types nameds _ a b x y h hk hx hy]
        exact ih x y hwx hwy
      · obtain ⟨x, hx⟩ := Ty.WellFormed_named hk ha
        obtain ⟨y, hy⟩ := Ty.WellFormed_named (h ▸ hk) hb
        exact ⟨_, Ty.lt_named types nameds _ a b x y h hk hx hy⟩
      · exact ⟨_, Ty.lt_other types nameds _ a b h hk⟩
    · exact ⟨_, Ty.lt_of_ne types nameds _ a b h⟩

theorem Ty.lt_irrefl (types : List Ty) (nameds : List Named) :
    ∀ (n : Nat) (a : Ty), Ty.WellFormed types nameds n a = true →
      Ty.lt types nameds n a a = some false := by
  intro n
  induction n using Nat.strong_induction_on with
  | _ n ih =>
    intro a ha
    rcases ValueType.groups a.t with hk | hk | hk
    · obtain ⟨k, x, rfl, hx, hwx⟩ := Ty.WellFormed_wrapped hk ha
      rw [Ty.lt_wrapped types nameds k a a x x rfl hk hx hx]
      exact ih k (by omega) x hwx
    · obtain ⟨x, hx⟩ := Ty.WellFormed_named hk ha
      rw [Ty.lt_named types nameds n a a x x rfl hk hx hx]
      simp
    · exact Ty.lt_other types nameds n a a rfl hk

theorem Ty.lt_trans (types : List Ty) (nameds : List Named) :
    ∀ (n : Nat) (a b c : Ty), Ty.WellFormed types nameds n a = true →
      Ty.WellFormed types nameds n b = true → Ty.WellFormed types nameds n c = true →
      Ty.lt types nameds n a b = some true → Ty.lt types nameds n b c = some true →
      Ty.lt types nameds n a c = some true := by
  intro n
  induction n using Nat.strong_induction_on with
  | _ n ih =>
    intro a b c ha hb hc h1 h2
    by_cases hab : a.t = b.t
    · by_cases hbc : b.t = c.t
      · rcases ValueType.groups a.t with hk | hk | hk
        · obtain ⟨k, x, rfl, hx, hwx⟩ := Ty.WellFormed_wrapped hk ha
          obtain ⟨k2, y, hk2, hy, hwy⟩ := Ty.WellFormed_wrapped (hab ▸ hk) hb
          obtain ⟨k3, z, hk3, hz, hwz⟩ := Ty.WellFormed_wrapped (hbc ▸ hab ▸ hk) hc
          obtain rfl : k2 = k := by omega
          obtain rfl : k3 = k2 := by omega
          rw [Ty.lt_wrapped types nameds _ a b x y hab hk hx hy] at h1
          rw [Ty.lt_wrapped types nameds _ b c y z hbc (hab ▸ hk) hy hz] at h2
          rw [Ty.lt_wrapped types nameds _ a c x z (hab.trans hbc) hk hx hz]
          exact ih _ (by omega) x y z hwx hwy hwz h1 h2
        · obtain ⟨x, hx⟩ := Ty.WellFormed_named hk ha
          obtain ⟨y, hy⟩ := Ty.WellFormed_named (hab ▸ hk) hb
          obtain ⟨z, hz⟩ := Ty.WellFormed_named (hbc ▸ hab ▸ hk) hc
          rw [Ty.lt_named types nameds n a b x y hab hk hx hy] at h1
          rw [Ty.lt_named types nameds n b c y z hbc (hab ▸ hk) hy hz] at h2
          rw [Ty.lt_named types nameds n a c x z (hab.trans hbc) hk hx hz]
          simp only [Option.some.injEq, decide_eq_true_eq] at h1 h2 ⊢
          omega
        · rw [Ty.lt_other types nameds n a b hab hk] at h1
          simp at h1
      · have hac : a.t ≠ c.t := fun h => hbc (hab.symm.trans h)
        rw [Ty.lt_of_ne types nameds n b c hbc] at h2
        rw [Ty.lt_of_ne types nameds n a c hac, hab]
        exact h2
    · by_cases hbc : b.t = c.t
      · have hac : a.t ≠ c.t := fun h => hab (h.trans hbc.symm)
        rw [Ty.lt_of_ne types nameds n a b hab] at h1
        rw [Ty.lt_of_ne types nameds n a c hac, ← hbc]
        exact h1
      · rw [Ty.lt_of_ne types nameds n a b hab] at h1
        rw [Ty.lt_of_ne types nameds n b c hbc] at h2
        simp only [Option.some.injEq, decide_eq_true_eq] at h1 h2
        have hac : a.t ≠ c.t := by
          intro h
          rw [h] at h1
          omega
        rw [Ty.lt_of_ne types nameds n a c hac]
        simp only [Option.some.injEq, decide_eq_true_eq]
        omega

theorem Ty.lt_incomp_trans (types : List Ty) (nameds : List Named) :
    ∀ (n : Nat) (a b c : Ty), Ty.WellFormed types nameds n a = true →
      Ty.WellFormed types nameds n b = true → Ty.WellFormed types nameds n c = true →
      Ty.lt types nameds n a b = some false → Ty.lt types nameds n b a = some false →
      Ty.lt types nameds n b c = some false → Ty.lt types nameds n c b = some false →
      Ty.lt types nameds n a c = some false ∧ Ty.lt types nameds n c a = some false := by
  intro n
  induction n using Nat.strong_induction_on with
  | _ n ih =>
    intro a b c ha hb hc h1 h2 h3 h4
    have hab : a.t = b.t := by
      by_contra hne
      rw [Ty.lt_of_ne types nameds n a b hne] at h1
      rw [Ty.lt_of_ne types nameds n b a (fun h => hne h.symm)] at h2
      simp only [Option.some.injEq, decide_eq_false_iff_not] at h1 h2
      exact hne (ValueType.ord_injective (by omega))
    have hbc : b.t = c.t := by
      by_contra hne
      rw [Ty.lt_of_ne types nameds n b c hne] at h3
      rw [Ty.lt_of_ne types nameds n c b (fun h => hne h.symm)] at h4
      simp only [Option.some.injEq, decide_eq_false_iff_not] at h3 h4
      exact hne (ValueType.ord_injective (by omega))
    have hac : a.t = c.t := hab.trans hbc
    rcases ValueType.groups a.t with hk | hk | hk
    · obtain ⟨k, x, rfl, hx, hwx⟩ := Ty.WellFormed_wrapped hk ha
      obtain ⟨k2, y, hk2, hy, hwy⟩ := Ty.WellFormed_wrapped (hab ▸ hk) hb
      obtain ⟨k3, z, hk3, hz, hwz⟩ := Ty.WellFormed_wrapped (hac ▸ hk) hc
      obtain rfl : k2 = k := by omega
      obtain rfl : k3 = k2 := by omega
      rw [Ty.lt_wrapped types nameds _ a b x y hab hk hx hy] at h1
      rw [Ty.lt_wrapped types nameds _ b a y x hab.symm (hab ▸ hk) hy hx] at h2
      rw [Ty.lt_wrapped types nameds _ b c y z hbc (hab ▸ hk) hy hz] at h3
      rw [Ty.lt_wrapped types nameds _ c b z y hbc.symm (hac ▸ hk) hz hy] at h4
      rw [Ty.lt_wrapped types nameds _ a c x z hac hk hx hz]
      rw [Ty.lt_wrapped types nameds _ c a z x hac.symm (hac ▸ hk) hz hx]
      exact ih _ (by omega) x y z hwx hwy hwz h1 h2 h3 h4
    · obtain ⟨x, hx⟩ := Ty.WellFormed_named hk ha
      obtain ⟨y, hy⟩ := Ty.WellFormed_named (hab ▸ hk) hb
      obtain ⟨z, hz⟩ := Ty.WellFormed_named (hac ▸ hk) hc
      rw [Ty.lt_named types nameds n a b x y hab hk hx hy] at h1
      rw [Ty.lt_named types nameds n b a y x hab.symm (hab ▸ hk) hy hx] at h2
      rw [Ty.lt_named types nameds n b c y z hbc (hab ▸ hk) hy hz] at h3
      rw [Ty.lt_named types nameds n c b z y hbc.symm (hac ▸ hk) hz hy] at h4
      rw [Ty.lt_named types nameds n a c x z hac hk hx hz]
      rw [Ty.lt_named types nameds n c a z x hac.symm (hac ▸ hk) hz hx]
      simp only [Option.some.injEq, decide_eq_false_iff_not] at h1 h2 h3 h4 ⊢
      omega
    · exact ⟨Ty.lt_other types nameds n a c hac hk,
        Ty.lt_other types nameds n c a hac.symm (hac ▸ hk)⟩

theorem Ty.lt_asymm (types : List Ty) (nameds : List Named) (n : Nat) (a b : Ty)
    (ha : Ty.WellFormed types nameds n a = true) (hb : Ty.WellFormed types nameds n b = true)
    (h : Ty.lt types nameds n a b = some true) : Ty.lt types nameds n b a = some false := by
  obtain ⟨r, hr⟩ := Ty.lt_total types nameds n b a hb ha
  cases r with
  | false => exact hr
  | true =>
    have h1 := Ty.lt_trans types nameds n a b a ha hb ha h hr
    rw [Ty.lt_irrefl types nameds n a ha] at h1
    simp at h1

theorem Ty.lt_wrapped_inv (types : List Ty) (nameds : List Named) (n : Nat) (a b : Ty) (r : Bool)
    (h : a.t = b.t) (hk : a.t = V_VECTOR ∨ a.t = V_NILABLE)
    (hr : Ty.lt types nameds n a b = some r) :
    ∃ k x y, n = k + 1 ∧ deref types a.sub = some x ∧ deref types b.sub = some y ∧
      Ty.lt types nameds k x y = some r := by
  unfold Ty.lt at hr
  rw [if_neg (by simpa using h), if_pos hk] at hr
  cases n with
  | zero => simp at hr
  | succ k =>
    cases hx : deref types a.sub with
    | none => simp [hx] at hr
    | some x =>
      cases hy : deref types b.sub with
      | none => simp [hx, hy] at hr
      | some y =>
        simp only [hx, hy] at hr
        exact ⟨k, x, y, rfl, rfl, rfl, hr⟩

theorem Ty.lt_named_inv (types : List Ty) (nameds : List Named) (n : Nat) (a b : Ty) (r : Bool)
    (h : a.t = b.t) (hk : a.t = V_FUNCTION ∨ a.t = V_STRUCT)
    (hr : Ty.lt types nameds n a b = some r) :
    ∃ x y, deref nameds a.sub = some x ∧ deref nameds b.sub = some y ∧
      r = decide (x.idx < y.idx) := by
  have hnw : ¬ (a.t = V_VECTOR ∨ a.t = V_NILABLE) := by
    rcases hk with hk | hk <;> simp [hk]
  unfold Ty.lt at hr
  rw [if_neg (by simpa using h), if_neg hnw, if_pos hk] at hr
  cases hx : deref nameds a.sub with
  | none => simp [hx] at hr
  | some x =>
    cases hy : deref nameds b.sub with
    | none => simp [hx, hy] at hr
    | some y =>
      simp only [hx, hy, Option.some.injEq] at hr
      exact ⟨x, y, rfl, rfl, hr.symm⟩

/-- Whenever `operator<` returns, its answer is that of the reference
definition. -/
theorem Ty.lt_iff_LtRef (types : List Ty) (nameds : List Named) :
    ∀ (n : Nat) (a b : Ty) (r : Bool), Ty.lt types nameds n a b = some r →
      (r = true ↔ LtRef types nameds a b) := by
  intro n
  induction n using Nat.strong_induction_on with
  | _ n ih =>
    intro a b r hr
    by_cases hab : a.t = b.t
    · rcases ValueType.groups a.t with hk | hk | hk
      · obtain ⟨k, x, y, rfl, hx, hy, hxy⟩ := Ty.lt_wrapped_inv types nameds n a b r hab hk hr
        have hi := ih k (by omega) x y r hxy
        constructor
        · intro h
          rcases hk with hk | hk
          · exact LtRef.vector a b x y hk (hab ▸ hk) hx hy (hi.mp h)
          · exact LtRef.nilable a b x y hk (hab ▸ hk) hx hy (hi.mp h)
        · intro h
          cases h with
          | kind _ _ hne _ => exact absurd hab hne
          | vector _ _ x2 y2 _ _ hx2 hy2 hl =>
            rw [hx] at hx2
            rw [hy] at hy2
            cases hx2
            cases hy2
            exact hi.mpr hl
          | nilable _ _ x2 y2 _ _ hx2 hy2 hl =>
            rw [hx] at hx2
            rw [hy] at hy2
            cases hx2
            cases hy2
            exact hi.mpr hl
          | function _ _ _ _ hf _ _ _ _ => rcases hk with hk | hk <;> simp [hk] at hf
          | struct _ _ _ _ hf _ _ _ _ => rcases hk with hk | hk <;> simp [hk] at hf
      · obtain ⟨x, y, hx, hy, rfl⟩ := Ty.lt_named_inv types nameds n a b r hab hk hr
        constructor
        · intro h
          have hlt : x.idx < y.idx := by simpa using h
          rcases hk with hk | hk
          · exact LtRef.function a b x y hk (hab ▸ hk) hx hy hlt
          · exact LtRef.struct a b x y hk (hab ▸ hk) hx hy hlt
        · intro h
          cases h with
          | kind _ _ hne _ => exact absurd hab hne
          | vector _ _ _ _ hf _ _ _ _ => rcases hk with hk | hk <;> simp [hk] at hf
          | nilable _ _ _ _ hf _ _ _ _ => rcases hk with hk | hk <;> simp [hk] at hf
          | function _ _ x2 y2 _ _ hx2 hy2 hl =>
            rw [hx] at hx2
            rw [hy] at hy2
            cases hx2
            cases hy2
            simpa using hl
          | struct _ _ x2 y2 _ _ hx2 hy2 hl =>
            rw [hx] at hx2
            rw [hy] at hy2
            cases hx2
            cases hy2
            simpa using hl
      · rw [Ty.lt_other types nameds n a b hab hk] at hr
        cases hr
        constructor
        · intro h
          cases h
        · intro h
          obtain ⟨h1, h2, h3, h4⟩ := hk
          cases h with
          | kind _ _ hne _ => exact absurd hab hne
          | vector _ _ _ _ hf _ _ _ _ => exact absurd hf h1
          | nilable _ _ _ _ hf _ _ _ _ => exact absurd hf h2
          | function _ _ _ _ hf _ _ _ _ => exact absurd hf h3
          | struct _ _ _ _ hf _ _ _ _ => exact absurd hf h4
    · rw [Ty.lt_of_ne types nameds n a b hab] at hr
      cases hr
      constructor
      · intro h
        exact LtRef.kind a b hab (by simpa using h)
      · intro h
        cases h with
        | kind _ _ _ hlt => simpa using hlt
        | vector _ _ _ _ h1 h2 _ _ _ => exact absurd (h1.trans h2.symm) hab
        | nilable _ _ _ _ h1 h2 _ _ _ => exact absurd (h1.trans h2.symm) hab
        | function _ _ _ _ h1 h2 _ _ _ => exact absurd (h1.trans h2.symm) hab
        | struct _ _ _ _ h1 h2 _ _ _ => exact absurd (h1.trans h2.symm) hab

theorem Ty.lt_mono (types : List Ty) (nameds : List Named) :
    ∀ (n : Nat) (a b : Ty) (r : Bool), Ty.lt types nameds n a b = some r →
      ∀ m, n ≤ m → Ty.lt types nameds m a b = some r := by
  intro n
  induction n with
  | zero =>
    intro a b r hr m _
    by_cases hab : a.t = b.t
    · rcases ValueType.groups a.t with hk | hk | hk
      · obtain ⟨k, _, _, hn, _⟩ := Ty.lt_wrapped_inv types nameds 0 a b r hab hk hr
        omega
      · obtain ⟨x, y, hx, hy, rfl⟩ := Ty.lt_named_inv types nameds 0 a b r hab hk hr
        exact Ty.lt_named types nameds m a b x y hab hk hx hy
      · rw [Ty.lt_other types nameds 0 a b hab hk] at hr
        rw [Ty.lt_other types nameds m a b hab hk]
        exact hr
    · rw [Ty.lt_of_ne types nameds 0 a b hab] at hr
      rw [Ty.lt_of_ne types nameds m a b hab]
      exact hr
  | succ n ih =>
    intro a b r hr m hm
    by_cases hab : a.t = b.t
    · rcases ValueType.groups a.t with hk | hk | hk
      · obtain ⟨k, x, y, hn, hx, hy, hxy⟩ :=
          Ty.lt_wrapped_inv types nameds (n + 1) a b r hab hk hr
        have hkn : k = n := by omega
        subst hkn
        obtain ⟨m2, rfl⟩ : ∃ m2, m = m2 + 1 := ⟨m - 1, by omega⟩
        rw [Ty.lt_wrapped types nameds m2 a b x y hab hk hx hy]
        exact ih x y r hxy m2 (by omega)
      · obtain ⟨x, y, hx, hy, rfl⟩ := Ty.lt_named_inv types nameds (n + 1) a b r hab hk hr
        exact Ty.lt_named types nameds m a b x y hab hk hx hy
      · rw [Ty.lt_other types nameds (n + 1) a b hab hk] at hr
        rw [Ty.lt_other types nameds m a b hab hk]
        exact hr
    · rw [Ty.lt_of_ne types nameds (n + 1) a b hab] at hr
      rw [Ty.lt_of_ne types nameds m a b hab]
      exact hr

/-- Whenever `operator<` returns, it was defined on the pair. -/
theorem Ty.lt_LtDefined (types : List Ty) (nameds : List Named) :
    ∀ (n : Nat) (a b : Ty) (r : Bool), Ty.lt types nameds n a b = some r →
      LtDefined types nameds a b := by
  intro n
  induction n using Nat.strong_induction_on with
  | _ n ih =>
    intro a b r hr
    by_cases hab : a.t = b.t
    · rcases ValueType.groups a.t with hk | hk | hk
      · obtain ⟨k, x, y, rfl, hx, hy, hxy⟩ := Ty.lt_wrapped_inv types nameds n a b r hab hk hr
        exact LtDefined.wrapped a b x y hab hk hx hy (ih k (by omega) x y r hxy)
      · obtain ⟨x, y, hx, hy, _⟩ := Ty.lt_named_inv types nameds n a b r hab hk hr
        exact LtDefined.named a b x y hab hk hx hy
      · exact LtDefined.other a b hab hk.1 hk.2.1 hk.2.2.1 hk.2.2.2
    · exact LtDefined.kind a b hab

/-- On a pair on which it is defined, `operator<` returns, given enough fuel. -/
theorem Ty.lt_of_LtDefined (types : List Ty) (nameds : List Named) (a b : Ty)
    (h : LtDefined types nameds a b) : ∃ k r, Ty.lt types nameds k a b = some r := by
  induction h with
  | kind a b hne => exact ⟨0, _, Ty.lt_of_ne types nameds 0 a b hne⟩
  | wrapped a b x y hab hk hx hy _ ih =>
    obtain ⟨k, r, hr⟩ := ih
    exact ⟨k + 1, r, by rw [Ty.lt_wrapped types nameds k a b x y hab hk hx hy]; exact hr⟩
  | named a b x y hab hk hx hy => exact ⟨0, _, Ty.lt_named types nameds 0 a b x y hab hk hx hy⟩
  | other a b hab h1 h2 h3 h4 => exact ⟨0, _, Ty.lt_other types nameds 0 a b hab ⟨h1, h2, h3, h4⟩⟩

/-! ## Index-insensitive equality -/

theorem Ty.Wrapped_iff (a : Ty) : a.Wrapped = true ↔ (a.t = V_VECTOR ∨ a.t = V_NILABLE) := by
  simp [Ty.Wrapped]

theorem Ty.EqNoIndex_iff_SameShape (types : List Ty) :
    ∀ (n : Nat) (a b : Ty) (r : Bool), Ty.EqNoIndex types n a b = some r →
      (r = true ↔ SameShape types a b) := by
  intro n
  induction n with
  | zero =>
    intro a b r hr
    unfold Ty.EqNoIndex at hr
    by_cases hab : a.t = b.t
    · by_cases hw : a.Wrapped = true
      · simp [hab, hw] at hr
      · simp only [hab, hw, if_true] at hr
        simp only [Bool.not_eq_true] at hw
        simp only [hw, Bool.not_false, if_true, Option.some.injEq] at hr
        subst hr
        have hw2 : ¬ (a.t = V_VECTOR ∨ a.t = V_NILABLE) := by
          rw [← Ty.Wrapped_iff]; simp [hw]
        exact ⟨fun _ => SameShape.flat a b hab (fun h => hw2 (Or.inl h)) (fun h => hw2 (Or.inr h)),
          fun _ => rfl⟩
    · simp only [hab, if_false, Option.some.injEq] at hr
      subst hr
      constructor
      · intro h; cases h
      · intro h
        cases h with
        | flat _ _ h1 _ _ => exact absurd h1 hab
        | wrapped _ _ _ _ h1 _ _ _ _ => exact absurd h1 hab
  | succ n ih =>
    intro a b r hr
    unfold Ty.EqNoIndex at hr
    by_cases hab : a.t = b.t
    · by_cases hw : a.Wrapped = true
      · simp only [hab, hw, if_true, Bool.not_true, Bool.false_eq_true, if_false] at hr
        have hk := (Ty.Wrapped_iff a).mp hw
        cases hx : deref types a.sub with
        | none => simp [hx] at hr
        | some x =>
          cases hy : deref types b.sub with
          | none => simp [hx, hy] at hr
          | some y =>
            simp only [hx, hy] at hr
            have hi := ih x y r hr
            constructor
            · intro h
              exact SameShape.wrapped a b x y hab hk hx hy (hi.mp h)
            · intro h
              cases h with
              | flat _ _ _ h1 h2 => rcases hk with hk | hk <;> simp_all
              | wrapped _ _ x2 y2 _ _ hx2 hy2 hs =>
                rw [hx] at hx2
                rw [hy] at hy2
                cases hx2
                cases hy2
                exact hi.mpr hs
      · simp only [hab, hw, if_true] at hr
        simp only [Bool.not_eq_true] at hw
        simp only [hw, Bool.not_false, if_true, Option.some.injEq] at hr
        subst hr
        have hw2 : ¬ (a.t = V_VECTOR ∨ a.t = V_NILABLE) := by
          rw [← Ty.Wrapped_iff]; simp [hw]
        exact ⟨fun _ => SameShape.flat a b hab (fun h => hw2 (Or.inl h)) (fun h => hw2 (Or.inr h)),
          fun _ => rfl⟩
    · simp only [hab, if_false, Option.some.injEq] at hr
      subst hr
      constructor
      · intro h; cases h
      · intro h
        cases h with
        | flat _ _ h1 _ _ => exact absurd h1 hab
        | wrapped _ _ _ _ h1 _ _ _ _ => exact absurd h1 hab

/-- On types whose Vector and Nilable nodes carry elements, `EqNoIndex`
returns. -/
theorem Ty.EqNoIndex_total (types : List Ty) (nameds : List Named) :
    ∀ (n : Nat) (a b : Ty), Ty.WellFormed types nameds n a = true →
      Ty.WellFormed types nameds n b = true → ∃ r, Ty.EqNoIndex types n a b = some r := by
  intro n
  induction n with
  | zero =>
    intro a b ha hb
    unfold Ty.EqNoIndex
    by_cases hab : a.t = b.t
    · by_cases hw : a.Wrapped = true
      · obtain ⟨k, _, hn, _⟩ := Ty.WellFormed_wrapped ((Ty.Wrapped_iff a).mp hw) ha
        omega
      · simp [hab, hw]
    · simp [hab]
  | succ n ih =>
    intro a b ha hb
    unfold Ty.EqNoIndex
    by_cases hab : a.t = b.t
    · by_cases hw : a.Wrapped = true
      · have hk := (Ty.Wrapped_iff a).mp hw
        obtain ⟨k, x, hn, hx, hwx⟩ := Ty.WellFormed_wrapped hk ha
        obtain ⟨k2, y, hn2, hy, hwy⟩ := Ty.WellFormed_wrapped (hab ▸ hk) hb
        obtain rfl : k = n := by omega
        obtain rfl : k2 = k := by omega
        simp only [hab, hw, if_true, Bool.not_true, Bool.false_eq_true, if_false, hx, hy]
        exact ih x y hwx hwy
      · simp [hab, hw]
    · simp [hab]

theorem Ty.EqNoIndex_of_SameShape (types : List Ty) (a b : Ty) (h : SameShape types a b) :
    ∃ n, ∀ m, n ≤ m → Ty.EqNoIndex types m a b = some true := by
  induction h with
  | flat a b hab h1 h2 =>
    refine ⟨0, fun m _ => ?_⟩
    have hw : a.Wrapped = false := by
      cases hw : a.Wrapped with
      | false => rfl
      | true => rcases (Ty.Wrapped_iff a).mp hw with h | h <;> contradiction
    unfold Ty.EqNoIndex
    simp [hab, hw]
  | wrapped a b x y hab hk hx hy _ ih =>
    obtain ⟨n, hn⟩ := ih
    refine ⟨n + 1, fun m hm => ?_⟩
    obtain ⟨k, rfl⟩ : ∃ k, m = k + 1 := ⟨m - 1, by omega⟩
    have hw := (Ty.Wrapped_iff a).mpr hk
    unfold Ty.EqNoIndex
    simp only [hab, hw, if_true, Bool.not_true, Bool.false_eq_true, if_false, hx, hy]
    exact hn k (by omega)

theorem Ty.eq_struct (types : List Ty) (fuel : Nat) (k : ValueType) (A B : Nat)
    (hk : k ≠ V_VECTOR ∧ k ≠ V_NILABLE) :
    Ty.eq types fuel ⟨k, A⟩ ⟨k, B⟩ = some (decide (A = B)) := by
  unfold Ty.eq
  have hw : Ty.Wrapped ⟨k, A⟩ = false := by
    cases hw : Ty.Wrapped ⟨k, A⟩ with
    | false => rfl
    | true =>
      rcases (Ty.Wrapped_iff _).mp hw with h | h
      · exact absurd h hk.1
      · exact absurd h hk.2
  by_cases h : A = B
  · simp [h]
  · simp [h, hw]

/-- A type well-formed to some depth is well-formed to every greater depth. -/
theorem Ty.WellFormed_mono (types : List Ty) (nameds : List Named) :
    ∀ (d : Nat) (a : Ty), Ty.WellFormed types nameds d a = true →
      ∀ n, d ≤ n → Ty.WellFormed types nameds n a = true := by
  intro d
  induction d with
  | zero =>
    intro a h n _
    unfold Ty.WellFormed at h ⊢
    by_cases hk : a.t = V_VECTOR ∨ a.t = V_NILABLE
    · simp [hk] at h
    · simpa [hk] using h
  | succ d ih =>
    intro a h n hn
    obtain ⟨k, rfl⟩ : ∃ k, n = k + 1 := ⟨n - 1, by omega⟩
    unfold Ty.WellFormed at h ⊢
    by_cases hk : a.t = V_VECTOR ∨ a.t = V_NILABLE
    · simp only [hk, if_true] at h ⊢
      cases hx : deref types a.sub with
      | none => simp [hx] at h
      | some x =>
        simp only [hx] at h ⊢
        exact ih x h k (by omega)
    · simpa [hk] using h

/-! ## Results on `Type` -/

/-- C5: `operator==` is structural.  Every Type equals itself (also through a
TypeRef), and for a wrapping kind `k` (Vector or Nilable) the Type of kind `k`
with element `X` (stored at `px`) compared with the Type of kind `k` with
element `Y` (stored at `py`) gives the answer of `X == Y`, one level of
recursion later, whether or not the two element nodes are the same object;
so the wrappers are equal if and only if the elements are. -/
theorem C5_eq_structural (types : List Ty) (fuel : Nat) (a : Ty) (k : ValueType)
    (px py : Nat) (X Y : Ty) (hk : k = V_VECTOR ∨ k = V_NILABLE)
    (hX : deref types px = some X) (hY : deref types py = some Y) :
    Ty.eq types fuel a a = some true ∧
    TypeRef.eq types fuel px px = some true ∧
    Ty.eq types (fuel + 1) ⟨k, px⟩ ⟨k, py⟩ = Ty.eq types fuel X Y ∧
    ((∃ n, Ty.eq types n ⟨k, px⟩ ⟨k, py⟩ = some true) ↔
      (∃ n, Ty.eq types n X Y = some true)) := by
  refine ⟨Ty.eq_self types fuel a, ?_, Ty.eq_wrapper types fuel k px py X Y hk hX hY, ?_⟩
  · simp [TypeRef.eq, hX, Ty.eq_self]
  · constructor
    · rintro ⟨n, hn⟩
      refine ⟨n, ?_⟩
      have h1 := Ty.eq_mono types n _ _ true hn (n + 1) (by omega)
      rw [Ty.eq_wrapper types n k px py X Y hk hX hY] at h1
      exact h1
    · rintro ⟨n, hn⟩
      exact ⟨n + 1, by rw [Ty.eq_wrapper types n k px py X Y hk hX hY]; exact hn⟩

/-- C5, at two Vector wrappers around distinct nodes that both hold Int. -/
theorem C5_eq_structural_witness :
    (deref [Ty.mk V_INT 0, Ty.mk V_INT 0] 1 = some (Ty.mk V_INT 0) ∧
     deref [Ty.mk V_INT 0, Ty.mk V_INT 0] 2 = some (Ty.mk V_INT 0)) ∧
    Ty.eq [Ty.mk V_INT 0, Ty.mk V_INT 0] 1 (Ty.mk V_VECTOR 1) (Ty.mk V_VECTOR 2) =
      Ty.eq [Ty.mk V_INT 0, Ty.mk V_INT 0] 0 (Ty.mk V_INT 0) (Ty.mk V_INT 0) :=
  ⟨⟨rfl, rfl⟩,
   (C5_eq_structural [Ty.mk V_INT 0, Ty.mk V_INT 0] 0 (Ty.mk V_INT 0) V_VECTOR 1 2
      (Ty.mk V_INT 0) (Ty.mk V_INT 0) (Or.inl rfl) rfl rfl).2.2.1⟩

/-- C6: on well-formed Types `operator<` is a strict weak order.  For Types
`a`, `b`, `c` that are well-formed (to the depths `da`, `db`, `dc`) and any
amount of fuel that covers these depths, `operator<` returns, it is
irreflexive, anti-symmetric and transitive, and incomparability is
transitive. -/
theorem C6_lt_strict_weak_order (types : List Ty) (nameds : List Named) (da db dc n : Nat)
    (a b c : Ty)
    (ha : Ty.WellFormed types nameds da a = true)
    (hb : Ty.WellFormed types nameds db b = true)
    (hc : Ty.WellFormed types nameds dc c = true)
    (hn : da ≤ n ∧ db ≤ n ∧ dc ≤ n) :
    (∃ r, Ty.lt types nameds n a b = some r) ∧
    Ty.lt types nameds n a a = some false ∧
    (Ty.lt types nameds n a b = some true → Ty.lt types nameds n b a = some false) ∧
    (Ty.lt types nameds n a b = some true → Ty.lt types nameds n b c = some true →
      Ty.lt types nameds n a c = some true) ∧
    (Ty.lt types nameds n a b = some false → Ty.lt types nameds n b a = some false →
      Ty.lt types nameds n b c = some false → Ty.lt types nameds n c b = some false →
      Ty.lt types nameds n a c = some false ∧ Ty.lt types nameds n c a = some false) := by
  have ha2 := Ty.WellFormed_mono types nameds da a ha n hn.1
  have hb2 := Ty.WellFormed_mono types nameds db b hb n hn.2.1
  have hc2 := Ty.WellFormed_mono types nameds dc c hc n hn.2.2
  exact ⟨Ty.lt_total types nameds n a b ha2 hb2,
    Ty.lt_irrefl types nameds n a ha2,
    Ty.lt_asymm types nameds n a b ha2 hb2,
    Ty.lt_trans types nameds n a b c ha2 hb2 hc2,
    Ty.lt_incomp_trans types nameds n a b c ha2 hb2 hc2⟩

/-- C6, at Vector<Int>, Vector<Float> and Nilable<Int>. -/
theorem C6_lt_strict_weak_order_witness :
    Ty.lt [Ty.mk V_INT 0, Ty.mk V_FLOAT 0] [] 1 (Ty.mk V_VECTOR 1) (Ty.mk V_VECTOR 2) = some true ∧
    Ty.lt [Ty.mk V_INT 0, Ty.mk V_FLOAT 0] [] 1 (Ty.mk V_VECTOR 2) (Ty.mk V_NILABLE 1) = some true ∧
    Ty.lt [Ty.mk V_INT 0, Ty.mk V_FLOAT 0] [] 1 (Ty.mk V_VECTOR 1) (Ty.mk V_NILABLE 1) = some true :=
  ⟨by decide, by decide,
   (C6_lt_strict_weak_order [Ty.mk V_INT 0, Ty.mk V_FLOAT 0] [] 1 1 1 1 (Ty.mk V_VECTOR 1)
      (Ty.mk V_VECTOR 2) (Ty.mk V_NILABLE 1) (by decide) (by decide) (by decide)
      (by decide)).2.2.2.1 (by decide) (by decide)⟩

/-- C7: `operator<` equals its reference definition.
For Types of different kinds it answers whether the kind of the first has
the smaller ordinal, with any fuel and whatever the payloads, which it does
not read.  Two Vectors or two Nilables compare as their elements do.  Two
Functions or two Structs compare by the registration indices of their
entities.  Two Types of one other kind are not ordered, whatever their
payloads.
Whenever `operator<` returns, the pair is one on which the comparison is
defined, the answer is that of the reference definition, and more fuel gives
the same answer.  On every pair on which the comparison is defined it
returns the answer of the reference definition, given enough fuel; on
well-formed Types (to the depths `da`, `db`) any fuel that covers these
depths is enough. -/
theorem C7_lt_refines_reference (types : List Ty) (nameds : List Named) (n : Nat) (a b : Ty) :
    (a.t ≠ b.t → Ty.lt types nameds n a b = some (decide (a.t.ord < b.t.ord))) ∧
    (∀ x y, a.t = b.t → (a.t = V_VECTOR ∨ a.t = V_NILABLE) →
      deref types a.sub = some x → deref types b.sub = some y →
      Ty.lt types nameds (n + 1) a b = Ty.lt types nameds n x y) ∧
    (∀ x y, a.t = b.t → (a.t = V_FUNCTION ∨ a.t = V_STRUCT) →
      deref nameds a.sub = some x → deref nameds b.sub = some y →
      Ty.lt types nameds n a b = some (decide (x.idx < y.idx))) ∧
    (a.t = b.t → a.t ≠ V_VECTOR → a.t ≠ V_NILABLE → a.t ≠ V_FUNCTION → a.t ≠ V_STRUCT →
      Ty.lt types nameds n a b = some false) ∧
    (∀ r, Ty.lt types nameds n a b = some r →
      LtDefined types nameds a b ∧ (r = true ↔ LtRef types nameds a b) ∧
      ∀ m, n ≤ m → Ty.lt types nameds m a b = some r) ∧
    (LtDefined types nameds a b →
      ∃ r, (r = true ↔ LtRef types nameds a b) ∧
        ∃ k, ∀ m, k ≤ m → Ty.lt types nameds m a b = some r) ∧
    (∀ da db, Ty.WellFormed types nameds da a = true → Ty.WellFormed types nameds db b = true →
      da ≤ n → db ≤ n →
      ∃ r, Ty.lt types nameds n a b = some r ∧ (r = true ↔ LtRef types nameds a b)) := by
  refine ⟨Ty.lt_of_ne types nameds n a b,
    fun x y hab hk hx hy => Ty.lt_wrapped types nameds n a b x y hab hk hx hy,
    fun x y hab hk hx hy => Ty.lt_named types nameds n a b x y hab hk hx hy,
    fun hab h1 h2 h3 h4 => Ty.lt_other types nameds n a b hab ⟨h1, h2, h3, h4⟩,
    fun r hr => ⟨Ty.lt_LtDefined types nameds n a b r hr,
      Ty.lt_iff_LtRef types nameds n a b r hr, Ty.lt_mono types nameds n a b r hr⟩,
    ?_, ?_⟩
  · intro hd
    obtain ⟨k, r, hr⟩ := Ty.lt_of_LtDefined types nameds a b hd
    exact ⟨r, Ty.lt_iff_LtRef types nameds k a b r hr, k, Ty.lt_mono types nameds k a b r hr⟩
  · intro da db ha hb h1 h2
    obtain ⟨r, hr⟩ := Ty.lt_total types nameds n a b
      (Ty.WellFormed_mono types nameds da a ha n h1)
      (Ty.WellFormed_mono types nameds db b hb n h2)
    exact ⟨r, hr, Ty.lt_iff_LtRef types nameds n a b r hr⟩

/-- C7, at the Types the parser builds for "c" and "i", Nilable of the
function type without a subfunction and Nilable of Int: the comparison goes
to the elements, which are of different kinds and are ordered by ordinal
although the Function type refers to no entity; and at two Struct types
whose entities have the indices 3 and 5. -/
theorem C7_lt_refines_reference_witness :
    ((Typed.Set staticRefs (Typed.fresh staticRefs) ['c'] staticTypes).map
        (fun x => (x.1.type, x.2.2)) = some (8, staticTypes ++ [Ty.mk V_NILABLE 6]) ∧
     (Typed.Set staticRefs (Typed.fresh staticRefs) ['i']
        (staticTypes ++ [Ty.mk V_NILABLE 6])).map (fun x => (x.1.type, x.2.2))
        = some (9, staticTypes ++ [Ty.mk V_NILABLE 6, Ty.mk V_NILABLE 2])) ∧
    Ty.lt (staticTypes ++ [Ty.mk V_NILABLE 6, Ty.mk V_NILABLE 2]) [] 1
      (Ty.mk V_NILABLE 6) (Ty.mk V_NILABLE 2) = some false ∧
    Ty.lt (staticTypes ++ [Ty.mk V_NILABLE 6, Ty.mk V_NILABLE 2]) [] 1
      (Ty.mk V_NILABLE 2) (Ty.mk V_NILABLE 6) = some true ∧
    LtRef (staticTypes ++ [Ty.mk V_NILABLE 6, Ty.mk V_NILABLE 2]) []
      (Ty.mk V_NILABLE 2) (Ty.mk V_NILABLE 6) ∧
    Ty.WellFormed (staticTypes ++ [Ty.mk V_NILABLE 6, Ty.mk V_NILABLE 2]) [] 1
      (Ty.mk V_NILABLE 6) = false ∧
    ∃ r, Ty.lt [] [Named.mk "A" 3, Named.mk "B" 5] 0 (Ty.mk V_STRUCT 1) (Ty.mk V_STRUCT 2)
        = some r ∧
      (r = true ↔ LtRef [] [Named.mk "A" 3, Named.mk "B" 5] (Ty.mk V_STRUCT 1)
        (Ty.mk V_STRUCT 2)) :=
  ⟨⟨by decide, by decide⟩,
   ((C7_lt_refines_reference (staticTypes ++ [Ty.mk V_NILABLE 6, Ty.mk V_NILABLE 2]) [] 0
      (Ty.mk V_NILABLE 6) (Ty.mk V_NILABLE 2)).2.1 (Ty.mk V_FUNCTION 0) (Ty.mk V_INT 0) rfl
      (Or.inr rfl) (by decide) (by decide)).trans
     ((C7_lt_refines_reference (staticTypes ++ [Ty.mk V_NILABLE 6, Ty.mk V_NILABLE 2]) [] 0
      (Ty.mk V_FUNCTION 0) (Ty.mk V_INT 0)).1 (by decide)),
   by decide,
   ((C7_lt_refines_reference (staticTypes ++ [Ty.mk V_NILABLE 6, Ty.mk V_NILABLE 2]) [] 1
      (Ty.mk V_NILABLE 2) (Ty.mk V_NILABLE 6)).2.2.2.2.1 true (by decide)).2.1.mp rfl,
   by decide,
   (C7_lt_refines_reference [] [Named.mk "A" 3, Named.mk "B" 5] 0 (Ty.mk V_STRUCT 1)
      (Ty.mk V_STRUCT 2)).2.2.2.2.2.2 0 0 (by decide) (by decide) (by decide) (by decide)⟩

/-- C8: `EqNoIndex` ignores identity.  Whenever it returns, it answers true
exactly when the two Types have the same shape (the same kind and, for a
Vector or a Nilable, elements of the same shape, recursively); it returns
true on every pair of the same shape, given enough fuel, and it returns on
well-formed Types.
Two Struct types are `EqNoIndex` whatever their identities `A`, `B`, while
`operator==` answers whether `A` and `B` are the same identity. -/
theorem C8_EqNoIndex_shape (types : List Ty) (nameds : List Named) (n : Nat) (a b : Ty)
    (A B : Nat) :
    (∀ r, Ty.EqNoIndex types n a b = some r → (r = true ↔ SameShape types a b)) ∧
    (SameShape types a b → ∃ k, ∀ m, k ≤ m → Ty.EqNoIndex types m a b = some true) ∧
    (∀ da db, Ty.WellFormed types nameds da a = true → Ty.WellFormed types nameds db b = true →
      da ≤ n → db ≤ n → ∃ r, Ty.EqNoIndex types n a b = some r) ∧
    Ty.EqNoIndex types n ⟨V_STRUCT, A⟩ ⟨V_STRUCT, B⟩ = some true ∧
    Ty.eq types n ⟨V_STRUCT, A⟩ ⟨V_STRUCT, B⟩ = some (decide (A = B)) := by
  refine ⟨Ty.EqNoIndex_iff_SameShape types n a b, Ty.EqNoIndex_of_SameShape types a b,
    fun da db ha hb h1 h2 => Ty.EqNoIndex_total types nameds n a b
      (Ty.WellFormed_mono types nameds da a ha n h1) (Ty.WellFormed_mono types nameds db b hb n h2),
    ?_, Ty.eq_struct types n V_STRUCT A B (by simp)⟩
  unfold Ty.EqNoIndex
  simp [Ty.Wrapped]

/-- C8, at Vector<Struct 1> and Vector<Struct 2>: the same shape, not equal. -/
theorem C8_EqNoIndex_shape_witness :
    Ty.EqNoIndex [Ty.mk V_STRUCT 1, Ty.mk V_STRUCT 2] 1 (Ty.mk V_VECTOR 1) (Ty.mk V_VECTOR 2)
      = some true ∧
    SameShape [Ty.mk V_STRUCT 1, Ty.mk V_STRUCT 2] (Ty.mk V_VECTOR 1) (Ty.mk V_VECTOR 2) ∧
    Ty.eq [Ty.mk V_STRUCT 1, Ty.mk V_STRUCT 2] 1 (Ty.mk V_VECTOR 1) (Ty.mk V_VECTOR 2)
      = some false :=
  ⟨by decide,
   ((C8_EqNoIndex_shape [Ty.mk V_STRUCT 1, Ty.mk V_STRUCT 2] [] 1 (Ty.mk V_VECTOR 1)
      (Ty.mk V_VECTOR 2) 1 2).1 true (by decide)).mp rfl,
   by decide⟩

/-! ## The signature parser -/

theorem Typed.SetMods_boundary (self : Typed) (rest : List Char) (ts : List Ty)
    (h : AtBoundary rest = true) : Typed.SetMods self rest ts = some (self, rest, ts) := by
  cases rest with
  | nil => rfl
  | cons c tl =>
    have hc : c.isAlpha = true := h
    rw [Typed.SetMods.eq_def]
    simp [hc]

theorem Typed.SetMods_flag (self : Typed) (c : Char) (f : ArgFlags) (tl : List Char)
    (ts : List Ty) (h : flagOfChar c = some f) :
    Typed.SetMods self (c :: tl) ts = Typed.SetMods { self with flags := f } tl ts := by
  unfold flagOfChar at h
  rw [Typed.SetMods.eq_def]
  split_ifs at h with h1 h2 h3 h4
  · cases h; subst h1; simp
  · cases h; subst h2; simp
  · cases h; subst h3; simp
  · cases h; subst h4; simp

theorem Typed.SetMods_vector (self : Typed) (tl : List Char) (ts : List Ty) :
    Typed.SetMods self (']' :: tl) ts =
      Typed.SetMods { self with type := (pushWrap ts self.type V_VECTOR).2 } tl
        (pushWrap ts self.type V_VECTOR).1 := by
  rw [Typed.SetMods.eq_def]
  simp

theorem Typed.SetMods_nilable (self : Typed) (tl : List Char) (ts : List Ty) :
    Typed.SetMods self ('?' :: tl) ts =
      Typed.SetMods { self with type := (pushWrap ts self.type V_NILABLE).2 } tl
        (pushWrap ts self.type V_NILABLE).1 := by
  rw [Typed.SetMods.eq_def]
  simp

theorem Typed.SetMods_colon (self : Typed) (d : Char) (tl : List Char) (ts : List Ty)
    (h : '/'.toNat ≤ d.toNat ∧ d.toNat ≤ '9'.toNat) :
    Typed.SetMods self (':' :: d :: tl) ts =
      Typed.SetMods { self with fixed_len := (d.toNat : Int) - ('0'.toNat : Int) } tl ts := by
  have h2 : 47 ≤ d.toNat ∧ d.toNat ≤ 57 := h
  rw [Typed.SetMods.eq_def]
  simp [h2]

theorem wrapAll_nil (ts : List Ty) (p : Nat) : wrapAll ts p [] = (ts, p) := rfl

theorem wrapAll_cons (ts : List Ty) (p : Nat) (w : ValueType) (ws : List ValueType) :
    wrapAll ts p (w :: ws) = wrapAll (pushWrap ts p w).1 (pushWrap ts p w).2 ws := rfl

theorem wrapAll_append (ts : List Ty) (p : Nat) (ws vs : List ValueType) :
    wrapAll ts p (ws ++ vs) = wrapAll (wrapAll ts p ws).1 (wrapAll ts p ws).2 vs := by
  simp [wrapAll, List.foldl_append]

theorem getLast_getD_cons (f x : ArgFlags) (l : List ArgFlags) :
    ((f :: l).getLast?).getD x = (l.getLast?).getD f := by
  cases l with
  | nil => rfl
  | cons g tl => simp [List.getLast?_cons_cons, List.getLast?_eq_getLast]

/-- The modifier loop on a well-formed modifier string: it consumes the whole
string, performs its wraps from left to right, keeps the last flag modifier
and the last length digit, and goes on with what follows. -/
theorem Typed.SetMods_modifiers :
    ∀ (n : Nat) (m : List Char), m.length = n → ModifierString m = true →
      ∀ (self : Typed) (ts : List Ty) (rest : List Char),
        Typed.SetMods self (m ++ rest) ts =
          Typed.SetMods
            { self with type := (wrapAll ts self.type (wrapsOf m)).2,
                        flags := ((flagsOf m).getLast?).getD self.flags,
                        fixed_len := fixedLenOf self.fixed_len m }
            rest (wrapAll ts self.type (wrapsOf m)).1 := by
  intro n
  induction n using Nat.strong_induction_on with
  | _ n ih =>
    intro m hlen hm self ts rest
    cases m with
    | nil => rfl
    | cons c tl =>
      unfold ModifierString at hm
      by_cases hc : c = '1' ∨ c = '*' ∨ c = '@' ∨ c = '%' ∨ c = ']' ∨ c = '?'
      · rw [if_pos hc] at hm
        have htl := ih tl.length (by simp at hlen; omega) tl rfl hm
        rcases hc with rfl | rfl | rfl | rfl | rfl | rfl
        · rw [List.cons_append, Typed.SetMods_flag self '1' NF_SUBARG1 _ ts rfl, htl]
          have e1 : wrapsOf ('1' :: tl) = wrapsOf tl := by simp [wrapsOf]
          have e2 : flagsOf ('1' :: tl) = NF_SUBARG1 :: flagsOf tl := by
            rw [flagsOf.eq_def]; simp [flagOfChar]
          have e3 : fixedLenOf self.fixed_len ('1' :: tl) = fixedLenOf self.fixed_len tl := by
            rw [fixedLenOf.eq_def]; simp
          rw [e1, e2, e3, getLast_getD_cons]
        · rw [List.cons_append, Typed.SetMods_flag self '*' NF_ANYVAR _ ts rfl, htl]
          have e1 : wrapsOf ('*' :: tl) = wrapsOf tl := by simp [wrapsOf]
          have e2 : flagsOf ('*' :: tl) = NF_ANYVAR :: flagsOf tl := by
            rw [flagsOf.eq_def]; simp [flagOfChar]
          have e3 : fixedLenOf self.fixed_len ('*' :: tl) = fixedLenOf self.fixed_len tl := by
            rw [fixedLenOf.eq_def]; simp
          rw [e1, e2, e3, getLast_getD_cons]
        · rw [List.cons_append, Typed.SetMods_flag self '@' NF_EXPFUNVAL _ ts rfl, htl]
          have e1 : wrapsOf ('@' :: tl) = wrapsOf tl := by simp [wrapsOf]
          have e2 : flagsOf ('@' :: tl) = NF_EXPFUNVAL :: flagsOf tl := by
            rw [flagsOf.eq_def]; simp [flagOfChar]
          have e3 : fixedLenOf self.fixed_len ('@' :: tl) = fixedLenOf self.fixed_len tl := by
            rw [fixedLenOf.eq_def]; simp
          rw [e1, e2, e3, getLast_getD_cons]
        · rw [List.cons_append, Typed.SetMods_flag self '%' NF_CORESUME _ ts rfl, htl]
          have e1 : wrapsOf ('%' :: tl) = wrapsOf tl := by simp [wrapsOf]
          have e2 : flagsOf ('%' :: tl) = NF_CORESUME :: flagsOf tl := by
            rw [flagsOf.eq_def]; simp [flagOfChar]
          have e3 : fixedLenOf self.fixed_len ('%' :: tl) = fixedLenOf self.fixed_len tl := by
            rw [fixedLenOf.eq_def]; simp
          rw [e1, e2, e3, getLast_getD_cons]
        · rw [List.cons_append, Typed.SetMods_vector, htl]
          have e1 : wrapsOf (']' :: tl) = V_VECTOR :: wrapsOf tl := by simp [wrapsOf]
          have e2 : flagsOf (']' :: tl) = flagsOf tl := by
            rw [flagsOf.eq_def]; simp [flagOfChar]
          have e3 : fixedLenOf self.fixed_len (']' :: tl) = fixedLenOf self.fixed_len tl := by
            rw [fixedLenOf.eq_def]; simp
          rw [e1, e2, e3, wrapAll_cons]
        · rw [List.cons_append, Typed.SetMods_nilable, htl]
          have e1 : wrapsOf ('?' :: tl) = V_NILABLE :: wrapsOf tl := by simp [wrapsOf]
          have e2 : flagsOf ('?' :: tl) = flagsOf tl := by
            rw [flagsOf.eq_def]; simp [flagOfChar]
          have e3 : fixedLenOf self.fixed_len ('?' :: tl) = fixedLenOf self.fixed_len tl := by
            rw [fixedLenOf.eq_def]; simp
          rw [e1, e2, e3, wrapAll_cons]
      · rw [if_neg hc] at hm
        by_cases hcol : c = ':'
        · subst hcol
          rw [if_pos rfl] at hm
          cases tl with
          | nil => simp at hm
          | cons d tl2 =>
            simp only [Bool.and_eq_true, decide_eq_true_eq] at hm
            obtain ⟨hd, hm2⟩ := hm
            have htl := ih tl2.length (by simp at hlen; omega) tl2 rfl hm2
            rw [List.cons_append, List.cons_append, Typed.SetMods_colon self d _ ts hd, htl]
            have hd2 : d ≠ ']' ∧ d ≠ '?' := by
              constructor <;> (rintro rfl; simp at hd)
            have e1 : wrapsOf (':' :: d :: tl2) = wrapsOf tl2 := by
              simp [wrapsOf, hd2.1, hd2.2]
            have e2 : flagsOf (':' :: d :: tl2) = flagsOf tl2 := by
              rw [flagsOf.eq_def]; simp
            have e3 : fixedLenOf self.fixed_len (':' :: d :: tl2) =
                fixedLenOf ((d.toNat : Int) - ('0'.toNat : Int)) tl2 := by
              rw [fixedLenOf.eq_def]; simp
            rw [e1, e2, e3]
        · rw [if_neg hcol] at hm
          simp at hm

theorem pushWrap_eq (ts : List Ty) (p : Nat) (w : ValueType) :
    pushWrap ts p w = (ts ++ [⟨w, p⟩], ts.length + 1) := by
  simp [pushWrap, Ty.Wrap, store]

theorem wrapAll_extends (ws : List ValueType) :
    ∀ (ts : List Ty) (p : Nat), ∃ ext, (wrapAll ts p ws).1 = ts ++ ext := by
  induction ws with
  | nil => intro ts p; exact ⟨[], by simp [wrapAll_nil]⟩
  | cons w ws ih =>
    intro ts p
    rw [wrapAll_cons, pushWrap_eq]
    obtain ⟨ext, h⟩ := ih (ts ++ [⟨w, p⟩]) (ts.length + 1)
    exact ⟨[⟨w, p⟩] ++ ext, by rw [h]; simp⟩

theorem readType_mono (types : List Ty) :
    ∀ (n : Nat) (p : Nat) (e : TypeExpr), readType types n p = some e →
      ∀ m, n ≤ m → readType types m p = some e := by
  intro n
  induction n with
  | zero =>
    intro p e h m _
    unfold readType at h ⊢
    cases ha : deref types p with
    | none => simp [ha] at h
    | some a =>
      simp only [ha] at h ⊢
      by_cases hw : a.Wrapped = true
      · simp [hw] at h
      · simpa [hw] using h
  | succ n ih =>
    intro p e h m hm
    obtain ⟨k, rfl⟩ : ∃ k, m = k + 1 := ⟨m - 1, by omega⟩
    unfold readType at h ⊢
    cases ha : deref types p with
    | none => simp [ha] at h
    | some a =>
      simp only [ha] at h ⊢
      by_cases hw : a.Wrapped = true
      · simp only [hw, if_true] at h ⊢
        cases hs : readType types n a.sub with
        | none => simp [hs] at h
        | some e2 =>
          rw [ih a.sub e2 hs k (by omega)]
          rw [hs] at h
          exact h
      · simpa [hw] using h

theorem readType_append (types ext : List Ty) :
    ∀ (n : Nat) (p : Nat) (e : TypeExpr), readType types n p = some e →
      readType (types ++ ext) n p = some e := by
  intro n
  induction n with
  | zero =>
    intro p e h
    unfold readType at h ⊢
    cases ha : deref types p with
    | none => simp [ha] at h
    | some a =>
      rw [deref_append_left ext ha]
      simp only [ha] at h ⊢
      by_cases hw : a.Wrapped = true
      · simp [hw] at h
      · simpa [hw] using h
  | succ n ih =>
    intro p e h
    unfold readType at h ⊢
    cases ha : deref types p with
    | none => simp [ha] at h
    | some a =>
      rw [deref_append_left ext ha]
      simp only [ha] at h ⊢
      by_cases hw : a.Wrapped = true
      · simp only [hw, if_true] at h ⊢
        cases hs : readType types n a.sub with
        | none => simp [hs] at h
        | some e2 =>
          rw [ih a.sub e2 hs]
          rw [hs] at h
          exact h
      · simpa [hw] using h

theorem readType_pushWrap (types : List Ty) (n p : Nat) (e : TypeExpr) (w : ValueType)
    (hw : w = V_VECTOR ∨ w = V_NILABLE) (h : readType types n p = some e) :
    readType (pushWrap types p w).1 (n + 1) (pushWrap types p w).2 = some (TypeExpr.wrap w e) := by
  rw [pushWrap_eq]
  have hwr : Ty.Wrapped ⟨w, p⟩ = true := (Ty.Wrapped_iff _).mpr hw
  rw [readType]
  simp only [deref_append_new, hwr, if_true]
  rw [readType_append types [⟨w, p⟩] n p e h]
  rfl

theorem readType_wrapAll (ws : List ValueType) :
    ∀ (types : List Ty) (n p : Nat) (e : TypeExpr),
      (∀ w ∈ ws, w = V_VECTOR ∨ w = V_NILABLE) → readType types n p = some e →
      readType (wrapAll types p ws).1 (n + ws.length) (wrapAll types p ws).2 =
        some (applyWraps e ws) := by
  induction ws with
  | nil => intro types n p e _ h; exact h
  | cons w ws ih =>
    intro types n p e hws h
    rw [wrapAll_cons]
    have h1 := readType_pushWrap types n p e w (hws w (List.mem_cons_self _ _)) h
    have h2 := ih _ _ _ _ (fun v hv => hws v (List.mem_cons_of_mem _ hv)) h1
    have hl : n + (w :: ws).length = n + 1 + ws.length := by simp; omega
    rw [hl, h2]
    rfl

theorem wrapsOf_kinds (m : List Char) : ∀ w ∈ wrapsOf m, w = V_VECTOR ∨ w = V_NILABLE := by
  intro w hw
  simp only [wrapsOf, List.mem_filterMap] at hw
  obtain ⟨c, _, hc⟩ := hw
  split_ifs at hc <;> simp_all

theorem Typed.baseType_isSome (g : Globals) (L : Char) (hL : L ∈ baseLetters) :
    ∃ p, Typed.baseType g L = some p := by
  simp only [baseLetters, List.mem_cons, List.mem_singleton, List.not_mem_nil, or_false] at hL
  rcases hL with rfl | rfl | rfl | rfl | rfl | rfl | rfl <;> simp [Typed.baseType]

/-- The first part of `Typed::Set` on a base letter in either case. -/
theorem Typed.Set_base (g : Globals) (self : Typed) (L : Char) (lower : Bool) (tl : List Char)
    (ts : List Ty) (hL : L ∈ baseLetters) :
    Typed.Set g self ((if lower then lowerCase L else L) :: tl) ts =
      match Typed.baseType g L with
      | none => none
      | some ty =>
        match Typed.SetMods { self with type := ty, flags := AF_NONE } tl ts with
        | none => none
        | some (s, tid2, ts2) =>
          if lower then
            some ({ s with type := (pushWrap ts2 s.type V_NILABLE).2 }, tid2,
              (pushWrap ts2 s.type V_NILABLE).1)
          else some (s, tid2, ts2) := by
  simp only [baseLetters, List.mem_cons, List.mem_singleton, List.not_mem_nil, or_false] at hL
  rcases hL with rfl | rfl | rfl | rfl | rfl | rfl | rfl <;> cases lower <;>
    simp [Typed.Set, lowerCase]

theorem Typed.Set_result (g : Globals) (self : Typed) (L : Char) (lower : Bool)
    (m rest : List Char) (ts : List Ty) (p : Nat) (hL : L ∈ baseLetters)
    (hp : Typed.baseType g L = some p) (hm : ModifierString m = true)
    (hr : AtBoundary rest = true) :
    Typed.Set g self ((if lower then lowerCase L else L) :: (m ++ rest)) ts =
      some ({ type := (wrapAll ts p (wrapsOf m ++ if lower then [V_NILABLE] else [])).2,
              flags := ((flagsOf m).getLast?).getD AF_NONE,
              fixed_len := fixedLenOf self.fixed_len m,
              id := self.id },
            rest, (wrapAll ts p (wrapsOf m ++ if lower then [V_NILABLE] else [])).1) := by
  rw [Typed.Set_base g self L lower _ ts hL, hp]
  simp only
  rw [Typed.SetMods_modifiers m.length m rfl hm, Typed.SetMods_boundary _ rest _ hr]
  cases lower with
  | false => simp
  | true =>
    simp only [if_true, wrapAll_append]
    rfl

theorem readType_eq (types : List Ty) :
    ∀ (n : Nat) (p q : Nat) (e : TypeExpr), readType types n p = some e →
      readType types n q = some e → TypeRef.eq types n p q = some true := by
  intro n
  induction n with
  | zero =>
    intro p q e hp hq
    unfold readType at hp hq
    unfold TypeRef.eq
    cases ha : deref types p with
    | none => simp [ha] at hp
    | some a =>
      cases hb : deref types q with
      | none => simp [hb] at hq
      | some b =>
        simp only [ha] at hp
        simp only [hb] at hq
        by_cases hwa : a.Wrapped = true
        · simp [hwa] at hp
        · by_cases hwb : b.Wrapped = true
          · simp [hwb] at hq
          · simp only [hwa, hwb, if_false, Bool.false_eq_true, Option.some.injEq] at hp hq
            have h := hp.trans hq.symm
            simp only [TypeExpr.leaf.injEq] at h
            simp only
            unfold Ty.eq
            simp [h.1, h.2]
  | succ n ih =>
    intro p q e hp hq
    unfold readType at hp hq
    unfold TypeRef.eq
    cases ha : deref types p with
    | none => simp [ha] at hp
    | some a =>
      cases hb : deref types q with
      | none => simp [hb] at hq
      | some b =>
        simp only [ha] at hp
        simp only [hb] at hq
        simp only
        by_cases hwa : a.Wrapped = true
        · by_cases hwb : b.Wrapped = true
          · simp only [hwa, hwb, if_true] at hp hq
            cases hea : readType types n a.sub with
            | none => simp [hea] at hp
            | some ea =>
              cases heb : readType types n b.sub with
              | none => simp [heb] at hq
              | some eb =>
                simp only [hea, heb, Option.map_some', Option.some.injEq] at hp hq
                have h := hp.trans hq.symm
                simp only [TypeExpr.wrap.injEq] at h
                obtain ⟨ht, he⟩ := h
                subst he
                have hi := ih a.sub b.sub ea hea heb
                unfold TypeRef.eq at hi
                unfold Ty.eq
                by_cases hs : a.sub = b.sub
                · simp [ht, hs]
                · cases hx : deref types a.sub with
                  | none => simp [hx] at hi
                  | some x =>
                    cases hy : deref types b.sub with
                    | none => simp [hx, hy] at hi
                    | some y =>
                      simp only [hx, hy] at hi
                      simp [ht, hs, hwa, hx, hy, hi]
          · simp only [hwa, hwb, if_true, if_false, Bool.false_eq_true] at hp hq
            cases hea : readType types n a.sub with
            | none => simp [hea] at hp
            | some ea =>
              simp only [hea, Option.map_some', Option.some.injEq] at hp hq
              have h := hp.trans hq.symm
              simp at h
        · by_cases hwb : b.Wrapped = true
          · simp only [hwa, hwb, if_true, if_false, Bool.false_eq_true] at hp hq
            cases heb : readType types n b.sub with
            | none => simp [heb] at hq
            | some eb =>
              simp only [heb, Option.map_some', Option.some.injEq] at hp hq
              have h := hp.trans hq.symm
              simp at h
          · simp only [hwa, hwb, if_false, Bool.false_eq_true, Option.some.injEq] at hp hq
            have h := hp.trans hq.symm
            simp only [TypeExpr.leaf.injEq] at h
            unfold Ty.eq
            simp [h.1, h.2]


theorem Typed.Set_result_question (g : Globals) (self : Typed) (L : Char)
    (m rest : List Char) (ts : List Ty) (p : Nat) (hL : L ∈ baseLetters)
    (hp : Typed.baseType g L = some p) (hm : ModifierString m = true)
    (hr : AtBoundary rest = true) :
    Typed.Set g self (L :: (m ++ '?' :: rest)) ts =
      some ({ type := (wrapAll ts p (wrapsOf m ++ [V_NILABLE])).2,
              flags := ((flagsOf m).getLast?).getD AF_NONE,
              fixed_len := fixedLenOf self.fixed_len m,
              id := self.id },
            rest, (wrapAll ts p (wrapsOf m ++ [V_NILABLE])).1) := by
  have h := Typed.Set_base g self L false (m ++ '?' :: rest) ts hL
  simp only [Bool.false_eq_true, if_false] at h
  rw [h, hp]
  simp only
  rw [Typed.SetMods_modifiers m.length m rfl hm, Typed.SetMods_nilable,
    Typed.SetMods_boundary _ rest _ hr]
  simp only [wrapAll_append]
  rfl

/-! ## Results on the signature parser -/

/-- C9: the lower case base letter is a synonym for a trailing `?`.  For an
upper case base letter `L`, a well-formed modifier string `m` and whatever
follows the Parameter, parsing the lower case letter followed by `m` into a
fresh Parameter succeeds, and parsing `L`, `m`, `?` from the same state gives
the very same type, flags, fixed-length marker, cursor and type storage.  When
the second parse is run after the first, in the storage the first one left,
its type is `==` to that of the first, and flags, marker and identifier are
the same. -/
theorem C9_lowercase_is_question (g : Globals) (L : Char) (m rest : List Char) (ts : List Ty)
    (n p : Nat) (tb : TypeExpr)
    (hL : L ∈ baseLetters) (hm : ModifierString m = true) (hr : AtBoundary rest = true)
    (hp : Typed.baseType g L = some p) (hb : readType ts n p = some tb) :
    ∃ r ts1,
      Typed.Set g (Typed.fresh g) (lowerCase L :: (m ++ rest)) ts = some (r, rest, ts1) ∧
      Typed.Set g (Typed.fresh g) (L :: (m ++ '?' :: rest)) ts = some (r, rest, ts1) ∧
      ∃ r2 ts2,
        Typed.Set g (Typed.fresh g) (L :: (m ++ '?' :: rest)) ts1 = some (r2, rest, ts2) ∧
        r2.flags = r.flags ∧ r2.fixed_len = r.fixed_len ∧ r2.id = r.id ∧
        TypeRef.eq ts2 (n + (wrapsOf m ++ [V_NILABLE]).length) r.type r2.type = some true := by
  have h1 := Typed.Set_result g (Typed.fresh g) L true m rest ts p hL hp hm hr
  simp only [if_true] at h1
  refine ⟨_, _, h1, Typed.Set_result_question g (Typed.fresh g) L m rest ts p hL hp hm hr,
    _, _, Typed.Set_result_question g (Typed.fresh g) L m rest _ p hL hp hm hr,
    rfl, rfl, rfl, ?_⟩
  have hk : ∀ w ∈ wrapsOf m ++ [V_NILABLE], w = V_VECTOR ∨ w = V_NILABLE := by
    intro w hw
    rcases List.mem_append.mp hw with h | h
    · exact wrapsOf_kinds m w h
    · simp at h
      exact Or.inr h
  obtain ⟨ext, hext⟩ := wrapAll_extends (wrapsOf m ++ [V_NILABLE]) ts p
  have hb1 : readType (wrapAll ts p (wrapsOf m ++ [V_NILABLE])).1 n p = some tb := by
    rw [hext]
    exact readType_append ts ext n p tb hb
  have e1 := readType_wrapAll _ ts n p tb hk hb
  have e2 := readType_wrapAll _ _ n p tb hk hb1
  obtain ⟨ext2, hext2⟩ := wrapAll_extends (wrapsOf m ++ [V_NILABLE])
    (wrapAll ts p (wrapsOf m ++ [V_NILABLE])).1 p
  have e3 := readType_append _ ext2 _ _ _ e1
  rw [← hext2] at e3
  exact readType_eq _ _ _ _ _ e3 e2

/-- C9, at "i" and "I?": both give Nilable<Int>. -/
theorem C9_lowercase_is_question_witness :
    ∃ r ts1,
      Typed.Set staticRefs (Typed.fresh staticRefs) ['i'] staticTypes = some (r, [], ts1) ∧
      Typed.Set staticRefs (Typed.fresh staticRefs) ['I', '?'] staticTypes = some (r, [], ts1) ∧
      readType ts1 1 r.type = some (TypeExpr.wrap V_NILABLE (TypeExpr.leaf V_INT 0)) := by
  obtain ⟨r, ts1, h1, h2, _⟩ := C9_lowercase_is_question staticRefs 'I' [] [] staticTypes 0 2
    (TypeExpr.leaf V_INT 0) (by decide) (by decide) (by decide) rfl (by decide)
  refine ⟨r, ts1, h1, h2, ?_⟩
  have h3 : Typed.Set staticRefs (Typed.fresh staticRefs) ['I', '?'] staticTypes
      = some (⟨8, AF_NONE, 0, 0⟩, [], staticTypes ++ [⟨V_NILABLE, 2⟩]) := by decide
  have h4 := h2.symm.trans h3
  simp only [Option.some.injEq, Prod.mk.injEq] at h4
  obtain ⟨rfl, _, rfl⟩ := h4
  decide

/-- C10, as stated, fails: parsing "A1*" leaves the flags at `NF_ANYVAR`
alone, although `1` (SubArg1) occurs among the modifiers; likewise "A1@"
leaves `NF_EXPFUNVAL` alone. -/
theorem C10_flags_cumulative_counterexample :
    NF_SUBARG1 ∈ flagsOf ['1', '*'] ∧
    (Typed.Set staticRefs (Typed.fresh staticRefs) ['A', '1', '*'] staticTypes).map
      (fun x => x.1.flags) = some NF_ANYVAR ∧
    NF_ANYVAR ≠ NF_SUBARG1 ∧
    (Typed.Set staticRefs (Typed.fresh staticRefs) ['A', '1', '@'] staticTypes).map
      (fun x => x.1.flags) = some NF_EXPFUNVAL ∧
    NF_EXPFUNVAL ≠ NF_SUBARG1 := by
  decide

/-- C10, amended: modifier characters are processed in encounter order and
the flags field holds one enumerator, which every flag modifier overwrites.
After parsing a Parameter with a well-formed modifier string the flags are
those of the last flag modifier (`AF_NONE` when there is none), whatever the
flags held before and whatever wraps or length markers are mixed in. -/
theorem C10_flags_last_wins (g : Globals) (self : Typed) (L : Char) (lower : Bool)
    (m rest : List Char) (ts : List Ty)
    (hL : L ∈ baseLetters) (hm : ModifierString m = true) (hr : AtBoundary rest = true) :
    ∃ r ts2, Typed.Set g self ((if lower then lowerCase L else L) :: (m ++ rest)) ts
        = some (r, rest, ts2) ∧
      r.flags = ((flagsOf m).getLast?).getD AF_NONE := by
  obtain ⟨p, hp⟩ := Typed.baseType_isSome g L hL
  exact ⟨_, _, Typed.Set_result g self L lower m rest ts p hL hp hm hr, rfl⟩

/-- C10 amended, at "A1]*": the result carries AnyVar. -/
theorem C10_flags_last_wins_witness :
    ∃ r ts2, Typed.Set staticRefs (Typed.fresh staticRefs) ['A', '1', ']', '*'] staticTypes
        = some (r, [], ts2) ∧ r.flags = NF_ANYVAR :=
  C10_flags_last_wins staticRefs (Typed.fresh staticRefs) 'A' false ['1', ']', '*'] []
    staticTypes (by decide) (by decide) (by decide)

/-! ## The registry -/

theorem store_length {α : Type} (heap : List α) (p : Nat) (x : α) :
    (store heap p x).length = heap.length := by
  cases p <;> simp [store]

theorem deref_store_same {α : Type} {heap : List α} {p : Nat} {x : α} (y : α)
    (h : deref heap p = some x) : deref (store heap p y) p = some y := by
  have hp := deref_some_pos h
  cases p with
  | zero => omega
  | succ q =>
    simp only [deref, store, List.get?_eq_getElem?]
    rw [List.getElem?_set_self]
    omega

theorem deref_store_ne {α : Type} (heap : List α) {p q : Nat} (y : α) (h : q ≠ p) :
    deref (store heap p y) q = deref heap q := by
  cases p with
  | zero => rfl
  | succ p =>
    cases q with
    | zero => rfl
    | succ q =>
      simp only [deref, store, List.get?_eq_getElem?]
      rw [List.getElem?_set_ne]
      omega

theorem store_append_left {α : Type} {heap : List α} {p : Nat} {x : α} (ext : List α) (y : α)
    (h : deref heap p = some x) : store (heap ++ ext) p y = store heap p y ++ ext := by
  have hp := deref_some_pos h
  cases p with
  | zero => omega
  | succ q =>
    simp only [store]
    rw [List.set_append_left]
    omega

theorem store_append_new {α : Type} (heap : List α) (x y : α) :
    store (heap ++ [x]) (heap.length + 1) y = heap ++ [y] := by
  simp [store]

theorem modify_of_deref {α : Type} {heap : List α} {p : Nat} {x : α} (f : α → α)
    (h : deref heap p = some x) : modify heap p f = store heap p (f x) := by
  simp [modify, h]

/-- The descriptor as `Register` stamps it: registration index and subsystem. -/
theorem Register_no_head (ndebug : Bool) (s : State) (nf : Nat) (o : NativeFun)
    (ho : deref s.heap nf = some o)
    (hl : NativeRegistry.FindNative s.natreg o.name = 0) :
    NativeRegistry.Register ndebug s nf =
      .ok { heap := store s.heap nf
              { o with idx := toInt s.natreg.nfuns.length,
                       subsystemid := toInt (sizeMinusOne s.natreg.subsystems.length) },
            natreg :=
              { nfuns := s.natreg.nfuns ++ [nf],
                nfunlookup := NativeRegistry.setLookup
                  (NativeRegistry.setLookup s.natreg.nfunlookup o.name 0) o.name nf,
                subsystems := s.natreg.subsystems } } := by
  have hg : (s.natreg.nfunlookup o.name).getD 0 = 0 := by
    unfold NativeRegistry.FindNative at hl
    cases h : s.natreg.nfunlookup o.name with
    | none => rfl
    | some p => rw [h] at hl; simpa using hl
  unfold NativeRegistry.Register
  simp only [ho, hg, ne_eq, not_true_eq_false, if_false]

theorem Register_head (ndebug : Bool) (s : State) (nf d : Nat) (o e o1 : NativeFun)
    (ho : deref s.heap nf = some o)
    (hl : NativeRegistry.FindNative s.natreg o.name = d) (hd0 : d ≠ 0) (hne : nf ≠ d)
    (he : deref s.heap d = some e)
    (ho1 : o1 = { o with idx := toInt s.natreg.nfuns.length,
                         subsystemid := toInt (sizeMinusOne s.natreg.subsystems.length) }) :
    (NativeRegistry.clash o1 e = true →
      NativeRegistry.Register ndebug s nf =
        .error (if ndebug then .thrown ("native library name clash: " ++ o.name)
                else .assertion)) ∧
    (NativeRegistry.clash o1 e = false →
      ∃ heap4, NativeRegistry.Register ndebug s nf =
          .ok { heap := heap4,
                natreg := { nfuns := s.natreg.nfuns ++ [nf],
                            nfunlookup := NativeRegistry.setLookup s.natreg.nfunlookup o.name d,
                            subsystems := s.natreg.subsystems } } ∧
        heap4.length = s.heap.length ∧
        deref heap4 nf = some { o1 with overloads := e.overloads, first := e.first } ∧
        deref heap4 d = some { e with overloads := nf } ∧
        ∀ q, q ≠ nf → q ≠ d → deref heap4 q = deref s.heap q) := by
  have hg : (s.natreg.nfunlookup o.name).getD 0 = d := by
    unfold NativeRegistry.FindNative at hl
    cases h : s.natreg.nfunlookup o.name with
    | none => rw [h] at hl; exact absurd hl.symm hd0
    | some p => rw [h] at hl; simpa using hl
  have h1 : deref (store s.heap nf o1) d = some e := by
    rw [deref_store_ne _ _ (Ne.symm hne)]; exact he
  have h1n : deref (store s.heap nf o1) nf = some o1 := deref_store_same o1 ho
  constructor
  · intro hc
    unfold NativeRegistry.Register
    simp only [ho, ← ho1, hg, ne_eq, hd0, not_false_eq_true, if_true, h1, hc]
    exact (apply_ite Except.error _ _ _).symm
  · intro hc
    have m2 : modify (store s.heap nf o1) nf (fun x => { x with overloads := e.overloads })
        = store (store s.heap nf o1) nf { o1 with overloads := e.overloads } :=
      modify_of_deref _ h1n
    have h2d : deref (store (store s.heap nf o1) nf { o1 with overloads := e.overloads }) d
        = some e := by
      rw [deref_store_ne _ _ (Ne.symm hne)]; exact h1
    have h2n : deref (store (store s.heap nf o1) nf { o1 with overloads := e.overloads }) nf
        = some { o1 with overloads := e.overloads } := deref_store_same _ h1n
    have m3 : modify (store (store s.heap nf o1) nf { o1 with overloads := e.overloads }) d
          (fun x => { x with overloads := nf })
        = store (store (store s.heap nf o1) nf { o1 with overloads := e.overloads }) d
            { e with overloads := nf } :=
      modify_of_deref _ h2d
    have h3d : deref (store (store (store s.heap nf o1) nf { o1 with overloads := e.overloads })
        d { e with overloads := nf }) d = some { e with overloads := nf } :=
      deref_store_same _ h2d
    have h3n : deref (store (store (store s.heap nf o1) nf { o1 with overloads := e.overloads })
        d { e with overloads := nf }) nf = some { o1 with overloads := e.overloads } := by
      rw [deref_store_ne _ _ hne]; exact h2n
    have m4 : modify (store (store (store s.heap nf o1) nf { o1 with overloads := e.overloads })
          d { e with overloads := nf }) nf (fun x => { x with first := e.first })
        = store (store (store (store s.heap nf o1) nf { o1 with overloads := e.overloads })
            d { e with overloads := nf }) nf
            { o1 with overloads := e.overloads, first := e.first } :=
      modify_of_deref _ h3n
    refine ⟨store (store (store (store s.heap nf o1) nf { o1 with overloads := e.overloads })
            d { e with overloads := nf }) nf
            { o1 with overloads := e.overloads, first := e.first }, ?_, ?_, ?_, ?_, ?_⟩
    · unfold NativeRegistry.Register
      simp only [ho, ← ho1, hg, ne_eq, hd0, not_false_eq_true, if_true, h1, hc,
        Bool.false_eq_true, if_false, m2, m3, h3d, m4]
    · simp only [store_length]
    · exact deref_store_same _ h3n
    · rw [deref_store_ne _ _ (Ne.symm hne)]; exact h3d
    · intro q hq1 hq2
      rw [deref_store_ne _ _ hq1, deref_store_ne _ _ hq2, deref_store_ne _ _ hq1,
        deref_store_ne _ _ hq1]



theorem deref_append_ne {α : Type} (heap : List α) (x : α) {q : Nat}
    (h : q ≠ heap.length + 1) : deref (heap ++ [x]) q = deref heap q := by
  cases q with
  | zero => rfl
  | succ k =>
    simp only [deref, List.get?_eq_getElem?]
    by_cases hk : k < heap.length
    · rw [List.getElem?_append_left hk]
    · have hk2 : heap.length < k := by omega
      rw [List.getElem?_eq_none (by simp; omega), List.getElem?_eq_none (by omega)]

theorem deref_none_of_gt {α : Type} (heap : List α) {q : Nat} (h : heap.length < q) :
    deref heap q = none := by
  cases hq : deref heap q with
  | none => rfl
  | some x => have := deref_some_pos hq; omega

theorem deref_isSome_of_le {α : Type} (heap : List α) {q : Nat} (h0 : 0 < q)
    (h : q ≤ heap.length) : ∃ x, deref heap q = some x := by
  cases q with
  | zero => omega
  | succ k =>
    simp only [deref, List.get?_eq_getElem?]
    exact ⟨heap[k], List.getElem?_eq_getElem (by omega)⟩

theorem overloadChain_succ (heap : List NativeFun) (fuel p : Nat) (o : NativeFun)
    (h : deref heap p = some o) :
    overloadChain heap (fuel + 1) p = (overloadChain heap fuel o.overloads).map (fun l => p :: l) := by
  have hp := deref_some_pos h
  cases p with
  | zero => omega
  | succ k =>
    rw [overloadChain]
    simp only [h]

theorem overloadChain_zero (heap : List NativeFun) (fuel : Nat) :
    overloadChain heap fuel 0 = some [] := by
  cases fuel <;> rfl

/-- The walk only depends on the links of the descriptors it visits. -/
theorem overloadChain_congr (heap heap2 : List NativeFun) :
    ∀ (fuel p : Nat) (l : List Nat), overloadChain heap fuel p = some l →
      (∀ q ∈ l, (deref heap2 q).map (fun o => o.overloads)
        = (deref heap q).map (fun o => o.overloads)) →
      overloadChain heap2 fuel p = some l := by
  intro fuel
  induction fuel with
  | zero =>
    intro p l h _
    cases p with
    | zero => exact h
    | succ k => simp [overloadChain] at h
  | succ fuel ih =>
    intro p l h hq
    cases p with
    | zero => simpa [overloadChain] using h
    | succ k =>
      cases ho : deref heap (k + 1) with
      | none => simp [overloadChain, ho] at h
      | some o =>
        rw [overloadChain_succ heap fuel (k + 1) o ho] at h
        cases hr : overloadChain heap fuel o.overloads with
        | none => simp [hr] at h
        | some l2 =>
          simp only [hr, Option.map_some', Option.some.injEq] at h
          subst h
          have h1 := hq (k + 1) (List.mem_cons_self _ _)
          rw [ho] at h1
          cases ho2 : deref heap2 (k + 1) with
          | none => simp [ho2] at h1
          | some o2 =>
            simp only [ho2, Option.map_some', Option.some.injEq] at h1
            rw [overloadChain_succ heap2 fuel (k + 1) o2 ho2, h1,
              ih o.overloads l2 hr (fun q hq2 => hq q (List.mem_cons_of_mem _ hq2))]
            rfl

theorem toInt_small (n : Nat) (h : n < 2 ^ 31) : toInt n = (n : Int) := by
  unfold toInt
  have h1 : n % 2 ^ 32 = n := Nat.mod_eq_of_lt (by omega)
  rw [h1, if_pos h]

theorem toInt_sizeMinusOne (n : Nat) (h : n < 2 ^ 31) :
    toInt (sizeMinusOne n) = (n : Int) - 1 := by
  unfold toInt sizeMinusOne
  cases n with
  | zero => decide
  | succ k =>
    have h1 : (k + 1 + (2 ^ 64 - 1)) % 2 ^ 64 = k := by omega
    have h2 : k % 2 ^ 32 = k := Nat.mod_eq_of_lt (by omega)
    rw [h1, h2, if_pos (by omega)]
    push_cast
    omega


theorem State.mem_registered (s : State) (name : String) (q : Nat) :
    q ∈ s.registered name ↔
      q ∈ s.natreg.nfuns ∧ ∃ o, deref s.heap q = some o ∧ o.name = name := by
  unfold State.registered
  rw [List.mem_filter]
  constructor
  · rintro ⟨h1, h2⟩
    refine ⟨h1, ?_⟩
    cases ho : deref s.heap q with
    | none => simp [ho] at h2
    | some o => exact ⟨o, rfl, by simpa [ho] using h2⟩
  · rintro ⟨h1, o, ho, hn⟩
    exact ⟨h1, by simp [ho, hn]⟩

/-- Registering one more descriptor under `nm`: how the descriptors registered
under each name change. -/
theorem State.registered_extend (s s2 : State) (nm name : String) (newobj : NativeFun)
    (hI : s.natreg.nfuns = List.range' 1 s.heap.length)
    (hnfuns : s2.natreg.nfuns = s.natreg.nfuns ++ [s.heap.length + 1])
    (hnew : deref s2.heap (s.heap.length + 1) = some newobj) (hname : newobj.name = nm)
    (hnames : ∀ q, q ≠ s.heap.length + 1 →
      (deref s2.heap q).map (fun o => o.name) = (deref s.heap q).map (fun o => o.name)) :
    s2.registered name =
      s.registered name ++ (if nm = name then [s.heap.length + 1] else []) := by
  unfold State.registered
  rw [hnfuns, List.filter_append]
  congr 1
  · apply List.filter_congr
    intro q hq
    rw [hI, List.mem_range'_1] at hq
    have h := hnames q (by omega)
    cases h1 : deref s2.heap q with
    | none =>
      cases h2 : deref s.heap q with
      | none => rfl
      | some o => simp [h1, h2] at h
    | some o2 =>
      cases h2 : deref s.heap q with
      | none => simp [h1, h2] at h
      | some o =>
        simp only [h1, h2, Option.map_some', Option.some.injEq] at h
        simp [h]
  · simp only [List.filter_cons, List.filter_nil, hnew, Option.any_some, hname]
    by_cases h : nm = name <;> simp [h]


theorem State.registered_sublist (s : State) (name : String) :
    (s.registered name).Sublist s.natreg.nfuns := List.filter_sublist _

theorem State.registered_nodup (s : State) (name : String)
    (hI : s.natreg.nfuns = List.range' 1 s.heap.length) : (s.registered name).Nodup := by
  apply List.Nodup.sublist (State.registered_sublist s name)
  rw [hI]
  exact List.nodup_range' 1 s.heap.length

theorem State.Inv_extend (s s2 : State) (nm : String) (newobj : NativeFun) (hinv : s.Inv)
    (hlen : s2.heap.length = s.heap.length + 1)
    (hnfuns : s2.natreg.nfuns = s.natreg.nfuns ++ [s.heap.length + 1])
    (hnew : deref s2.heap (s.heap.length + 1) = some newobj) (hname : newobj.name = nm)
    (hidx : newobj.idx = toInt s.heap.length)
    (hnames : ∀ q, q ≠ s.heap.length + 1 →
      (deref s2.heap q).map (fun o => o.name) = (deref s.heap q).map (fun o => o.name))
    (hidxs : ∀ q, q ≠ s.heap.length + 1 →
      (deref s2.heap q).map (fun o => o.idx) = (deref s.heap q).map (fun o => o.idx))
    (hfirsts : ∀ q, q ≠ s.heap.length + 1 →
      (deref s2.heap q).map (fun o => o.first) = (deref s.heap q).map (fun o => o.first))
    (hlook : ∀ name, name ≠ nm → s2.natreg.nfunlookup name = s.natreg.nfunlookup name)
    (hcase :
      (s.registered nm = [] ∧ s2.natreg.nfunlookup nm = some (s.heap.length + 1) ∧
        newobj.overloads = 0 ∧ newobj.first = s.heap.length + 1 ∧
        ∀ q, q ≠ s.heap.length + 1 →
          (deref s2.heap q).map (fun o => o.overloads)
            = (deref s.heap q).map (fun o => o.overloads)) ∨
      (∃ d1 rest e, s.registered nm = d1 :: rest ∧ deref s.heap d1 = some e ∧
        s2.natreg.nfunlookup nm = some d1 ∧
        newobj.overloads = e.overloads ∧ newobj.first = e.first ∧
        (deref s2.heap d1).map (fun o => o.overloads) = some (s.heap.length + 1) ∧
        ∀ q, q ≠ s.heap.length + 1 → q ≠ d1 →
          (deref s2.heap q).map (fun o => o.overloads)
            = (deref s.heap q).map (fun o => o.overloads))) :
    s2.Inv := by
  obtain ⟨hI, hJ, hK⟩ := hinv
  have hle : ∀ name q, q ∈ s.registered name → q ≠ s.heap.length + 1 := by
    intro name q hq
    have h1 := ((State.mem_registered s name q).mp hq).1
    rw [hI, List.mem_range'_1] at h1
    omega
  refine ⟨?_, ?_, ?_⟩
  · rw [hnfuns, hlen, hI, List.range'_1_concat, Nat.add_comm 1]
  · intro q o ho
    by_cases hq : q = s.heap.length + 1
    · subst hq
      rw [hnew] at ho
      cases ho
      simpa using hidx
    · have h := hidxs q hq
      rw [ho] at h
      cases h2 : deref s.heap q with
      | none => simp [h2] at h
      | some o2 =>
        simp only [h2, Option.map_some', Option.some.injEq] at h
        rw [h]
        exact hJ q o2 h2
  · intro name
    have hreg := State.registered_extend s s2 nm name newobj hI hnfuns hnew hname hnames
    by_cases hn : nm = name
    · subst hn
      rw [if_pos rfl] at hreg
      rcases hcase with ⟨h0, hl2, hov, hfi, hovs⟩ | ⟨d1, rest, e, h0, he, hl2, hov, hfi, hd1, hovs⟩
      · rw [h0] at hreg
        simp only [List.nil_append] at hreg
        rw [hreg]
        refine ⟨fun h => by simp at h, ?_⟩
        intro d1 rest hd
        simp only [List.cons.injEq] at hd
        obtain ⟨rfl, rfl⟩ := hd
        refine ⟨hl2, ?_, ?_⟩
        · rw [overloadChain_succ _ _ _ _ hnew, hov, overloadChain_zero]
          rfl
        · intro d hd
          simp only [List.mem_singleton] at hd
          subst hd
          simp [hnew, hfi]
      · rw [h0] at hreg
        rw [hreg]
        refine ⟨fun h => by simp at h, ?_⟩
        intro d1x restx hd
        simp only [List.cons_append, List.cons.injEq] at hd
        obtain ⟨rfl, rfl⟩ := hd
        obtain ⟨-, hch, hfs⟩ := (hK nm).2 d1 rest h0
        have hnd := State.registered_nodup s nm hI
        rw [h0] at hnd
        have hd1ne : d1 ≠ s.heap.length + 1 := hle nm d1 (by rw [h0]; exact List.mem_cons_self _ _)
        have hefirst : e.first = d1 := by
          have := hfs d1 (List.mem_cons_self _ _)
          simpa [he] using this
        refine ⟨hl2, ?_, ?_⟩
        · rw [overloadChain_succ _ _ _ _ he] at hch
          cases hr : overloadChain s.heap rest.length e.overloads with
          | none => simp [hr] at hch
          | some l =>
            simp only [hr, Option.map_some', Option.some.injEq, List.cons.injEq, true_and] at hch
            subst hch
            cases hd2 : deref s2.heap d1 with
            | none => simp [hd2] at hd1
            | some e2 =>
              simp only [hd2, Option.map_some', Option.some.injEq] at hd1
              have hlen2 : (rest ++ [s.heap.length + 1]).length + 1 = (rest.length + 1) + 1 := by
                simp
              rw [hlen2, overloadChain_succ _ _ _ _ hd2, hd1, overloadChain_succ _ _ _ _ hnew, hov]
              have hfr : overloadChain s2.heap rest.length e.overloads = some rest.reverse := by
                apply overloadChain_congr s.heap s2.heap _ _ _ hr
                intro q hq
                have hq2 : q ∈ rest := List.mem_reverse.mp hq
                apply hovs q
                · exact hle nm q (by rw [h0]; exact List.mem_cons_of_mem _ hq2)
                · intro hqd
                  subst hqd
                  exact (List.nodup_cons.mp hnd).1 hq2
              rw [hfr]
              simp
        · intro d hd
          simp only [List.mem_cons, List.mem_append, List.mem_singleton, List.not_mem_nil,
            or_false] at hd
          rcases hd with rfl | hd | rfl
          · rw [hfirsts _ hd1ne]
            exact hfs _ (List.mem_cons_self _ _)
          · rw [hfirsts d (hle nm d (by rw [h0]; exact List.mem_cons_of_mem _ hd))]
            exact hfs d (List.mem_cons_of_mem _ hd)
          · simp [hnew, hfi, hefirst]
    · rw [if_neg hn, List.append_nil] at hreg
      rw [hreg, hlook name (fun h => hn h.symm)]
      refine ⟨(hK name).1, ?_⟩
      intro d1 rest hd
      obtain ⟨h1, hch, hfs⟩ := (hK name).2 d1 rest hd
      refine ⟨h1, ?_, ?_⟩
      · apply overloadChain_congr s.heap s2.heap _ _ _ hch
        intro q hq
        have hq2 : q ∈ s.registered name := by
          rw [hd]
          rcases List.mem_cons.mp hq with rfl | h
          · exact List.mem_cons_self _ _
          · exact List.mem_cons_of_mem _ (List.mem_reverse.mp h)
        have hqn := hle name q hq2
        obtain ⟨-, o, ho, hon⟩ := (State.mem_registered s name q).mp hq2
        rcases hcase with ⟨_, _, _, _, hovs⟩ | ⟨d1x, restx, e, h0, he, _, _, _, _, hovs⟩
        · exact hovs q hqn
        · apply hovs q hqn
          intro hqd
          subst hqd
          obtain ⟨-, o2, ho2, hon2⟩ := (State.mem_registered s nm q).mp
            (by rw [h0]; exact List.mem_cons_self _ _)
          rw [ho] at ho2
          cases ho2
          exact hn (hon2.symm.trans hon)
      · intro d hdm
        rw [hfirsts d (hle name d (by rw [hd]; exact hdm))]
        exact hfs d hdm


theorem State.Inv_empty : State.empty.Inv := by
  refine ⟨rfl, ?_, ?_⟩
  · intro q o h
    cases q <;> simp [State.empty, deref] at h
  · intro name
    exact ⟨fun _ => rfl, fun d1 rest h => by simp [State.registered, State.empty, NativeRegistry.empty] at h⟩

theorem State.Inv_declare (ndebug : Bool) (s s2 : State) (d : Decl) (hinv : s.Inv)
    (h : State.declare ndebug s d = .ok s2) : s2.Inv := by
  cases d with
  | subsystem name =>
    simp only [State.declare, Except.ok.injEq] at h
    subst h
    exact hinv
  | native nm args retvals ncm =>
    obtain ⟨hI, hJ, hK⟩ := hinv
    have hnl : s.natreg.nfuns.length = s.heap.length := by rw [hI]; simp
    have ho : deref (s.heap ++ [NativeFun.init (s.heap.length + 1) nm args retvals ncm])
        (s.heap.length + 1) = some (NativeFun.init (s.heap.length + 1) nm args retvals ncm) :=
      deref_append_new _ _
    simp only [State.declare] at h
    cases hreg : s.registered nm with
    | nil =>
      have hl : NativeRegistry.FindNative s.natreg nm = 0 := by
        simp [NativeRegistry.FindNative, (hK nm).1 hreg]
      have hr := Register_no_head ndebug
        { s with heap := s.heap ++ [NativeFun.init (s.heap.length + 1) nm args retvals ncm] }
        (s.heap.length + 1) _ ho hl
      rw [hr] at h
      simp only [Except.ok.injEq] at h
      subst h
      simp only [store_append_new]
      apply State.Inv_extend s _ nm _ ⟨hI, hJ, hK⟩
      · simp
      · rfl
      · exact deref_append_new _ _
      · rfl
      · show toInt s.natreg.nfuns.length = toInt s.heap.length
        rw [hnl]
      · intro q hq
        show Option.map _ (deref (s.heap ++ [_]) q) = _
        rw [deref_append_ne _ _ hq]
      · intro q hq
        show Option.map _ (deref (s.heap ++ [_]) q) = _
        rw [deref_append_ne _ _ hq]
      · intro q hq
        show Option.map _ (deref (s.heap ++ [_]) q) = _
        rw [deref_append_ne _ _ hq]
      · intro name hn
        simp [NativeRegistry.setLookup, NativeFun.init, hn]
      · left
        refine ⟨hreg, ?_, rfl, rfl, ?_⟩
        · simp [NativeRegistry.setLookup, NativeFun.init]
        · intro q hq
          show Option.map _ (deref (s.heap ++ [_]) q) = _
          rw [deref_append_ne _ _ hq]
    | cons d1 rest =>
      obtain ⟨hl1, hch, hfs⟩ := (hK nm).2 d1 rest hreg
      have hd1m : d1 ∈ s.natreg.nfuns :=
        ((State.mem_registered s nm d1).mp (by rw [hreg]; exact List.mem_cons_self _ _)).1
      rw [hI, List.mem_range'_1] at hd1m
      obtain ⟨e, he⟩ : ∃ e, deref s.heap d1 = some e := deref_isSome_of_le _ (by omega) (by omega)
      have hl : NativeRegistry.FindNative s.natreg nm = d1 := by
        simp [NativeRegistry.FindNative, hl1]
      have hr := Register_head ndebug
        { s with heap := s.heap ++ [NativeFun.init (s.heap.length + 1) nm args retvals ncm] }
        (s.heap.length + 1) d1 _ e _ ho hl (by omega) (by omega)
        (deref_append_left _ he) rfl
      cases hc : NativeRegistry.clash
        { NativeFun.init (s.heap.length + 1) nm args retvals ncm with
            idx := toInt s.natreg.nfuns.length,
            subsystemid := toInt (sizeMinusOne s.natreg.subsystems.length) } e with
      | true =>
        rw [hr.1 hc] at h
        cases h
      | false =>
        obtain ⟨heap4, hreg4, hlen4, hn4, hd4, hq4⟩ := hr.2 hc
        rw [hreg4] at h
        simp only [Except.ok.injEq] at h
        subst h
        have hq5 : ∀ q, q ≠ s.heap.length + 1 → q ≠ d1 → deref heap4 q = deref s.heap q := by
          intro q h1 h2
          rw [hq4 q h1 h2]
          exact deref_append_ne _ _ h1
        apply State.Inv_extend s _ nm _ ⟨hI, hJ, hK⟩
        · show heap4.length = _
          rw [hlen4]; simp
        · rfl
        · exact hn4
        · rfl
        · show toInt s.natreg.nfuns.length = toInt s.heap.length
          rw [hnl]
        · intro q hq
          show Option.map _ (deref heap4 q) = _
          by_cases hqd : q = d1
          · subst hqd; rw [hd4, he]; rfl
          · rw [hq5 q hq hqd]
        · intro q hq
          show Option.map _ (deref heap4 q) = _
          by_cases hqd : q = d1
          · subst hqd; rw [hd4, he]; rfl
          · rw [hq5 q hq hqd]
        · intro q hq
          show Option.map _ (deref heap4 q) = _
          by_cases hqd : q = d1
          · subst hqd; rw [hd4, he]; rfl
          · rw [hq5 q hq hqd]
        · intro name hn
          simp [NativeRegistry.setLookup, NativeFun.init, hn]
        · right
          refine ⟨d1, rest, e, hreg, he, ?_, rfl, rfl, ?_, ?_⟩
          · simp [NativeRegistry.setLookup, NativeFun.init]
          · show Option.map _ (deref heap4 d1) = _
            rw [hd4]; rfl
          · intro q h1 h2
            show Option.map _ (deref heap4 q) = _
            rw [hq5 q h1 h2]

theorem State.Inv_run (ndebug : Bool) (ops : List Decl) :
    ∀ (s s2 : State), s.Inv → State.run ndebug s ops = .ok s2 → s2.Inv := by
  induction ops with
  | nil =>
    intro s s2 hinv h
    simp only [State.run, Except.ok.injEq] at h
    subst h
    exact hinv
  | cons d ds ih =>
    intro s s2 hinv h
    rw [State.run] at h
    cases hd : State.declare ndebug s d with
    | error e => rw [hd] at h; cases h
    | ok s1 =>
      rw [hd] at h
      exact ih s1 s2 (State.Inv_declare ndebug s s1 d hinv hd) h


theorem deref_modify {α : Type} (heap : List α) (p q : Nat) (f : α → α) :
    deref (modify heap p f) q = if q = p then (deref heap q).map f else deref heap q := by
  unfold modify
  cases hp : deref heap p with
  | none =>
    by_cases hq : q = p
    · subst hq; rw [if_pos rfl, hp]; rfl
    · rw [if_neg hq]
  | some x =>
    by_cases hq : q = p
    · subst hq
      simp only [if_true, hp, Option.map_some']
      exact deref_store_same _ hp
    · simp only [hq, if_false]
      exact deref_store_ne _ _ hq

theorem modify_keeps {α : Type} (heap : List α) (p q : Nat) (f : α → α) (P : α → Prop)
    (hf : ∀ x, P x → P (f x)) (h : ∃ o, deref heap q = some o ∧ P o) :
    ∃ o, deref (modify heap p f) q = some o ∧ P o := by
  obtain ⟨o, ho, hP⟩ := h
  rw [deref_modify]
  by_cases hq : q = p
  · rw [if_pos hq, ho]
    exact ⟨f o, rfl, hf o hP⟩
  · rw [if_neg hq]
    exact ⟨o, ho, hP⟩

/-- What a successful `Register` leaves in the descriptor and in `nfuns`. -/
theorem Register_stamps (ndebug : Bool) (s s2 : State) (nf : Nat)
    (h : NativeRegistry.Register ndebug s nf = .ok s2) :
    (∃ o, deref s2.heap nf = some o ∧
      (o.idx = toInt s.natreg.nfuns.length ∧
       o.subsystemid = toInt (sizeMinusOne s.natreg.subsystems.length))) ∧
    s2.natreg.nfuns = s.natreg.nfuns ++ [nf] ∧
    s2.natreg.subsystems = s.natreg.subsystems := by
  unfold NativeRegistry.Register at h
  generalize toInt s.natreg.nfuns.length = i at h ⊢
  generalize toInt (sizeMinusOne s.natreg.subsystems.length) = j at h ⊢
  cases ho : deref s.heap nf with
  | none => simp [ho] at h
  | some o =>
    simp only [ho] at h
    have h1n : deref (store s.heap nf ({ o with idx := i, subsystemid := j } : NativeFun)) nf
        = some ({ o with idx := i, subsystemid := j } : NativeFun) := deref_store_same _ ho
    by_cases hex : (s.natreg.nfunlookup o.name).getD 0 = 0
    · rw [if_neg (by simpa using hex)] at h
      simp only [Except.ok.injEq] at h
      subst h
      exact ⟨⟨_, h1n, rfl, rfl⟩, rfl, rfl⟩
    · rw [if_pos (by simpa using hex)] at h
      cases he : deref (store s.heap nf ({ o with idx := i, subsystemid := j } : NativeFun))
          ((s.natreg.nfunlookup o.name).getD 0) with
      | none => rw [he] at h; cases h
      | some e =>
        rw [he] at h
        simp only at h
        by_cases hc : NativeRegistry.clash ({ o with idx := i, subsystemid := j } : NativeFun)
            e = true
        · rw [if_pos hc] at h
          cases ndebug <;> cases h
        · rw [if_neg hc] at h
          split at h
          · cases h
          · simp only [Except.ok.injEq] at h
            subst h
            refine ⟨?_, rfl, rfl⟩
            dsimp only
            refine modify_keeps _ _ nf _ (fun x : NativeFun => x.idx = i ∧ x.subsystemid = j) ?_ ?_
            · intro x hx; exact hx
            refine modify_keeps _ _ nf _ (fun x : NativeFun => x.idx = i ∧ x.subsystemid = j) ?_ ?_
            · intro x hx; exact hx
            refine modify_keeps _ _ nf _ (fun x : NativeFun => x.idx = i ∧ x.subsystemid = j) ?_ ?_
            · intro x hx; exact hx
            exact ⟨_, h1n, rfl, rfl⟩

/-! ## Results on the registry -/

/-- C2: overload chaining.  In a state reached from the empty one by
successful registrations, if `d1 :: rest` are the descriptors registered
under `name`, in registration order, then `FindNative name` is `d1`, following
`overloads` from `d1` visits `d1` and then `rest` from the newest to the oldest
before it reaches the null pointer, and the `first` link of every one of these
descriptors is `d1`. -/
theorem C2_overload_chain (ndebug : Bool) (ops : List Decl) (s : State) (name : String)
    (d1 : Nat) (rest : List Nat)
    (hrun : State.run ndebug State.empty ops = .ok s)
    (hreg : s.registered name = d1 :: rest) :
    NativeRegistry.FindNative s.natreg name = d1 ∧
    overloadChain s.heap (rest.length + 1) d1 = some (d1 :: rest.reverse) ∧
    ∀ d ∈ d1 :: rest, (deref s.heap d).map (fun o => o.first) = some d1 := by
  obtain ⟨-, -, hK⟩ := State.Inv_run ndebug ops State.empty s State.Inv_empty hrun
  obtain ⟨h1, h2, h3⟩ := (hK name).2 d1 rest hreg
  exact ⟨by simp [NativeRegistry.FindNative, h1], h2, h3⟩


/-- C2, at "add", "sub", "add", "add": the chain from descriptor 1 runs through
4 and 3. -/
theorem C2_overload_chain_witness :
    ∃ s, State.run false State.empty
        [Decl.native "add" ⟨[], none⟩ ⟨[], none⟩ NCM_NONE,
         Decl.native "sub" ⟨[], none⟩ ⟨[], none⟩ NCM_NONE,
         Decl.native "add" ⟨[], none⟩ ⟨[], none⟩ NCM_NONE,
         Decl.native "add" ⟨[], none⟩ ⟨[], none⟩ NCM_NONE] = .ok s ∧
      s.registered "add" = [1, 3, 4] ∧
      NativeRegistry.FindNative s.natreg "add" = 1 ∧
      overloadChain s.heap 3 1 = some [1, 4, 3] ∧
      ∀ d ∈ [1, 3, 4], (deref s.heap d).map (fun o => o.first) = some 1 := by
  have key : (match State.run false State.empty
        [Decl.native "add" ⟨[], none⟩ ⟨[], none⟩ NCM_NONE,
         Decl.native "sub" ⟨[], none⟩ ⟨[], none⟩ NCM_NONE,
         Decl.native "add" ⟨[], none⟩ ⟨[], none⟩ NCM_NONE,
         Decl.native "add" ⟨[], none⟩ ⟨[], none⟩ NCM_NONE] with
      | .ok s => some (s.registered "add")
      | .error _ => none) = some [1, 3, 4] := by decide
  cases h : State.run false State.empty
        [Decl.native "add" ⟨[], none⟩ ⟨[], none⟩ NCM_NONE,
         Decl.native "sub" ⟨[], none⟩ ⟨[], none⟩ NCM_NONE,
         Decl.native "add" ⟨[], none⟩ ⟨[], none⟩ NCM_NONE,
         Decl.native "add" ⟨[], none⟩ ⟨[], none⟩ NCM_NONE] with
  | error e => rw [h] at key; cases key
  | ok s =>
    rw [h] at key
    simp only [Option.some.injEq] at key
    exact ⟨s, rfl, key, C2_overload_chain false _ s "add" 1 [3, 4] h key⟩


/-- C3: registration index and subsystem id.  A successful `Register` leaves
in the descriptor a registration index equal to the number of descriptors
registered before it and a subsystem id equal to the number of declared
subsystem labels minus one (both counts below 2^31, so that the conversions to
`int` are exact); and in a state reached from the empty one by successful
registrations the descriptor at position `i` of the registration-order list
`nfuns` has index `i`. -/
theorem C3_index_and_subsystem (ndebug : Bool) (s0 s1 : State) (nf : Nat)
    (ops : List Decl) (s : State) (i : Nat)
    (hreg : NativeRegistry.Register ndebug s0 nf = .ok s1)
    (hn : s0.natreg.nfuns.length < 2 ^ 31) (hs : s0.natreg.subsystems.length < 2 ^ 31)
    (hrun : State.run ndebug State.empty ops = .ok s)
    (hi : i < s.natreg.nfuns.length) (hsmall : s.natreg.nfuns.length < 2 ^ 31) :
    (∃ o, deref s1.heap nf = some o ∧ o.idx = (s0.natreg.nfuns.length : Int) ∧
      o.subsystemid = (s0.natreg.subsystems.length : Int) - 1) ∧
    s1.natreg.nfuns = s0.natreg.nfuns ++ [nf] ∧
    (∃ o, deref s.heap (s.natreg.nfuns.get ⟨i, hi⟩) = some o ∧ o.idx = (i : Int)) := by
  obtain ⟨⟨o, ho, hidx, hsub⟩, hnf, -⟩ := Register_stamps ndebug s0 s1 nf hreg
  refine ⟨⟨o, ho, ?_, ?_⟩, hnf, ?_⟩
  · rw [hidx, toInt_small _ hn]
  · rw [hsub, toInt_sizeMinusOne _ hs]
  · obtain ⟨hI, hJ, -⟩ := State.Inv_run ndebug ops State.empty s State.Inv_empty hrun
    have hlen : s.natreg.nfuns.length = s.heap.length := by rw [hI]; simp
    have hget : s.natreg.nfuns.get ⟨i, hi⟩ = i + 1 := by
      have h1 : s.natreg.nfuns[i]? = some (i + 1) := by
        rw [hI, List.getElem?_range' _ _ (by omega)]
        simp; omega
      have h2 := List.getElem?_eq_getElem hi
      rw [h1] at h2
      simpa using h2.symm
    rw [hget]
    obtain ⟨o, ho⟩ := deref_isSome_of_le s.heap (q := i + 1) (by omega) (by omega)
    refine ⟨o, ho, ?_⟩
    rw [hJ (i + 1) o ho]
    simp only [Nat.add_sub_cancel]
    exact toInt_small i (by omega)

/-- C3, at `NativeSubSystemStart("math")` followed by the registration of
"add": the descriptor has index 0 and subsystem id 0. -/
theorem C3_index_and_subsystem_witness :
    ∃ s, State.run false State.empty
        [Decl.subsystem "math", Decl.native "add" ⟨[], none⟩ ⟨[], none⟩ NCM_NONE] = .ok s ∧
      s.natreg.nfuns = [1] ∧
      ∃ o, deref s.heap 1 = some o ∧ o.idx = 0 ∧ o.subsystemid = 0 := by
  have key : (match State.run false State.empty
        [Decl.subsystem "math", Decl.native "add" ⟨[], none⟩ ⟨[], none⟩ NCM_NONE] with
      | .ok s => some (s.natreg.nfuns, s.heap)
      | .error _ => none) =
      some ([1], [{ NativeFun.init 1 "add" ⟨[], none⟩ ⟨[], none⟩ NCM_NONE with
                      idx := 0, subsystemid := 0 }]) := by decide
  have hrun : State.run false State.empty
        [Decl.subsystem "math", Decl.native "add" ⟨[], none⟩ ⟨[], none⟩ NCM_NONE]
      = State.declare false
          { heap := [], natreg := NativeRegistry.NativeSubSystemStart NativeRegistry.empty "math" }
          (Decl.native "add" ⟨[], none⟩ ⟨[], none⟩ NCM_NONE) := rfl
  cases h : State.run false State.empty
        [Decl.subsystem "math", Decl.native "add" ⟨[], none⟩ ⟨[], none⟩ NCM_NONE] with
  | error e => rw [h] at key; cases key
  | ok s =>
    rw [h] at key
    simp only [Option.some.injEq, Prod.mk.injEq] at key
    have hnf : s.natreg.nfuns.length = 1 := by rw [key.1]; rfl
    obtain ⟨⟨o, ho, hidx, hsub⟩, -, -⟩ := C3_index_and_subsystem false
      { heap := [NativeFun.init 1 "add" ⟨[], none⟩ ⟨[], none⟩ NCM_NONE],
        natreg := NativeRegistry.NativeSubSystemStart NativeRegistry.empty "math" }
      s 1 _ s 0 (hrun.symm.trans h) (by decide) (by decide) h (by omega) (by omega)
    exact ⟨s, rfl, key.1, o, ho, by simpa using hidx, by simpa using hsub⟩

/-- C4, as stated, fails when assertions are compiled in: registering a second
"add" with a different number of return values stops at `assert(0)`, and that
failure does not carry the name. -/
theorem C4_name_clash_counterexample :
    (match State.run false State.empty
        [Decl.subsystem "math",
         Decl.native "add" ⟨[], none⟩ ⟨[Typed.mk 2 AF_NONE 0 0], none⟩ NCM_NONE,
         Decl.native "add" ⟨[], none⟩ ⟨[], none⟩ NCM_NONE] with
      | .ok _ => none
      | .error e => some e) = some Failure.assertion ∧
    ∀ msg, Failure.assertion ≠ Failure.thrown msg := by
  refine ⟨by decide, ?_⟩
  intro msg h
  cases h

/-- C4, amended: `Register(nf)` fails if and only if a head descriptor exists
under the name of `nf` and `nf` differs from it in the number of arguments,
the number of return values, the subsystem id (the subsystem current at
registration time) or the calling mode; in every other case it succeeds.  The
failure is the `assert(0)` when assertions are compiled in, and the thrown
message "native library name clash: " followed by the name of `nf` when they
are compiled out. -/
theorem C4_name_clash (ndebug : Bool) (s : State) (nf : Nat) (o e : NativeFun)
    (ho : deref s.heap nf = some o)
    (he : NativeRegistry.FindNative s.natreg o.name ≠ 0 →
      deref s.heap (NativeRegistry.FindNative s.natreg o.name) = some e ∧
      nf ≠ NativeRegistry.FindNative s.natreg o.name) :
    ((NativeRegistry.FindNative s.natreg o.name ≠ 0 ∧
        (o.args.v.length ≠ e.args.v.length ∨ o.retvals.v.length ≠ e.retvals.v.length ∨
         toInt (sizeMinusOne s.natreg.subsystems.length) ≠ e.subsystemid ∨ o.ncm ≠ e.ncm)) →
      NativeRegistry.Register ndebug s nf =
        .error (if ndebug then .thrown ("native library name clash: " ++ o.name)
                else .assertion)) ∧
    (¬ (NativeRegistry.FindNative s.natreg o.name ≠ 0 ∧
        (o.args.v.length ≠ e.args.v.length ∨ o.retvals.v.length ≠ e.retvals.v.length ∨
         toInt (sizeMinusOne s.natreg.subsystems.length) ≠ e.subsystemid ∨ o.ncm ≠ e.ncm)) →
      ∃ s2, NativeRegistry.Register ndebug s nf = .ok s2) := by
  by_cases hd : NativeRegistry.FindNative s.natreg o.name = 0
  · constructor
    · intro h
      exact absurd hd h.1
    · intro _
      exact ⟨_, Register_no_head ndebug s nf o ho hd⟩
  · obtain ⟨he1, hne⟩ := he hd
    have hr := Register_head ndebug s nf _ o e _ ho rfl hd hne he1 rfl
    have hcl : NativeRegistry.clash
        { o with idx := toInt s.natreg.nfuns.length,
                 subsystemid := toInt (sizeMinusOne s.natreg.subsystems.length) } e = true ↔
        (o.args.v.length ≠ e.args.v.length ∨ o.retvals.v.length ≠ e.retvals.v.length ∨
         toInt (sizeMinusOne s.natreg.subsystems.length) ≠ e.subsystemid ∨ o.ncm ≠ e.ncm) := by
      generalize toInt (sizeMinusOne s.natreg.subsystems.length) = j
      generalize toInt s.natreg.nfuns.length = i
      simp only [NativeRegistry.clash, Bool.or_eq_true, decide_eq_true_eq]
      tauto
    constructor
    · intro h
      exact hr.1 (hcl.mpr h.2)
    · intro h
      have hc : NativeRegistry.clash
          { o with idx := toInt s.natreg.nfuns.length,
                   subsystemid := toInt (sizeMinusOne s.natreg.subsystems.length) } e = false := by
        cases hb : NativeRegistry.clash
          { o with idx := toInt s.natreg.nfuns.length,
                   subsystemid := toInt (sizeMinusOne s.natreg.subsystems.length) } e with
        | false => rfl
        | true => exact absurd ⟨hd, hcl.mp hb⟩ h
      obtain ⟨heap4, h4, -⟩ := hr.2 hc
      exact ⟨_, h4⟩

/-- C4 amended, with assertions compiled out: a second "add" with a different
number of return values is refused with a message that names "add". -/
theorem C4_name_clash_witness :
    NativeRegistry.Register true
      { heap := [{ NativeFun.init 1 "add" ⟨[], none⟩ ⟨[Typed.mk 2 AF_NONE 0 0], none⟩ NCM_NONE
                     with subsystemid := 0 },
                 NativeFun.init 2 "add" ⟨[], none⟩ ⟨[], none⟩ NCM_NONE],
        natreg := { nfuns := [1],
                    nfunlookup := NativeRegistry.setLookup (fun _ => none) "add" 1,
                    subsystems := ["math"] } } 2
      = .error (.thrown ("native library name clash: " ++ "add")) :=
  (C4_name_clash true
    { heap := [{ NativeFun.init 1 "add" ⟨[], none⟩ ⟨[Typed.mk 2 AF_NONE 0 0], none⟩ NCM_NONE
                   with subsystemid := 0 },
               NativeFun.init 2 "add" ⟨[], none⟩ ⟨[], none⟩ NCM_NONE],
      natreg := { nfuns := [1],
                  nfunlookup := NativeRegistry.setLookup (fun _ => none) "add" 1,
                  subsystems := ["math"] } } 2
    (NativeFun.init 2 "add" ⟨[], none⟩ ⟨[], none⟩ NCM_NONE)
    ({ NativeFun.init 1 "add" ⟨[], none⟩ ⟨[Typed.mk 2 AF_NONE 0 0], none⟩ NCM_NONE
         with subsystemid := 0 })
    rfl (fun _ => ⟨rfl, by decide⟩)).1 ⟨by decide, Or.inr (Or.inl (by decide))⟩

/-! ## Results on the fixed-length marker and on `ArgVector::Add` -/


/-- C16: `ArgVector::Add` leaves the list as it is when a Parameter of the
list has the identifier back-reference of `p`, and otherwise appends `p`
behind the existing elements; adding the same Parameter twice is adding it
once. -/
theorem C16_Add_dedup (av : ArgVector) (p : Arg) :
    ((∃ a ∈ av.v, a.id = p.id) → av.Add p = av) ∧
    ((¬ ∃ a ∈ av.v, a.id = p.id) → av.Add p = { av with v := av.v ++ [p] }) ∧
    (av.Add p).Add p = av.Add p := by
  have hany : (av.v.any (fun arg => decide (arg.id = p.id)) = true) ↔ ∃ a ∈ av.v, a.id = p.id := by
    simp [List.any_eq_true]
  refine ⟨?_, ?_, ?_⟩
  · intro h
    unfold ArgVector.Add
    rw [if_pos (hany.mpr h)]
  · intro h
    unfold ArgVector.Add
    rw [if_neg (fun hc => h (hany.mp hc))]
  · by_cases h : ∃ a ∈ av.v, a.id = p.id
    · have e : av.Add p = av := by
        unfold ArgVector.Add
        rw [if_pos (hany.mpr h)]
      rw [e, e]
    · have e : av.Add p = { av with v := av.v ++ [p] } := by
        unfold ArgVector.Add
        rw [if_neg (fun hc => h (hany.mp hc))]
      rw [e]
      unfold ArgVector.Add
      simp

/-- C16, at a list that holds a Parameter of identifier 7. -/
theorem C16_Add_dedup_witness :
    ArgVector.Add ⟨[⟨2, AF_NONE, 0, 7⟩], none⟩ ⟨3, AF_NONE, 0, 7⟩ = ⟨[⟨2, AF_NONE, 0, 7⟩], none⟩ ∧
    ArgVector.Add ⟨[⟨2, AF_NONE, 0, 7⟩], none⟩ ⟨3, AF_NONE, 0, 8⟩ =
      ⟨[⟨2, AF_NONE, 0, 7⟩, ⟨3, AF_NONE, 0, 8⟩], none⟩ :=
  ⟨(C16_Add_dedup ⟨[⟨2, AF_NONE, 0, 7⟩], none⟩ ⟨3, AF_NONE, 0, 7⟩).1
      ⟨⟨2, AF_NONE, 0, 7⟩, by decide, rfl⟩,
   (C16_Add_dedup ⟨[⟨2, AF_NONE, 0, 7⟩], none⟩ ⟨3, AF_NONE, 0, 8⟩).2.1 (by decide)⟩

/-! ## Results on wrapped kinds, identity and lookup -/


theorem Ty.Wrapped_false_iff (a : Ty) :
    a.Wrapped = false ↔ ¬ (a.t = V_VECTOR ∨ a.t = V_NILABLE) := by
  rw [← Ty.Wrapped_iff]
  simp

/-- C18, as stated, fails for TypeVar: a Type of kind `V_VAR` around the node
at address 1 is not `Wrapped()`, its `Element()` fails the assertion and its
`UnWrapped()` is the Type itself (address 2), not the element. -/
theorem C18_wrapped_kinds_counterexample :
    deref (Ty.Wrap [Ty.mk V_INT 0, Ty.default] 1 2 V_VAR).1 2 = some (Ty.mk V_VAR 1) ∧
    Ty.Wrapped (Ty.mk V_VAR 1) = false ∧
    Ty.Element (Ty.mk V_VAR 1) = none ∧
    Ty.UnWrapped (Ty.mk V_VAR 1) 2 = 2 := by
  decide

/-- C18, amended: `Wrapped()` is true exactly for the kinds Vector and
Nilable.  A node made by `Wrap` around the Type at address `x` with one of
these two kinds has `Element()` and `UnWrapped()` equal to `x`; for every other
kind, TypeVar included, `Element()` fails its assertion and `UnWrapped()`
returns the Type itself. -/
theorem C18_wrapped_kinds (types : List Ty) (a old : Ty) (this x dest : Nat) (w : ValueType)
    (hdest : deref types dest = some old) :
    (a.Wrapped = true ↔ (a.t = V_VECTOR ∨ a.t = V_NILABLE)) ∧
    ((w = V_VECTOR ∨ w = V_NILABLE) →
      ∃ node, deref (Ty.Wrap types x dest w).1 (Ty.Wrap types x dest w).2 = some node ∧
        node.Wrapped = true ∧ node.Element = some x ∧
        node.UnWrapped (Ty.Wrap types x dest w).2 = x) ∧
    (¬ (a.t = V_VECTOR ∨ a.t = V_NILABLE) →
      a.Wrapped = false ∧ a.Element = none ∧ a.UnWrapped this = this) := by
  refine ⟨Ty.Wrapped_iff a, ?_, ?_⟩
  · intro hw
    have hwr : Ty.Wrapped ⟨w, x⟩ = true := (Ty.Wrapped_iff _).mpr hw
    refine ⟨⟨w, x⟩, deref_store_same _ hdest, hwr, ?_, ?_⟩
    · simp [Ty.Element, hwr]
    · simp [Ty.UnWrapped, hwr]
  · intro hk
    have hwr : a.Wrapped = false := (Ty.Wrapped_false_iff a).mpr hk
    simp [Ty.Element, Ty.UnWrapped, hwr]

/-- C18 amended, at a Nilable wrap around the node at address 1. -/
theorem C18_wrapped_kinds_witness :
    ∃ node, deref (Ty.Wrap [Ty.mk V_INT 0, Ty.default] 1 2 V_NILABLE).1
        (Ty.Wrap [Ty.mk V_INT 0, Ty.default] 1 2 V_NILABLE).2 = some node ∧
      node.Wrapped = true ∧ node.Element = some 1 ∧
      node.UnWrapped (Ty.Wrap [Ty.mk V_INT 0, Ty.default] 1 2 V_NILABLE).2 = 1 :=
  (C18_wrapped_kinds [Ty.mk V_INT 0, Ty.default] (Ty.mk V_INT 0) Ty.default 1 1 2 V_NILABLE
    rfl).2.1 (Or.inr rfl)

/-- C19, as stated, fails: two Struct types that refer to distinct entities
with the same index 3 are not `==`. -/
theorem C19_identity_vs_index_counterexample :
    deref [Named.mk "A" 3, Named.mk "B" 3] 1 = some (Named.mk "A" 3) ∧
    deref [Named.mk "A" 3, Named.mk "B" 3] 2 = some (Named.mk "B" 3) ∧
    (Named.mk "A" 3).idx = (Named.mk "B" 3).idx ∧
    Ty.eq [] 0 (Ty.mk V_STRUCT 1) (Ty.mk V_STRUCT 2) = some false := by
  decide

/-- C19, amended: for two Struct types (or two Function types) `==` is
reference identity of the named entity.  Equal types refer to entities of
the same registration index; the converse holds when distinct entities carry
distinct indices. -/
theorem C19_identity_vs_index (types : List Ty) (nameds : List Named) (fuel : Nat)
    (k : ValueType) (A B : Nat) (x y : Named)
    (hk : k = V_FUNCTION ∨ k = V_STRUCT)
    (hx : deref nameds A = some x) (hy : deref nameds B = some y) :
    Ty.eq types fuel ⟨k, A⟩ ⟨k, B⟩ = some (decide (A = B)) ∧
    (Ty.eq types fuel ⟨k, A⟩ ⟨k, B⟩ = some true → x.idx = y.idx) ∧
    (UniqueIndices nameds →
      (Ty.eq types fuel ⟨k, A⟩ ⟨k, B⟩ = some true ↔ x.idx = y.idx)) := by
  have he : Ty.eq types fuel ⟨k, A⟩ ⟨k, B⟩ = some (decide (A = B)) :=
    Ty.eq_struct types fuel k A B (by rcases hk with rfl | rfl <;> simp)
  have h1 : Ty.eq types fuel ⟨k, A⟩ ⟨k, B⟩ = some true → x.idx = y.idx := by
    intro h
    rw [he] at h
    have hAB : A = B := by simpa using h
    subst hAB
    rw [hx] at hy
    cases hy
    rfl
  refine ⟨he, h1, fun hu => ⟨h1, fun hi => ?_⟩⟩
  rw [he, hu A B x y hx hy hi]
  simp

/-- C19 amended, at two Struct types of one entity. -/
theorem C19_identity_vs_index_witness :
    Ty.eq [] 0 (Ty.mk V_STRUCT 1) (Ty.mk V_STRUCT 1) = some (decide (1 = 1)) :=
  (C19_identity_vs_index [] [Named.mk "A" 3, Named.mk "B" 5] 0 V_STRUCT 1 1 (Named.mk "A" 3)
    (Named.mk "A" 3) (Or.inr rfl) rfl rfl).1

theorem Ty.eq_lt_compat (types : List Ty) (nameds : List Named) :
    ∀ (m n : Nat) (a b : Ty), Ty.WellFormed types nameds n a = true →
      Ty.WellFormed types nameds n b = true → Ty.eq types m a b = some true →
      Ty.lt types nameds n a b = some false ∧ Ty.lt types nameds n b a = some false := by
  intro m
  induction m with
  | zero =>
    intro n a b ha hb h
    unfold Ty.eq at h
    by_cases ht : a.t = b.t
    · by_cases hs : a.sub = b.sub
      · have hab : a = b := by
          cases a; cases b; simp_all
        subst hab
        exact ⟨Ty.lt_irrefl types nameds n a ha, Ty.lt_irrefl types nameds n a ha⟩
      · by_cases hw : a.Wrapped = true
        · simp [ht, hs, hw] at h
        · simp [ht, hs, hw] at h
    · simp [ht] at h
  | succ m ih =>
    intro n a b ha hb h
    unfold Ty.eq at h
    by_cases ht : a.t = b.t
    · by_cases hs : a.sub = b.sub
      · have hab : a = b := by
          cases a; cases b; simp_all
        subst hab
        exact ⟨Ty.lt_irrefl types nameds n a ha, Ty.lt_irrefl types nameds n a ha⟩
      · by_cases hw : a.Wrapped = true
        · have hk := (Ty.Wrapped_iff a).mp hw
          obtain ⟨k, x, rfl, hx, hwx⟩ := Ty.WellFormed_wrapped hk ha
          obtain ⟨k2, y, hk2, hy, hwy⟩ := Ty.WellFormed_wrapped (ht ▸ hk) hb
          obtain rfl : k2 = k := by omega
          simp only [ht, hs, hw, if_true, if_false, hx, hy] at h
          rw [Ty.lt_wrapped types nameds _ a b x y ht hk hx hy,
            Ty.lt_wrapped types nameds _ b a y x ht.symm (ht ▸ hk) hy hx]
          exact ih k2 x y hwx hwy h
        · simp [ht, hs, hw] at h
    · simp [ht] at h

/-- C20: equality is compatible with the dispatch order.  For well-formed
Types `a` and `b` (to the depths `da`, `db`), if `a == b` answers true (with
whatever fuel), then with any fuel that covers the depths `a < b` and `b < a`
both answer false. -/
theorem C20_eq_implies_incomparable (types : List Ty) (nameds : List Named)
    (da db n m : Nat) (a b : Ty)
    (ha : Ty.WellFormed types nameds da a = true)
    (hb : Ty.WellFormed types nameds db b = true)
    (hn : da ≤ n ∧ db ≤ n)
    (heq : Ty.eq types m a b = some true) :
    Ty.lt types nameds n a b = some false ∧ Ty.lt types nameds n b a = some false :=
  Ty.eq_lt_compat types nameds m n a b (Ty.WellFormed_mono types nameds da a ha n hn.1)
    (Ty.WellFormed_mono types nameds db b hb n hn.2) heq

/-- C20, at two Vector wrappers around distinct nodes that both hold the
Struct of the entity 1: equal through the recursive case, and unordered. -/
theorem C20_eq_implies_incomparable_witness :
    Ty.eq [Ty.mk V_STRUCT 1, Ty.mk V_STRUCT 1] 1 (Ty.mk V_VECTOR 1) (Ty.mk V_VECTOR 2) = some true ∧
    Ty.lt [Ty.mk V_STRUCT 1, Ty.mk V_STRUCT 1] [Named.mk "A" 3] 1 (Ty.mk V_VECTOR 1)
      (Ty.mk V_VECTOR 2) = some false ∧
    Ty.lt [Ty.mk V_STRUCT 1, Ty.mk V_STRUCT 1] [Named.mk "A" 3] 1 (Ty.mk V_VECTOR 2)
      (Ty.mk V_VECTOR 1) = some false :=
  ⟨by decide,
   C20_eq_implies_incomparable [Ty.mk V_STRUCT 1, Ty.mk V_STRUCT 1] [Named.mk "A" 3] 1 1 1 1
     (Ty.mk V_VECTOR 1) (Ty.mk V_VECTOR 2) (by decide) (by decide) (by decide) (by decide)⟩

/-- C17: in a state reached from the empty one by successful registrations
`FindNative(name)` is the null pointer exactly when no descriptor is
registered under `name`, and otherwise it is the descriptor registered first
under that name (never the null pointer).  `FindNative` is a function of the
registry alone: it has a result for every name and leaves no trace in the
registry. -/
theorem C17_FindNative (ndebug : Bool) (ops : List Decl) (s : State) (name : String)
    (hrun : State.run ndebug State.empty ops = .ok s) :
    (NativeRegistry.FindNative s.natreg name = 0 ↔ s.registered name = []) ∧
    (∀ d1 rest, s.registered name = d1 :: rest →
      NativeRegistry.FindNative s.natreg name = d1 ∧ d1 ≠ 0 ∧
      ∃ o, deref s.heap d1 = some o ∧ o.name = name) := by
  obtain ⟨hI, -, hK⟩ := State.Inv_run ndebug ops State.empty s State.Inv_empty hrun
  have hcons : ∀ d1 rest, s.registered name = d1 :: rest →
      NativeRegistry.FindNative s.natreg name = d1 ∧ d1 ≠ 0 ∧
      ∃ o, deref s.heap d1 = some o ∧ o.name = name := by
    intro d1 rest hreg
    obtain ⟨h1, -, -⟩ := (hK name).2 d1 rest hreg
    obtain ⟨hm, o, ho, hon⟩ := (State.mem_registered s name d1).mp
      (by rw [hreg]; exact List.mem_cons_self _ _)
    rw [hI, List.mem_range'_1] at hm
    exact ⟨by simp [NativeRegistry.FindNative, h1], by omega, o, ho, hon⟩
  refine ⟨⟨fun h => ?_, fun h => ?_⟩, hcons⟩
  · cases hreg : s.registered name with
    | nil => rfl
    | cons d1 rest =>
      obtain ⟨h1, h2, -⟩ := hcons d1 rest hreg
      rw [h1] at h
      exact absurd h h2
  · simp [NativeRegistry.FindNative, (hK name).1 h]

/-- C17, after the registration of "add": "add" is found, "sub" is not. -/
theorem C17_FindNative_witness :
    ∃ s, State.run false State.empty
        [Decl.native "add" ⟨[], none⟩ ⟨[], none⟩ NCM_NONE] = .ok s ∧
      NativeRegistry.FindNative s.natreg "add" = 1 ∧
      NativeRegistry.FindNative s.natreg "sub" = 0 := by
  have key : (match State.run false State.empty
        [Decl.native "add" ⟨[], none⟩ ⟨[], none⟩ NCM_NONE] with
      | .ok s => some (s.registered "add", s.registered "sub")
      | .error _ => none) = some ([1], []) := by decide
  cases h : State.run false State.empty
        [Decl.native "add" ⟨[], none⟩ ⟨[], none⟩ NCM_NONE] with
  | error e => rw [h] at key; cases key
  | ok s =>
    rw [h] at key
    simp only [Option.some.injEq, Prod.mk.injEq] at key
    exact ⟨s, rfl, ((C17_FindNative false _ s "add" h).2 1 [] key.1).1,
      (C17_FindNative false _ s "sub" h).1.mpr key.2⟩

/-! ## Name resolution -/


theorem cstring_of_no_nul (n : List Char) (h : Char.ofNat 0 ∉ n) : cstring n = n := by
  unfold cstring
  rw [List.takeWhile_eq_self_iff]
  intro c hc
  simp only [bne_iff_ne, ne_eq]
  rintro rfl
  exact h hc

theorem strchrComma_none (n : List Char) (h : ',' ∉ n) : strchrComma n = none := by
  induction n with
  | nil => rfl
  | cons c tl ih =>
    have hc : c ≠ ',' := fun e => h (by simp [e])
    have htl : ',' ∉ tl := fun e => h (List.mem_cons_of_mem _ e)
    rw [strchrComma]
    by_cases h0 : c = Char.ofNat 0
    · simp [h0]
    · simp [h0, hc, ih htl]

theorem strchrComma_append (n rest : List Char) (h : ',' ∉ n) (h0 : Char.ofNat 0 ∉ n) :
    strchrComma (n ++ ',' :: rest) = some (n, rest) := by
  induction n with
  | nil =>
    rw [List.nil_append, strchrComma]
    simp
  | cons c tl ih =>
    have hc : c ≠ ',' := fun e => h (by simp [e])
    have hz : c ≠ Char.ofNat 0 := fun e => h0 (by simp [e])
    have htl : ',' ∉ tl := fun e => h (List.mem_cons_of_mem _ e)
    have htl0 : Char.ofNat 0 ∉ tl := fun e => h0 (List.mem_cons_of_mem _ e)
    rw [List.cons_append, strchrComma]
    simp [hz, hc, ih htl htl0]

/-- Scanning a list of comma-free names joined by commas finds the name at
each position and fails the assertion past the last one. -/
theorem ArgVector.scanName_joinCommas (names : List (List Char)) :
    names ≠ [] → (∀ n ∈ names, ',' ∉ n ∧ Char.ofNat 0 ∉ n) →
    ∀ i, ArgVector.scanName i (joinCommas names) = (names.get? i).map String.mk := by
  induction names with
  | nil => intro h; exact absurd rfl h
  | cons n tl ih =>
    intro _ hn i
    obtain ⟨hc, h0⟩ := hn n (List.mem_cons_self _ _)
    cases tl with
    | nil =>
      have hj : joinCommas [n] = n := rfl
      rw [hj]
      cases i with
      | zero =>
        rw [ArgVector.scanName, strchrComma_none n hc]
        simp [cstring_of_no_nul n h0]
      | succ j =>
        rw [ArgVector.scanName, strchrComma_none n hc]
        simp
    | cons n2 rest =>
      have hj : joinCommas (n :: n2 :: rest) = n ++ ',' :: joinCommas (n2 :: rest) := rfl
      rw [hj]
      cases i with
      | zero =>
        rw [ArgVector.scanName, strchrComma_append n _ hc h0]
        simp
      | succ j =>
        rw [ArgVector.scanName, strchrComma_append n _ hc h0]
        simp only
        rw [ih (by simp) (fun m hm => hn m (List.mem_cons_of_mem _ hm)) j]
        simp

/-- C13: positional name resolution.  With a fallback list made of the
comma-free names `names` (at least one) joined by commas, `GetName(i)` for a
Parameter `i` without identifier returns the name at position `i`, and fails
its assertion when `i` is past the last name; for a Parameter with an
identifier it returns the name of the identifier, whatever the fallback list
is. -/
theorem C13_GetName (idents : List Named) (av : ArgVector) (names : List (List Char)) (i : Nat)
    (a : Arg) (hnames : names ≠ [])
    (hfree : ∀ n ∈ names, ',' ∉ n ∧ Char.ofNat 0 ∉ n)
    (hid : av.idlist = some (joinCommas names))
    (hv : av.v.get? i = some a) :
    (a.id = 0 → av.GetName idents i = (names.get? i).map String.mk) ∧
    (a.id = 0 → i < names.length → ∃ n, names.get? i = some n ∧
      av.GetName idents i = some (String.mk n)) ∧
    (a.id = 0 → names.length ≤ i → av.GetName idents i = none) ∧
    (∀ nm idlist2, a.id ≠ 0 → deref idents a.id = some nm →
      ArgVector.GetName idents { av with idlist := idlist2 } i = some nm.name) := by
  have h1 : a.id = 0 → av.GetName idents i = (names.get? i).map String.mk := by
    intro h
    unfold ArgVector.GetName
    simp only [hv, h, ne_eq, not_true_eq_false, if_false, hid]
    exact ArgVector.scanName_joinCommas names hnames hfree i
  refine ⟨h1, ?_, ?_, ?_⟩
  · intro h hi
    refine ⟨names[i], by rw [List.get?_eq_getElem?]; exact List.getElem?_eq_getElem hi, ?_⟩
    rw [h1 h]
    simp [List.getElem?_eq_getElem hi]
  · intro h hi
    rw [h1 h]
    simp [List.getElem?_eq_none hi]
  · intro nm idlist2 h hd
    unfold ArgVector.GetName
    simp only [hv, h, ne_eq, not_false_eq_true, if_true, hd, Option.map_some']

/-- C13, at the fallback list "a,b,c". -/
theorem C13_GetName_witness :
    ArgVector.GetName [] ⟨List.replicate 4 ⟨2, AF_NONE, 0, 0⟩, some ['a', ',', 'b', ',', 'c']⟩ 0
      = some "a" ∧
    ArgVector.GetName [] ⟨List.replicate 4 ⟨2, AF_NONE, 0, 0⟩, some ['a', ',', 'b', ',', 'c']⟩ 2
      = some "c" ∧
    ArgVector.GetName [] ⟨List.replicate 4 ⟨2, AF_NONE, 0, 0⟩, some ['a', ',', 'b', ',', 'c']⟩ 3
      = none :=
  ⟨by decide, by decide,
   (C13_GetName [] ⟨List.replicate 4 ⟨2, AF_NONE, 0, 0⟩, some ['a', ',', 'b', ',', 'c']⟩
      [['a'], ['b'], ['c']] 3 ⟨2, AF_NONE, 0, 0⟩ (by decide) (by decide) rfl rfl).2.2.1 rfl
      (by decide)⟩

/-! ## Malformed input of the signature parser -/


theorem Typed.SetMods_colon_end (self : Typed) (ts : List Ty) :
    Typed.SetMods self [':'] ts = none := by
  rw [Typed.SetMods.eq_def]
  simp

theorem Typed.SetMods_colon_bad (self : Typed) (d : Char) (tl : List Char) (ts : List Ty)
    (h : ¬ ('/'.toNat ≤ d.toNat ∧ d.toNat ≤ '9'.toNat)) :
    Typed.SetMods self (':' :: d :: tl) ts = none := by
  have h2 : ¬ (47 ≤ d.toNat ∧ d.toNat ≤ 57) := h
  rw [Typed.SetMods.eq_def]
  simp
  intro h3 h4
  exact absurd ⟨h3, h4⟩ h2

theorem Typed.SetMods_bad (self : Typed) (c : Char) (tl : List Char) (ts : List Ty)
    (h0 : c ≠ Char.ofNat 0) (ha : c.isAlpha = false)
    (h6 : ¬ (c = '1' ∨ c = '*' ∨ c = '@' ∨ c = '%' ∨ c = ']' ∨ c = '?')) (hc : c ≠ ':') :
    Typed.SetMods self (c :: tl) ts = none := by
  simp only [not_or] at h6
  obtain ⟨h1, h2, h3, h4, h5, h7⟩ := h6
  rw [Typed.SetMods.eq_def]
  simp [h0, ha, h1, h2, h3, h4, h5, h7, hc]

/-- The modifiers of a string without NUL are either malformed, and then the
modifier loop fails whatever the object and the storage, or they split into a
well-formed modifier string without letters and a boundary. -/
theorem Typed.SetMods_cases :
    ∀ (n : Nat) (tl : List Char), tl.length = n → (∀ c ∈ tl, c ≠ Char.ofNat 0) →
      (malformedMods tl = true ∧ ∀ (self : Typed) (ts : List Ty), Typed.SetMods self tl ts = none) ∨
      (malformedMods tl = false ∧ ∃ m rest, tl = m ++ rest ∧ ModifierString m = true ∧
        AtBoundary rest = true ∧ ∀ x ∈ m, x.isAlpha = false) := by
  intro n
  induction n using Nat.strong_induction_on with
  | _ n ih =>
    intro tl hlen hnul
    cases tl with
    | nil => exact Or.inr ⟨rfl, [], [], rfl, rfl, rfl, by simp⟩
    | cons c t =>
      have hc0 : c ≠ Char.ofNat 0 := hnul c (List.mem_cons_self _ _)
      have ht0 : ∀ x ∈ t, x ≠ Char.ofNat 0 := fun x hx => hnul x (List.mem_cons_of_mem _ hx)
      by_cases ha : c.isAlpha = true
      · right
        refine ⟨?_, [], c :: t, rfl, rfl, ha, by simp⟩
        rw [malformedMods.eq_def]
        simp [ha]
      · have ha2 : c.isAlpha = false := by simpa using ha
        by_cases h6 : c = '1' ∨ c = '*' ∨ c = '@' ∨ c = '%' ∨ c = ']' ∨ c = '?'
        · have hmal : malformedMods (c :: t) = malformedMods t := by
            rw [malformedMods.eq_def]
            simp only [ha2, Bool.false_eq_true, if_false, h6, if_true]
          have hstep : ∀ (self : Typed) (ts : List Ty), ∃ self2 ts2,
              Typed.SetMods self (c :: t) ts = Typed.SetMods self2 t ts2 := by
            intro self ts
            rcases h6 with rfl | rfl | rfl | rfl | rfl | rfl
            · exact ⟨_, _, Typed.SetMods_flag self '1' NF_SUBARG1 t ts rfl⟩
            · exact ⟨_, _, Typed.SetMods_flag self '*' NF_ANYVAR t ts rfl⟩
            · exact ⟨_, _, Typed.SetMods_flag self '@' NF_EXPFUNVAL t ts rfl⟩
            · exact ⟨_, _, Typed.SetMods_flag self '%' NF_CORESUME t ts rfl⟩
            · exact ⟨_, _, Typed.SetMods_vector self t ts⟩
            · exact ⟨_, _, Typed.SetMods_nilable self t ts⟩
          rcases ih t.length (by simp at hlen; omega) t rfl ht0 with ⟨h1, h2⟩ | ⟨h1, m, rest, hm, hms, hb, hal⟩
          · left
            refine ⟨by rw [hmal]; exact h1, fun self ts => ?_⟩
            obtain ⟨self2, ts2, he⟩ := hstep self ts
            rw [he]
            exact h2 self2 ts2
          · right
            refine ⟨by rw [hmal]; exact h1, c :: m, rest, by rw [hm]; rfl, ?_, hb, ?_⟩
            · rw [ModifierString.eq_def]
              simp only [h6, if_true]
              exact hms
            · intro x hx
              rcases List.mem_cons.mp hx with rfl | hx
              · exact ha2
              · exact hal x hx
        · by_cases hcol : c = ':'
          · subst hcol
            cases t with
            | nil =>
              left
              exact ⟨by rw [malformedMods.eq_def]; simp, fun self ts => Typed.SetMods_colon_end self ts⟩
            | cons d t2 =>
              by_cases hd : '/'.toNat ≤ d.toNat ∧ d.toNat ≤ '9'.toNat
              · have hd2 : 47 ≤ d.toNat ∧ d.toNat ≤ 57 := hd
                have hmal : malformedMods (':' :: d :: t2) = malformedMods t2 := by
                  rw [malformedMods.eq_def]
                  simp [hd2]
                have hda : d.isAlpha = false := by
                  simp only [Char.isAlpha, Char.isUpper, Char.isLower, Bool.or_eq_false_iff,
                    Bool.and_eq_false_imp, decide_eq_true_eq, decide_eq_false_iff_not]
                  have e : d.val.toNat = d.toNat := rfl
                  constructor
                  · intro h
                    have : 65 ≤ d.val.toNat := by
                      have := UInt32.le_def.mp h
                      simpa using this
                    omega
                  · intro h
                    have : 97 ≤ d.val.toNat := by
                      have := UInt32.le_def.mp h
                      simpa using this
                    omega
                have ht20 : ∀ x ∈ t2, x ≠ Char.ofNat 0 :=
                  fun x hx => ht0 x (List.mem_cons_of_mem _ hx)
                rcases ih t2.length (by simp at hlen; omega) t2 rfl ht20 with
                  ⟨h1, h2⟩ | ⟨h1, m, rest, hm, hms, hb, hal⟩
                · left
                  refine ⟨by rw [hmal]; exact h1, fun self ts => ?_⟩
                  rw [Typed.SetMods_colon self d t2 ts hd]
                  exact h2 _ _
                · right
                  refine ⟨by rw [hmal]; exact h1, ':' :: d :: m, rest, by rw [hm]; rfl, ?_, hb, ?_⟩
                  · rw [ModifierString.eq_def]
                    simp [hd2, hms]
                  · intro x hx
                    simp only [List.mem_cons] at hx
                    rcases hx with rfl | rfl | hx
                    · rfl
                    · exact hda
                    · exact hal x hx
              · left
                have hd2 : ¬ (47 ≤ d.toNat ∧ d.toNat ≤ 57) := hd
                refine ⟨?_, fun self ts => Typed.SetMods_colon_bad self d t2 ts hd⟩
                rw [malformedMods.eq_def]
                simp
                left
                omega
          · left
            refine ⟨?_, fun self ts => Typed.SetMods_bad self c t ts hc0 ha2 h6 hcol⟩
            rw [malformedMods.eq_def]
            simp only [ha2, Bool.false_eq_true, if_false, h6, hcol]


theorem isBaseLetter_cases (c : Char) (h : isBaseLetter c = true) :
    ∃ (L : Char) (lower : Bool), L ∈ baseLetters ∧ c = (if lower then lowerCase L else L) := by
  unfold isBaseLetter at h
  simp only [Bool.or_eq_true, decide_eq_true_eq, List.mem_map] at h
  rcases h with h | ⟨L, hL, rfl⟩
  · exact ⟨c, false, h, by simp⟩
  · exact ⟨L, true, hL, by simp⟩

theorem isBaseLetter_alpha (c : Char) (h : isBaseLetter c = true) : c.isAlpha = true := by
  obtain ⟨L, lower, hL, rfl⟩ := isBaseLetter_cases c h
  simp only [baseLetters, List.mem_cons, List.mem_singleton, List.not_mem_nil, or_false] at hL
  rcases hL with rfl | rfl | rfl | rfl | rfl | rfl | rfl <;> cases lower <;> decide

theorem Typed.Set_not_base (g : Globals) (self : Typed) (c : Char) (tl : List Char)
    (ts : List Ty) (h : isBaseLetter c = false) : Typed.Set g self (c :: tl) ts = none := by
  by_cases hlow : 97 ≤ c.toNat ∧ c.toNat ≤ 122
  · obtain ⟨n, hn⟩ : ∃ n, c.toNat = n := ⟨_, rfl⟩
    have hc : c = Char.ofNat n := by rw [← hn, Char.ofNat_toNat]
    rw [hn] at hlow
    obtain ⟨h1, h2⟩ := hlow
    subst hc
    clear hn
    interval_cases n <;> first
      | (exfalso; revert h; decide)
      | simp [Typed.Set, Typed.baseType]
  · have hb : c ∉ baseLetters := by
      intro hc
      unfold isBaseLetter at h
      simp [hc] at h
    simp only [baseLetters, List.mem_cons, List.mem_singleton, List.not_mem_nil, or_false,
      not_or] at hb
    obtain ⟨b1, b2, b3, b4, b5, b6, b7⟩ := hb
    have hlow2 : ¬ ('a'.toNat ≤ c.toNat ∧ c.toNat ≤ 'z'.toNat) := hlow
    unfold Typed.Set
    simp only [hlow2, decide_False, Bool.false_eq_true, if_false]
    simp [Typed.baseType, b1, b2, b3, b4, b5, b6, b7]


/-- The two outcomes of `Typed::Set` on a string without NUL: the input is
malformed and the parser fails, or it is a base letter, a well-formed modifier
string and a boundary, and the parser gives what it gives on the letter and
its modifiers alone, with the cursor at the boundary. -/
theorem Typed.Set_cases (g : Globals) (self : Typed) (tid : List Char) (ts : List Ty)
    (hnul : ∀ c ∈ tid, c ≠ Char.ofNat 0) :
    (Malformed tid = true ∧ Typed.Set g self tid ts = none) ∨
    (Malformed tid = false ∧ ∃ c m rest, tid = c :: (m ++ rest) ∧ isBaseLetter c = true ∧
      ModifierString m = true ∧ AtBoundary rest = true ∧ (∀ x ∈ m, x.isAlpha = false) ∧
      ∃ r ts2, Typed.Set g self tid ts = some (r, rest, ts2) ∧ r.id = self.id ∧
        Typed.Set g self (c :: m) ts = some (r, [], ts2)) := by
  cases tid with
  | nil => exact Or.inl ⟨rfl, rfl⟩
  | cons c tl =>
    have htl0 : ∀ x ∈ tl, x ≠ Char.ofNat 0 := fun x hx => hnul x (List.mem_cons_of_mem _ hx)
    cases hb : isBaseLetter c with
    | false =>
      left
      exact ⟨by simp [Malformed, hb], Typed.Set_not_base g self c tl ts hb⟩
    | true =>
      obtain ⟨L, lower, hL, hc⟩ := isBaseLetter_cases c hb
      obtain ⟨p, hp⟩ := Typed.baseType_isSome g L hL
      rcases Typed.SetMods_cases tl.length tl rfl htl0 with
        ⟨h1, h2⟩ | ⟨h1, m, rest, hm, hms, hbd, hal⟩
      · left
        refine ⟨by simp [Malformed, hb, h1], ?_⟩
        rw [hc, Typed.Set_base g self L lower tl ts hL, hp]
        simp only [h2]
      · right
        refine ⟨by simp [Malformed, hb, h1], c, m, rest, by rw [hm], hb, hms, hbd, hal, ?_⟩
        have e1 := Typed.Set_result g self L lower m rest ts p hL hp hms hbd
        have e2 := Typed.Set_result g self L lower m [] ts p hL hp hms rfl
        rw [List.append_nil] at e2
        rw [hm, hc]
        exact ⟨_, _, e1, rfl, e2⟩

/-- C12: `Typed::Set` fails exactly on malformed input.  On a string (without
NUL among its characters) the parser has no result if and only if the first
character is not a base letter in upper or lower case (as for the empty
string), or a character read as a modifier is not one of `1 * @ % ] ? :`, or a
`:` is not followed by a character in the range `/` to `9`.  On every other
input it succeeds, and the cursor is left behind the letter and its
modifiers, none of which is alphabetic, at the next alphabetic character or
at the end of the string. -/
theorem C12_Set_aborts_iff_malformed (g : Globals) (self : Typed) (tid : List Char)
    (ts : List Ty) (hnul : ∀ c ∈ tid, c ≠ Char.ofNat 0) :
    (Typed.Set g self tid ts = none ↔ Malformed tid = true) ∧
    (Malformed tid = false → ∃ r c m rest ts2,
      Typed.Set g self tid ts = some (r, rest, ts2) ∧ tid = c :: (m ++ rest) ∧
      (∀ x ∈ m, x.isAlpha = false) ∧ AtBoundary rest = true) := by
  rcases Typed.Set_cases g self tid ts hnul with
    ⟨h1, h2⟩ | ⟨h1, c, m, rest, htid, -, -, hbd, hal, r, ts2, hset, -, -⟩
  · refine ⟨⟨fun _ => h1, fun _ => h2⟩, fun h => ?_⟩
    rw [h1] at h
    cases h
  · refine ⟨⟨fun h => ?_, fun h => ?_⟩, fun _ => ⟨r, c, m, rest, ts2, hset, htid, hal, hbd⟩⟩
    · rw [hset] at h
      cases h
    · rw [h1] at h
      cases h

/-- C12, at "I:3]F" (well-formed: the cursor stops at `F`) and at "I:x",
"I#", "X" and the empty string (malformed). -/
theorem C12_Set_aborts_iff_malformed_witness :
    (∃ r ts2, Typed.Set staticRefs (Typed.fresh staticRefs) ['I', ':', '3', ']', 'F'] staticTypes
      = some (r, ['F'], ts2)) ∧
    Typed.Set staticRefs (Typed.fresh staticRefs) ['I', ':', 'x'] staticTypes = none ∧
    Typed.Set staticRefs (Typed.fresh staticRefs) ['I', '#'] staticTypes = none ∧
    Typed.Set staticRefs (Typed.fresh staticRefs) ['X'] staticTypes = none ∧
    Typed.Set staticRefs (Typed.fresh staticRefs) [] staticTypes = none :=
  ⟨⟨_, _, rfl⟩,
   (C12_Set_aborts_iff_malformed staticRefs (Typed.fresh staticRefs) ['I', ':', 'x'] staticTypes
      (by decide)).1.mpr (by decide),
   by decide, by decide, by decide⟩

/-! ## The NativeFun constructor -/


theorem alpha_ne_nul (c : Char) (h : c.isAlpha = true) : c ≠ Char.ofNat 0 := by
  rintro rfl
  revert h
  decide

theorem TypeLen_cons_alpha (c : Char) (t : List Char) (h : c.isAlpha = true) :
    TypeLen (c :: t) = 1 + TypeLen t := by
  rw [TypeLen]
  simp [alpha_ne_nul c h, h]

theorem TypeLen_append_noalpha (m rest : List Char) (hal : ∀ x ∈ m, x.isAlpha = false)
    (hnul : ∀ x ∈ m, x ≠ Char.ofNat 0) : TypeLen (m ++ rest) = TypeLen rest := by
  induction m with
  | nil => rfl
  | cons c t ih =>
    rw [List.cons_append, TypeLen]
    have h1 := hal c (List.mem_cons_self _ _)
    have h2 := hnul c (List.mem_cons_self _ _)
    simp only [h2, if_false, h1, Bool.false_eq_true, Nat.zero_add]
    exact ih (fun x hx => hal x (List.mem_cons_of_mem _ hx))
      (fun x hx => hnul x (List.mem_cons_of_mem _ hx))

theorem TypeLen_boundary_zero (rest : List Char) (hb : AtBoundary rest = true)
    (h : TypeLen rest = 0) : rest = [] := by
  cases rest with
  | nil => rfl
  | cons c t =>
    have hc : c.isAlpha = true := hb
    rw [TypeLen_cons_alpha c t hc] at h
    omega

theorem segAux_append_noalpha (m rest : List Char) (hal : ∀ x ∈ m, x.isAlpha = false) :
    segAux (m ++ rest) = (m ++ (segAux rest).1, (segAux rest).2) := by
  induction m with
  | nil => rfl
  | cons c t ih =>
    have h1 := hal c (List.mem_cons_self _ _)
    rw [List.cons_append, segAux, ih (fun x hx => hal x (List.mem_cons_of_mem _ hx))]
    simp [h1]

theorem segAux_boundary (rest : List Char) (hb : AtBoundary rest = true) :
    (segAux rest).1 = [] := by
  cases rest with
  | nil => rfl
  | cons c t =>
    have hc : c.isAlpha = true := hb
    rw [segAux]
    simp [hc]

theorem segments_cons (c : Char) (m rest : List Char) (hc : c.isAlpha = true)
    (hal : ∀ x ∈ m, x.isAlpha = false) (hb : AtBoundary rest = true) :
    segments (c :: (m ++ rest)) = (c :: m) :: segments rest := by
  unfold segments
  rw [segAux]
  simp only [hc, if_true]
  rw [segAux_append_noalpha m rest hal, segAux_boundary rest hb]
  simp

theorem segments_of_TypeLen_zero (s : List Char) (hnul : ∀ x ∈ s, x ≠ Char.ofNat 0)
    (h : TypeLen s = 0) : segments s = [] := by
  unfold segments
  induction s with
  | nil => rfl
  | cons c t ih =>
    have h2 := hnul c (List.mem_cons_self _ _)
    rw [TypeLen] at h
    simp only [h2, if_false] at h
    have hc : c.isAlpha = false := by
      cases hc : c.isAlpha with
      | false => rfl
      | true => simp [hc] at h
    simp only [hc, Bool.false_eq_true, if_false, Nat.zero_add] at h
    rw [segAux]
    simp only [hc, Bool.false_eq_true, if_false]
    exact ih (fun x hx => hnul x (List.mem_cons_of_mem _ hx)) h

/-- A well-formed modifier string holds neither a letter nor a NUL. -/
theorem ModifierString_chars :
    ∀ (n : Nat) (m : List Char), m.length = n → ModifierString m = true →
      ∀ x ∈ m, x.isAlpha = false ∧ x ≠ Char.ofNat 0 := by
  intro n m hlen hm
  induction n using Nat.strong_induction_on generalizing m with
  | _ n ih =>
    cases m with
    | nil => intro x hx; cases hx
    | cons c t =>
      rw [ModifierString.eq_def] at hm
      simp only at hm
      by_cases h6 : c = '1' ∨ c = '*' ∨ c = '@' ∨ c = '%' ∨ c = ']' ∨ c = '?'
      · rw [if_pos h6] at hm
        intro x hx
        rcases List.mem_cons.mp hx with rfl | hx
        · rcases h6 with rfl | rfl | rfl | rfl | rfl | rfl <;> decide
        · exact ih t.length (by simp at hlen; omega) t rfl hm x hx
      · rw [if_neg h6] at hm
        by_cases hcol : c = ':'
        · subst hcol
          rw [if_pos rfl] at hm
          cases t with
          | nil => simp at hm
          | cons d t2 =>
            simp only [Bool.and_eq_true, decide_eq_true_eq] at hm
            obtain ⟨hd, hm2⟩ := hm
            have hd2 : 47 ≤ d.toNat ∧ d.toNat ≤ 57 := hd
            have hda : d.isAlpha = false ∧ d ≠ Char.ofNat 0 := by
              obtain ⟨k, hk⟩ : ∃ k, d.toNat = k := ⟨_, rfl⟩
              have hdk : d = Char.ofNat k := by rw [← hk, Char.ofNat_toNat]
              rw [hk] at hd2
              obtain ⟨h1, h2⟩ := hd2
              subst hdk
              clear hk hd
              interval_cases k <;> decide
            intro x hx
            simp only [List.mem_cons] at hx
            rcases hx with rfl | rfl | hx
            · decide
            · exact hda
            · exact ih t2.length (by simp at hlen; omega) t2 rfl hm2 x hx
        · rw [if_neg hcol] at hm
          cases hm

theorem SignatureString_boundary (s : List Char) (h : SignatureString s) :
    AtBoundary s = true := by
  cases h with
  | nil => rfl
  | cons c m rest hc _ _ => exact isBaseLetter_alpha c hc

theorem SignatureString_no_nul (s : List Char) (h : SignatureString s) :
    ∀ x ∈ s, x ≠ Char.ofNat 0 := by
  induction h with
  | nil => intro x hx; cases hx
  | cons c m rest hc hm _ ih =>
    intro x hx
    rcases List.mem_cons.mp hx with rfl | hx
    · exact alpha_ne_nul _ (isBaseLetter_alpha _ hc)
    · rcases List.mem_append.mp hx with hx | hx
      · exact (ModifierString_chars m.length m rfl hm x hx).2
      · exact ih x hx

theorem SignatureString_TypeLen (c : Char) (m rest : List Char) (hc : isBaseLetter c = true)
    (hm : ModifierString m = true) :
    TypeLen (c :: (m ++ rest)) = 1 + TypeLen rest := by
  rw [TypeLen_cons_alpha c _ (isBaseLetter_alpha c hc),
    TypeLen_append_noalpha m rest
      (fun x hx => (ModifierString_chars m.length m rfl hm x hx).1)
      (fun x hx => (ModifierString_chars m.length m rfl hm x hx).2)]


theorem get?_append_replicate (done : List Typed) (x : Typed) (k : Nat) :
    (done ++ List.replicate (k + 1) x).get? done.length = some x := by
  rw [List.get?_eq_getElem?, List.getElem?_append_right (Nat.le_refl _)]
  simp [List.replicate_succ]

theorem set_append_replicate (done : List Typed) (x r : Typed) (k : Nat) :
    (done ++ List.replicate (k + 1) x).set done.length r
      = (done ++ [r]) ++ List.replicate k x := by
  rw [List.set_append_right _ _ (Nat.le_refl _)]
  simp [List.replicate_succ]

theorem GetName_fresh (g : Globals) (idents : List Named) (done : List Typed) (k : Nat)
    (ids : List Char) :
    ArgVector.GetName idents ⟨done ++ List.replicate (k + 1) (Typed.fresh g), some ids⟩ done.length
      = ArgVector.scanName done.length ids := by
  unfold ArgVector.GetName
  simp only [get?_append_replicate]
  simp [Typed.fresh]

/-- The argument loop of the constructor, when it succeeds: the Parameters it
fills in are those the parser gives on the letter-led segments of the
signature string, one by one. -/
theorem NativeFun.argLoop_spec (g : Globals) (idents : List Named) (ids : List Char) :
    ∀ (k i : Nat) (done : List Typed) (typeids : List Char) (ts : List Ty)
      (args2 : ArgVector) (cur : List Char) (ts2 : List Ty),
      done.length = i → (∀ c ∈ typeids, c ≠ Char.ofNat 0) → TypeLen typeids = k →
      NativeFun.argLoop g idents k i ⟨done ++ List.replicate k (Typed.fresh g), some ids⟩ typeids ts
        = some (args2, cur, ts2) →
      ∃ rs, args2 = ⟨done ++ rs, some ids⟩ ∧ rs.length = k ∧
        parseSegments g (segments typeids) ts = some (rs, ts2) ∧
        (∀ r ∈ rs, r.id = 0) ∧ (k ≠ 0 → cur = []) ∧ (k = 0 → cur = typeids) := by
  intro k
  induction k with
  | zero =>
    intro i done typeids ts args2 cur ts2 _ hnul hlen h
    simp only [NativeFun.argLoop, List.replicate_zero, List.append_nil, Option.some.injEq,
      Prod.mk.injEq] at h
    obtain ⟨rfl, rfl, rfl⟩ := h
    refine ⟨[], by simp, rfl, ?_, by simp, fun h => absurd rfl h, fun _ => rfl⟩
    rw [segments_of_TypeLen_zero typeids hnul hlen]
    rfl
  | succ k ih =>
    intro i done typeids ts args2 cur ts2 hi hnul hlen h
    subst hi
    rw [NativeFun.argLoop, GetName_fresh] at h
    cases hn : ArgVector.scanName done.length ids with
    | none => simp [hn] at h
    | some nm =>
      simp only [hn, get?_append_replicate] at h
      rcases Typed.Set_cases g (Typed.fresh g) typeids ts hnul with
        ⟨-, h2⟩ | ⟨-, c, m, rest, htid, hc, hms, hbd, hal, r, ts1, hset, hrid, hseg⟩
      · simp [h2] at h
      · simp only [hset, set_append_replicate] at h
        have hm0 : ∀ x ∈ m, x ≠ Char.ofNat 0 := fun x hx =>
          hnul x (by rw [htid]; exact List.mem_cons_of_mem _ (List.mem_append_left _ hx))
        have hrest0 : ∀ x ∈ rest, x ≠ Char.ofNat 0 := fun x hx =>
          hnul x (by rw [htid]; exact List.mem_cons_of_mem _ (List.mem_append_right _ hx))
        have hca := isBaseLetter_alpha c hc
        have hlen2 : TypeLen rest = k := by
          rw [htid, TypeLen_cons_alpha c _ hca, TypeLen_append_noalpha m rest hal hm0] at hlen
          omega
        obtain ⟨rs, hargs, hrl, hps, hids, hcur, -⟩ :=
          ih (done.length + 1) (done ++ [r]) rest ts1 args2 cur ts2 (by simp) hrest0 hlen2 h
        refine ⟨r :: rs, by rw [hargs]; simp, by simp [hrl], ?_, ?_, ?_, fun h => by omega⟩
        · rw [htid, segments_cons c m rest hca hal hbd, parseSegments, hseg]
          simp only [hps, Option.map_some']
        · intro x hx
          rcases List.mem_cons.mp hx with rfl | hx
          · rw [hrid]; rfl
          · exact hids x hx
        · intro _
          by_cases hk : k = 0
          · subst hk
            have hcr : cur = rest := by
              simp only [NativeFun.argLoop, Option.some.injEq, Prod.mk.injEq] at h
              exact h.2.1.symm
            rw [hcr]
            exact TypeLen_boundary_zero rest hbd hlen2
          · exact hcur hk

theorem get?_append_one (done : List Typed) (x : Typed) :
    (done ++ [x]).get? done.length = some x := by
  rw [List.get?_eq_getElem?, List.getElem?_append_right (Nat.le_refl _)]
  simp

theorem set_append_one (done : List Typed) (x r : Typed) :
    (done ++ [x]).set done.length r = done ++ [r] := by
  rw [List.set_append_right _ _ (Nat.le_refl _)]
  simp

/-- The return value loop of the constructor, when it succeeds. -/
theorem NativeFun.retLoop_spec (g : Globals) (idl : Option (List Char)) :
    ∀ (k i : Nat) (done : List Typed) (rets : List Char) (ts : List Ty)
      (ret2 : ArgVector) (cur : List Char) (ts2 : List Ty),
      done.length = i → (∀ c ∈ rets, c ≠ Char.ofNat 0) → TypeLen rets = k →
      NativeFun.retLoop g k i ⟨done, idl⟩ rets ts = some (ret2, cur, ts2) →
      ∃ rs, ret2 = ⟨done ++ rs, idl⟩ ∧ rs.length = k ∧
        parseSegments g (segments rets) ts = some (rs, ts2) ∧
        (∀ r ∈ rs, r.id = 0) ∧ (k ≠ 0 → cur = []) ∧ (k = 0 → cur = rets) := by
  intro k
  induction k with
  | zero =>
    intro i done rets ts ret2 cur ts2 _ hnul hlen h
    simp only [NativeFun.retLoop, Option.some.injEq, Prod.mk.injEq] at h
    obtain ⟨rfl, rfl, rfl⟩ := h
    refine ⟨[], by simp, rfl, ?_, by simp, fun h => absurd rfl h, fun _ => rfl⟩
    rw [segments_of_TypeLen_zero rets hnul hlen]
    rfl
  | succ k ih =>
    intro i done rets ts ret2 cur ts2 hi hnul hlen h
    subst hi
    rw [NativeFun.retLoop] at h
    simp only [get?_append_one] at h
    rcases Typed.Set_cases g (Typed.fresh g) rets ts hnul with
      ⟨-, h2⟩ | ⟨-, c, m, rest, htid, hc, hms, hbd, hal, r, ts1, hset, hrid, hseg⟩
    · simp [h2] at h
    · simp only [hset, set_append_one] at h
      have hm0 : ∀ x ∈ m, x ≠ Char.ofNat 0 := fun x hx =>
        hnul x (by rw [htid]; exact List.mem_cons_of_mem _ (List.mem_append_left _ hx))
      have hrest0 : ∀ x ∈ rest, x ≠ Char.ofNat 0 := fun x hx =>
        hnul x (by rw [htid]; exact List.mem_cons_of_mem _ (List.mem_append_right _ hx))
      have hca := isBaseLetter_alpha c hc
      have hlen2 : TypeLen rest = k := by
        rw [htid, TypeLen_cons_alpha c _ hca, TypeLen_append_noalpha m rest hal hm0] at hlen
        omega
      obtain ⟨rs, hargs, hrl, hps, hids, hcur, -⟩ :=
        ih (done.length + 1) (done ++ [r]) rest ts1 ret2 cur ts2 (by simp) hrest0 hlen2 h
      refine ⟨r :: rs, by rw [hargs]; simp, by simp [hrl], ?_, ?_, ?_, fun h => by omega⟩
      · rw [htid, segments_cons c m rest hca hal hbd, parseSegments, hseg]
        simp only [hps, Option.map_some']
      · intro x hx
        rcases List.mem_cons.mp hx with rfl | hx
        · rw [hrid]; rfl
        · exact hids x hx
      · intro _
        by_cases hk : k = 0
        · subst hk
          have hcr : cur = rest := by
            simp only [NativeFun.retLoop, Option.some.injEq, Prod.mk.injEq] at h
            exact h.2.1.symm
          rw [hcr]
          exact TypeLen_boundary_zero rest hbd hlen2
        · exact hcur hk


/-- C14, as stated, fails for a signature string without letters: with the
argument signature "?" and the count 0 the constructor succeeds and leaves
the cursor on the `?`, so the string is not consumed. -/
theorem C14_constructor_counterexample :
    (NativeFun.construct staticRefs [] 1 "f" [] ['?'] [] 0 NCM_NONE staticTypes).map
      (fun r => (r.1.args.v, r.2.1)) = some ([], ['?']) := by
  decide

/-- C14, amended: a successfully constructed NativeFun has `nargs` argument
Parameters and as many return Parameters as `rets` has alphabetic characters;
they are, in order, what the signature parser gives on the letter-led
segments of `typeids` and of `rets`, each parsed into a fresh Parameter, and
none has an identifier; a signature string that holds a letter is consumed to
its end, one without a letter is not read at all; the links start as
`overloads` null and `first` the object itself. -/
theorem C14_constructor (g : Globals) (idents : List Named) (this : Nat) (name : String)
    (ids typeids rets : List Char) (nargs : Nat) (ncm : NativeCallMode) (ts : List Ty)
    (nf : NativeFun) (tcur rcur : List Char) (ts2 : List Ty)
    (hnul1 : ∀ c ∈ typeids, c ≠ Char.ofNat 0) (hnul2 : ∀ c ∈ rets, c ≠ Char.ofNat 0)
    (h : NativeFun.construct g idents this name ids typeids rets nargs ncm ts
      = some (nf, tcur, rcur, ts2)) :
    nf.args.v.length = nargs ∧ nf.retvals.v.length = TypeLen rets ∧
    (∃ ts1, parseSegments g (segments typeids) ts = some (nf.args.v, ts1) ∧
      parseSegments g (segments rets) ts1 = some (nf.retvals.v, ts2)) ∧
    (∀ a ∈ nf.args.v ++ nf.retvals.v, a.id = 0) ∧
    (nargs ≠ 0 → tcur = []) ∧ (TypeLen rets ≠ 0 → rcur = []) ∧
    (nargs = 0 → tcur = typeids) ∧ (TypeLen rets = 0 → rcur = rets) ∧
    nf.name = name ∧ nf.ncm = ncm ∧ nf.overloads = 0 ∧ nf.first = this := by
  unfold NativeFun.construct at h
  by_cases hlen : TypeLen typeids = nargs
  · rw [if_neg (by simpa using hlen)] at h
    cases ha : NativeFun.argLoop g idents nargs 0 (ArgVector.new g nargs (some ids)) typeids ts with
    | none => simp [ha] at h
    | some a =>
      obtain ⟨args2, cur1, ts1⟩ := a
      simp only [ha] at h
      cases hr : NativeFun.retLoop g (TypeLen rets) 0 (ArgVector.new g 0 none) rets ts1 with
      | none => simp [hr] at h
      | some r =>
        obtain ⟨ret2, cur2, ts3⟩ := r
        simp only [hr, Option.some.injEq, Prod.mk.injEq] at h
        obtain ⟨rfl, rfl, rfl, rfl⟩ := h
        have ha2 : NativeFun.argLoop g idents nargs 0
            ⟨[] ++ List.replicate nargs (Typed.fresh g), some ids⟩ typeids ts
            = some (args2, cur1, ts1) := ha
        have hr2 : NativeFun.retLoop g (TypeLen rets) 0 ⟨[], none⟩ rets ts1
            = some (ret2, cur2, ts3) := hr
        obtain ⟨rs, e1, l1, p1, i1, c1, c1z⟩ :=
          NativeFun.argLoop_spec g idents ids nargs 0 [] typeids ts args2 cur1 ts1 rfl hnul1 hlen ha2
        obtain ⟨rt, e2, l2, p2, i2, c2, c2z⟩ :=
          NativeFun.retLoop_spec g none (TypeLen rets) 0 [] rets ts1 ret2 cur2 ts3 rfl hnul2 rfl hr2
        subst e1 e2
        refine ⟨by simpa using l1, by simpa using l2, ⟨ts1, by simpa using p1, by simpa using p2⟩,
          ?_, c1, c2, c1z, c2z, rfl, rfl, rfl, rfl⟩
        intro x hx
        simp only [NativeFun.init, List.nil_append, List.mem_append] at hx
        rcases hx with hx | hx
        · exact i1 x hx
        · exact i2 x hx
  · rw [if_pos (by simpa using hlen)] at h
    cases h

/-- C14 amended, at the descriptor of "add" with the identifiers "a,b", the
arguments "II", the return value "I" and the count 2: both arguments and the
return value have the type of `type_int`, which is Int. -/
theorem C14_constructor_witness :
    ∃ nf ts2, NativeFun.construct staticRefs [] 1 "add" ['a', ',', 'b'] ['I', 'I'] ['I'] 2
        NCM_NONE staticTypes = some (nf, [], [], ts2) ∧
      nf.args.v.map (fun a => deref staticTypes a.type)
        = [some (Ty.mk V_INT 0), some (Ty.mk V_INT 0)] ∧
      nf.retvals.v.map (fun a => deref staticTypes a.type) = [some (Ty.mk V_INT 0)] ∧
      nf.args.v.length = 2 ∧ nf.overloads = 0 ∧ nf.first = 1 := by
  have hc : NativeFun.construct staticRefs [] 1 "add" ['a', ',', 'b'] ['I', 'I'] ['I'] 2
        NCM_NONE staticTypes
      = some (NativeFun.init 1 "add"
          ⟨[⟨2, AF_NONE, 0, 0⟩, ⟨2, AF_NONE, 0, 0⟩], some ['a', ',', 'b']⟩
          ⟨[⟨2, AF_NONE, 0, 0⟩], none⟩ NCM_NONE, [], [], staticTypes) := by decide
  have h := C14_constructor staticRefs [] 1 "add" ['a', ',', 'b'] ['I', 'I'] ['I'] 2 NCM_NONE
    staticTypes _ [] [] staticTypes (by decide) (by decide) hc
  exact ⟨_, _, hc, by decide, by decide, h.1, h.2.2.2.2.2.2.2.2.2.2.1, h.2.2.2.2.2.2.2.2.2.2.2⟩


theorem commas_nil : commas [] = 0 := rfl

theorem commas_cons (c : Char) (t : List Char) :
    commas (c :: t) = if c = Char.ofNat 0 then 0 else (if c = ',' then 1 else 0) + commas t := by
  unfold commas cstring
  by_cases h0 : c = Char.ofNat 0
  · simp [h0]
  · by_cases hc : c = ','
    · subst hc
      simp [List.takeWhile_cons]
      omega
    · have hc2 : ¬ (',' = c) := fun h => hc h.symm
      simp [List.takeWhile_cons, h0, hc, List.count_cons, hc2]

theorem strchrComma_commas (ids : List Char) :
    (strchrComma ids = none → commas ids = 0) ∧
    (∀ b a, strchrComma ids = some (b, a) → commas ids = commas a + 1) := by
  induction ids with
  | nil => exact ⟨fun _ => rfl, fun b a h => by simp [strchrComma] at h⟩
  | cons c t ih =>
    rw [strchrComma, commas_cons]
    by_cases h0 : c = Char.ofNat 0
    · simp [h0]
    · by_cases hc : c = ','
      · subst hc
        simp
        omega
      · simp only [h0, hc, if_false, Nat.zero_add]
        constructor
        · intro h
          cases hs : strchrComma t with
          | none => exact ih.1 hs
          | some ba => simp [hs] at h
        · intro b a h
          cases hs : strchrComma t with
          | none => simp [hs] at h
          | some ba =>
            obtain ⟨b2, a2⟩ := ba
            simp only [hs, Option.map_some', Option.some.injEq, Prod.mk.injEq] at h
            obtain ⟨-, rfl⟩ := h
            exact ih.2 b2 a2 hs

/-- The name at position `i` exists exactly when the list has at least `i`
commas. -/
theorem ArgVector.scanName_isSome (i : Nat) :
    ∀ ids, (ArgVector.scanName i ids).isSome = true ↔ i ≤ commas ids := by
  induction i with
  | zero =>
    intro ids
    rw [ArgVector.scanName]
    cases strchrComma ids <;> simp
  | succ j ih =>
    intro ids
    rw [ArgVector.scanName]
    cases hs : strchrComma ids with
    | none =>
      have := (strchrComma_commas ids).1 hs
      simp
      omega
    | some ba =>
      obtain ⟨b, a⟩ := ba
      have := (strchrComma_commas ids).2 b a hs
      simp only
      rw [ih a]
      omega

theorem NativeFun.argLoop_fails (g : Globals) (idents : List Named) (ids : List Char) :
    ∀ (k i : Nat) (done : List Typed) (typeids : List Char) (ts : List Ty),
      done.length = i → (∃ j, i ≤ j ∧ j < i + k ∧ ArgVector.scanName j ids = none) →
      NativeFun.argLoop g idents k i ⟨done ++ List.replicate k (Typed.fresh g), some ids⟩
        typeids ts = none := by
  intro k
  induction k with
  | zero =>
    intro i done typeids ts _ h
    obtain ⟨j, h1, h2, -⟩ := h
    omega
  | succ k ih =>
    intro i done typeids ts hi h
    obtain ⟨j, h1, h2, h3⟩ := h
    subst hi
    rw [NativeFun.argLoop, GetName_fresh]
    cases hn : ArgVector.scanName done.length ids with
    | none => rfl
    | some nm =>
      simp only [get?_append_replicate]
      cases hset : Typed.Set g (Typed.fresh g) typeids ts with
      | none => rfl
      | some res =>
        simp only [set_append_replicate]
        apply ih (done.length + 1) (done ++ [res.1]) _ _ (by simp)
        refine ⟨j, ?_, by omega, h3⟩
        by_contra hlt
        have : j = done.length := by omega
        rw [this, hn] at h3
        cases h3

theorem NativeFun.argLoop_succeeds (g : Globals) (idents : List Named) (ids : List Char)
    (typeids : List Char) (hs : SignatureString typeids) :
    ∀ (i : Nat) (done : List Typed) (ts : List Ty), done.length = i →
      (∀ j, i ≤ j → j < i + TypeLen typeids → (ArgVector.scanName j ids).isSome = true) →
      ∃ r, NativeFun.argLoop g idents (TypeLen typeids) i
        ⟨done ++ List.replicate (TypeLen typeids) (Typed.fresh g), some ids⟩ typeids ts = some r := by
  induction hs with
  | nil =>
    intro i done ts _ _
    exact ⟨_, rfl⟩
  | cons c m rest hc hm hrest ih =>
    intro i done ts hi hnames
    subst hi
    have hlen := SignatureString_TypeLen c m rest hc hm
    have hlen2 : TypeLen (c :: (m ++ rest)) = TypeLen rest + 1 := by omega
    rw [hlen2] at hnames ⊢
    rw [NativeFun.argLoop, GetName_fresh]
    have h0 := hnames done.length (Nat.le_refl _) (by omega)
    obtain ⟨nm, hnm⟩ := Option.isSome_iff_exists.mp h0
    simp only [hnm, get?_append_replicate]
    obtain ⟨L, lower, hL, hcl⟩ := isBaseLetter_cases c hc
    obtain ⟨p, hp⟩ := Typed.baseType_isSome g L hL
    have hset := Typed.Set_result g (Typed.fresh g) L lower m rest ts p hL hp hm
      (SignatureString_boundary rest hrest)
    rw [← hcl] at hset
    simp only [hset, set_append_replicate]
    exact ih (done.length + 1) _ _ (by simp) (fun j h1 h2 => hnames j (by omega) (by omega))

theorem NativeFun.retLoop_succeeds (g : Globals) (rets : List Char) (hs : SignatureString rets) :
    ∀ (i : Nat) (done : List Typed) (ts : List Ty), done.length = i →
      ∃ r, NativeFun.retLoop g (TypeLen rets) i ⟨done, none⟩ rets ts = some r := by
  induction hs with
  | nil =>
    intro i done ts _
    exact ⟨_, rfl⟩
  | cons c m rest hc hm hrest ih =>
    intro i done ts hi
    subst hi
    have hlen := SignatureString_TypeLen c m rest hc hm
    have hlen2 : TypeLen (c :: (m ++ rest)) = TypeLen rest + 1 := by omega
    rw [hlen2, NativeFun.retLoop]
    simp only [get?_append_one]
    obtain ⟨L, lower, hL, hcl⟩ := isBaseLetter_cases c hc
    obtain ⟨p, hp⟩ := Typed.baseType_isSome g L hL
    have hset := Typed.Set_result g (Typed.fresh g) L lower m rest ts p hL hp hm
      (SignatureString_boundary rest hrest)
    rw [← hcl] at hset
    simp only [hset, set_append_one]
    exact ih (done.length + 1) _ _ (by simp)

/-- C15: when the constructor aborts.  It has no result whenever the number
of alphabetic characters of `typeids` differs from `nargs`, and whenever
`nargs` is at least 1 and the identifier list has fewer than `nargs - 1`
commas; for well-formed signature strings there is no other cause: the
construction succeeds exactly when the letter count is `nargs` and the
identifier list is long enough. -/
theorem C15_constructor_aborts (g : Globals) (idents : List Named) (this : Nat) (name : String)
    (ids typeids rets : List Char) (nargs : Nat) (ncm : NativeCallMode) (ts : List Ty) :
    (TypeLen typeids ≠ nargs →
      NativeFun.construct g idents this name ids typeids rets nargs ncm ts = none) ∧
    (1 ≤ nargs → commas ids < nargs - 1 →
      NativeFun.construct g idents this name ids typeids rets nargs ncm ts = none) ∧
    (SignatureString typeids → SignatureString rets →
      ((∃ r, NativeFun.construct g idents this name ids typeids rets nargs ncm ts = some r) ↔
        (TypeLen typeids = nargs ∧ (nargs = 0 ∨ nargs - 1 ≤ commas ids)))) := by
  have hA : TypeLen typeids ≠ nargs →
      NativeFun.construct g idents this name ids typeids rets nargs ncm ts = none := by
    intro h
    unfold NativeFun.construct
    rw [if_pos h]
  have hB : 1 ≤ nargs → commas ids < nargs - 1 →
      NativeFun.construct g idents this name ids typeids rets nargs ncm ts = none := by
    intro h1 h2
    unfold NativeFun.construct
    by_cases hl : TypeLen typeids ≠ nargs
    · rw [if_pos hl]
    · rw [if_neg hl]
      have hf := NativeFun.argLoop_fails g idents ids nargs 0 [] typeids ts rfl
        ⟨nargs - 1, by omega, by omega, by
          cases hn : ArgVector.scanName (nargs - 1) ids with
          | none => rfl
          | some nm =>
            have := (ArgVector.scanName_isSome (nargs - 1) ids).mp (by simp [hn])
            omega⟩
      have hf2 : NativeFun.argLoop g idents nargs 0 (ArgVector.new g nargs (some ids)) typeids ts
          = none := hf
      simp only [hf2]
  refine ⟨hA, hB, fun hs1 hs2 => ⟨fun hr => ?_, fun hc => ?_⟩⟩
  · obtain ⟨r, hr⟩ := hr
    by_cases hl : TypeLen typeids = nargs
    · refine ⟨hl, ?_⟩
      by_cases hn : nargs = 0
      · exact Or.inl hn
      · right
        by_contra hlt
        rw [hB (by omega) (by omega)] at hr
        cases hr
    · rw [hA hl] at hr
      cases hr
  · obtain ⟨hl, hn⟩ := hc
    subst hl
    obtain ⟨a, ha⟩ := NativeFun.argLoop_succeeds g idents ids typeids hs1 0 [] ts rfl
      (fun j _ hj => (ArgVector.scanName_isSome j ids).mpr (by
        rcases hn with hn | hn
        · omega
        · omega))
    obtain ⟨r, hr⟩ := NativeFun.retLoop_succeeds g rets hs2 0 [] a.2.2 rfl
    have ha2 : NativeFun.argLoop g idents (TypeLen typeids) 0
        (ArgVector.new g (TypeLen typeids) (some ids)) typeids ts = some a := ha
    have hr2 : NativeFun.retLoop g (TypeLen rets) 0 (ArgVector.new g 0 none) rets a.2.2
        = some r := hr
    unfold NativeFun.construct
    simp only [ne_eq, not_true_eq_false, if_false, ha2, hr2]
    exact ⟨_, rfl⟩

/-- C15, at the arguments "II": the count 3 aborts, the identifier list "a"
is too short for two arguments, and "a,b" with the count 2 succeeds. -/
theorem C15_constructor_aborts_witness :
    NativeFun.construct staticRefs [] 1 "add" ['a', ',', 'b'] ['I', 'I'] ['I'] 3 NCM_NONE
      staticTypes = none ∧
    NativeFun.construct staticRefs [] 1 "add" ['a'] ['I', 'I'] ['I'] 2 NCM_NONE
      staticTypes = none ∧
    (∃ r, NativeFun.construct staticRefs [] 1 "add" ['a', ',', 'b'] ['I', 'I'] ['I'] 2 NCM_NONE
      staticTypes = some r) :=
  ⟨(C15_constructor_aborts staticRefs [] 1 "add" ['a', ',', 'b'] ['I', 'I'] ['I'] 3 NCM_NONE
      staticTypes).1 (by decide),
   (C15_constructor_aborts staticRefs [] 1 "add" ['a'] ['I', 'I'] ['I'] 2 NCM_NONE
      staticTypes).2.1 (by decide) (by decide),
   ((C15_constructor_aborts staticRefs [] 1 "add" ['a', ',', 'b'] ['I', 'I'] ['I'] 2 NCM_NONE
      staticTypes).2.2
      (SignatureString.cons 'I' [] ['I'] (by decide) rfl
        (SignatureString.cons 'I' [] [] (by decide) rfl SignatureString.nil))
      (SignatureString.cons 'I' [] [] (by decide) rfl SignatureString.nil)).mpr
      ⟨by decide, Or.inr (by decide)⟩⟩

end lobster
